import Mathlib

/-!
Verification of the battle-royale simulation server (tick-based multi-agent
world with A* pathfinding, windowed voting, bounded memory and thinking-history
stores, and a binary tile-map codec).

The definitions below are a shallow embedding of the TypeScript sources:
pure functions become Lean functions, in-place mutation becomes explicit
state passing, JS `Map`/`Set` (whose iteration follows insertion order)
become association lists or ordered lists, JS numbers become ℕ/ℤ/ℚ with the
exact arithmetic the expressions perform (in particular `defense / 2` is real
division, modelled over ℚ), and `Math.random()` results become explicit
parameters constrained to the range the call site produces.
-/

namespace BattleRoyale

/-! ### Tiles and tile maps (shared/types.ts)

TileType is a numeric enum: Passable = 0, Blocked = 1.  We keep the raw
numeric value, as the JS runtime does (the binary codec manipulates it with
bit masks). -/

def TileType.Passable : ℕ := 0

def TileType.Blocked : ℕ := 1

/-- A single tile: numeric enum type plus optional movement weight.
The data model (§3) constrains weight to integers, so the weight is a ℕ. -/
structure Tile where
  type : ℕ
  weight : Option ℕ := none
deriving DecidableEq

/-- Tile map: width, height and a row-major tile matrix (tiles[y][x]). -/
structure TileMap where
  width : ℕ
  height : ℕ
  tiles : List (List Tile)
deriving DecidableEq

/-- Well-formedness invariant from the data model: tiles has exactly height
rows, each of length width. -/
def TileMap.WF (m : TileMap) : Prop :=
  m.tiles.length = m.height ∧ ∀ row ∈ m.tiles, row.length = m.width

/-- Row-major tile lookup by nonnegative indices, with a default that is never
reached on well-formed maps at in-bounds indices. -/
def tileOr (m : TileMap) (x y : ℕ) : Tile :=
  ((m.tiles.getD y []).getD x ⟨TileType.Blocked, none⟩)

/-! ### Binary map codec (BinaryMapStorage)

Bytes are modelled as naturals < 256.  `writeUInt32` stores a u32 little
endian as four bytes (`value & 0xFF`, `(value >> 8) & 0xFF`, ...), which for
`n < 2^32` are exactly the base-256 digits; `readUInt32` reassembles them
with `|` and `>>> 0`, which on bytes equals the weighted sum. -/

def u32le (n : ℕ) : List ℕ :=
  [n % 256, n / 256 % 256, n / 65536 % 256, n / 16777216 % 256]

def readU32 (b0 b1 b2 b3 : ℕ) : ℕ :=
  b0 + 256 * b1 + 65536 * b2 + 16777216 * b3

/-- encodeTile: bits 0-1 the type (`type & 0x03`), bits 2-7 the weight clamped
to [0, 63] (`min(63, max(0, floor(w)))`, identity on ℕ except the upper
clamp), or 0 if the weight is absent. -/
def encodeTile (t : Tile) : ℕ :=
  match t.weight with
  | none => t.type % 4
  | some w => t.type % 4 + 4 * min 63 w

/-- decodeTile: type from bits 0-1, weight from bits 2-7; a zero weight field
decodes to an absent weight. -/
def decodeTile (b : ℕ) : Tile :=
  let ty : ℕ := b % 4
  let wb := b / 4 % 64
  if 0 < wb then ⟨ty, some wb⟩ else ⟨ty, none⟩

/-- serialize: u32 width, u32 height, then one byte per tile scanned row-major
(y outer, x inner). -/
def serialize (m : TileMap) : List ℕ :=
  u32le m.width ++ u32le m.height ++
    (List.range m.height).flatMap
      (fun y => (List.range m.width).map (fun x => encodeTile (tileOr m x y)))

/-- deserialize: reject data shorter than 8 bytes, zero dimensions (the JS
`width <= 0` check; `readUInt32` is nonnegative) or a length other than
`8 + w*h`; otherwise rebuild the tile matrix by consuming one byte per tile
at offset `8 + y*width + x`.  Thrown errors are modelled by `none`. -/
def headerWidth (data : List ℕ) : ℕ :=
  readU32 (data.getD 0 0) (data.getD 1 0) (data.getD 2 0) (data.getD 3 0)

def headerHeight (data : List ℕ) : ℕ :=
  readU32 (data.getD 4 0) (data.getD 5 0) (data.getD 6 0) (data.getD 7 0)

def deserialize (data : List ℕ) : Option TileMap :=
  if data.length < 8 then none
  else if headerWidth data = 0 ∨ headerHeight data = 0 then none
  else if data.length ≠ 8 + headerWidth data * headerHeight data then none
  else some ⟨headerWidth data, headerHeight data,
    (List.range (headerHeight data)).map
      (fun y => ((data.drop (8 + y * headerWidth data)).take (headerWidth data)).map
        decodeTile)⟩

/-- Normalization of the round trip: weight 0 is identified with an absent
weight. -/
def Tile.norm (t : Tile) : Tile :=
  if t.weight = some 0 then ⟨t.type, none⟩ else t

/-- Codec-validity of a tile, from the data model: the type is a real
TileType (0 or 1) and the weight, when present, fits the 6-bit field. -/
def Tile.validCodec (t : Tile) : Prop :=
  t.type ≤ 1 ∧ ∀ w, t.weight = some w → w ≤ 63

/-- Concrete 3-by-3 map of scenario S6: (1,1) Blocked, (0,0) has weight 7. -/
def mapS6 : TileMap :=
  ⟨3, 3,
   [[⟨TileType.Passable, some 7⟩, ⟨TileType.Passable, none⟩, ⟨TileType.Passable, none⟩],
    [⟨TileType.Passable, none⟩, ⟨TileType.Blocked, none⟩, ⟨TileType.Passable, none⟩],
    [⟨TileType.Passable, none⟩, ⟨TileType.Passable, none⟩, ⟨TileType.Passable, none⟩]]⟩

/-! ### MemoryStream (server/src/engine/MemoryStream.ts)

The stream is the private memories array, newest entries at the end.
MAX_MEMORIES = 100.  The prune in `add` models the stable JS `Array.sort`
with comparator `(a, b) => b.importance - a.importance` by a stable insertion
sort on descending importance (the stable sort for a given comparator is
unique, so any stable sort models it).  `Date.now()` timestamps are passed
in explicitly; importance is a JS number, modelled by ℚ. -/

inductive MemoryType
  | Observation
  | Reflection
  | Plan
  | InnerVoice
deriving DecidableEq

structure MemEntry where
  text : String
  importance : ℚ
  type : MemoryType
  timestamp : ℕ
deriving DecidableEq

/-- Stable insert for the descending-importance sort: the inserted element is
original-earlier than every element of the list it is inserted into, so it is
placed before the first element whose importance does not exceed it. -/
def insertDesc (e : MemEntry) : List MemEntry → List MemEntry
  | [] => [e]
  | x :: xs => if x.importance ≤ e.importance
      then e :: x :: xs else x :: insertDesc e xs

/-- Stable sort by importance descending. -/
def sortImportanceDesc : List MemEntry → List MemEntry
  | [] => []
  | x :: xs => insertDesc x (sortImportanceDesc xs)

/-- MemoryStream.add: clamp importance into [1,10], append; when the size
exceeds MAX_MEMORIES, sort by importance descending and slice to
MAX_MEMORIES * 0.8 = 80 entries. -/
def memAdd (ms : List MemEntry) (text : String) (importance : ℚ)
    (ty : MemoryType) (ts : ℕ) : List MemEntry :=
  let ms2 := ms ++ [⟨text, min 10 (max 1 importance), ty, ts⟩]
  if 100 < ms2.length then (sortImportanceDesc ms2).take 80 else ms2

/-- MemoryStream.getRecent: `memories.slice(-n)`; for n = 0 JS `slice(-0)`
is `slice(0)`, the whole array. -/
def memGetRecent (ms : List MemEntry) (n : ℕ) : List MemEntry :=
  if n = 0 then ms else ms.drop (ms.length - n)

/-- Run a sequence of add calls on an initially empty stream. -/
def memRun (ops : List (String × ℚ × MemoryType × ℕ)) : List MemEntry :=
  ops.foldl (fun ms a => memAdd ms a.1 a.2.1 a.2.2.1 a.2.2.2) []

/-- Concrete add sequence refuting C8 as stated: 100 adds of importance 1
followed by one of importance 10 (timestamps 0..100 record insertion order). -/
def memOpsCE : List (String × ℚ × MemoryType × ℕ) :=
  (List.range 101).map
    (fun i => ("", if i = 100 then (10 : ℚ) else 1, MemoryType.Observation, i))

/-! ### JS Map model

A JS `Map` iterates in key-insertion order; `set` of an existing key
overwrites the value in place (keeping the position), `set` of a new key
appends.  We model it as an association list with these exact operations. -/

def jget {α β : Type} [DecidableEq α] : List (α × β) → α → Option β
  | [], _ => none
  | p :: rest, k => if p.1 = k then some p.2 else jget rest k

def jset {α β : Type} [DecidableEq α] : List (α × β) → α → β → List (α × β)
  | [], k, v => [(k, v)]
  | p :: rest, k, v => if p.1 = k then (k, v) :: rest else p :: jset rest k v

def jdel {α β : Type} [DecidableEq α] : List (α × β) → α → List (α × β)
  | [], _ => []
  | p :: rest, k => if p.1 = k then rest else p :: jdel rest k

/-! ### VoteManager (server/src/engine/VoteManager.ts)

The ballot `currentVotes` maps agentId to a map playerId to action. -/

structure Vote where
  agentId : ℕ
  action : String
  playerId : String

/-- The currentVotes ballot. -/
abbrev Ballot := List (ℕ × List (String × String))

/-- submitVote: create the per-agent map if missing, then overwrite the
player's pending action. -/
def submitVote (cv : Ballot) (v : Vote) : Ballot :=
  match jget cv v.agentId with
  | none => jset cv v.agentId (jset ([] : List (String × String)) v.playerId v.action)
  | some inner => jset cv v.agentId (jset inner v.playerId v.action)

/-- Count votes per action, iterating player votes in insertion order. -/
def countActions (playerVotes : List (String × String)) : List (String × ℕ) :=
  playerVotes.foldl (fun acc p => jset acc p.2 ((jget acc p.2).getD 0 + 1)) []

/-- The fold of resolveWindow picking the winning action: start from
maxVotes = 0, winningAction = empty, replace only on strictly more votes. -/
def winStep (acc : ℕ × String) (q : String × ℕ) : ℕ × String :=
  if acc.1 < q.2 then (q.2, q.1) else acc

def winningAction (counts : List (String × ℕ)) : String :=
  (counts.foldl winStep (0, "")).2

/-- One step of resolveWindow: count votes for an agent and record the
winning action when it is truthy (a nonempty string). -/
def resolveStep (res : List (ℕ × String)) (p : ℕ × List (String × String)) :
    List (ℕ × String) :=
  if winningAction (countActions p.2) = "" then res
  else jset res p.1 (winningAction (countActions p.2))

/-- resolveWindow: fold over the ballot in agent-insertion order. -/
def resolveWindow (cv : Ballot) : List (ℕ × String) :=
  cv.foldl resolveStep []

/-- The per-agent result entry, for the filterMap view of resolveWindow. -/
def resolveEntry (p : ℕ × List (String × String)) : Option (ℕ × String) :=
  if winningAction (countActions p.2) = "" then none
  else some (p.1, winningAction (countActions p.2))

/-! ### InMemoryThinkingHistoryStorage (server/src/persistence/ThinkingHistoryStorage.ts)

MAX_ENTRIES_PER_AGENT = 50, MAX_SESSIONS = 10.  `Date.now()` is modelled by a
strictly increasing logical clock carried in the state (each store call reads
and advances it), so later stores have strictly larger access times.
`sessionAccessTimes` starts `oldestTime` at Infinity, modelled by an Option
accumulator (none = Infinity). -/

structure ThinkingProcess where
  action : String
  reasoning : String
  prompt : Option String := none
  rawResponse : Option String := none
  timestamp : ℕ
deriving DecidableEq

structure ThinkStore where
  storage : List (String × List (ℕ × List ThinkingProcess))
  accessTimes : List (String × ℕ)
  clock : ℕ
deriving DecidableEq

/-- One step of the evictOldestSession scan: strictly smaller access time
replaces the candidate (none models the initial Infinity). -/
def oldestStep (acc : Option String × Option ℕ) (p : String × ℕ) :
    Option String × Option ℕ :=
  if (match acc.2 with
      | none => true
      | some tmin => decide (p.2 < tmin)) = true
  then (some p.1, some p.2) else acc

/-- evictOldestSession: find the session with the smallest access time and
remove it from both maps (a no-op when no session was found). -/
def evictOldest (st : ThinkStore) : ThinkStore :=
  match (st.accessTimes.foldl oldestStep (none, none)).1 with
  | none => st
  | some sid =>
    { st with storage := jdel st.storage sid, accessTimes := jdel st.accessTimes sid }

/-- Phase 1 of store: `sessionAccessTimes.set(sessionId, Date.now())` (the
logical clock advances past the value just written). -/
def thinkAccessPhase (st : ThinkStore) (sid : String) : ThinkStore :=
  { st with accessTimes := jset st.accessTimes sid st.clock, clock := st.clock + 1 }

/-- Phase 2 of store: evict the oldest session if the storage is full and the
session is new. -/
def thinkEvictPhase (st : ThinkStore) (sid : String) : ThinkStore :=
  if 10 ≤ st.storage.length ∧ jget st.storage sid = none then evictOldest st else st

/-- The updated per-agent history: get-or-create, push, and shift the oldest
entry when the length exceeds MAX_ENTRIES_PER_AGENT. -/
def newAgentHistory (ss : List (ℕ × List ThinkingProcess)) (aid : ℕ)
    (t : ThinkingProcess) : List ThinkingProcess :=
  if 50 < ((jget ss aid).getD [] ++ [t]).length
  then ((jget ss aid).getD [] ++ [t]).drop 1
  else (jget ss aid).getD [] ++ [t]

/-- Phase 3 of store: write the updated per-agent history back into the
session map (get-or-create of both maps). -/
def thinkWritePhase (st : ThinkStore) (sid : String) (aid : ℕ)
    (t : ThinkingProcess) : ThinkStore :=
  { st with storage := (jset st.storage sid (jset ((jget st.storage sid).getD []) aid (newAgentHistory ((jget st.storage sid).getD []) aid t))) }

/-- store: refresh the session access time, evict the LRU session if a new
session would exceed MAX_SESSIONS, then append to the per-agent history and
drop its oldest entry when it exceeds MAX_ENTRIES_PER_AGENT. -/
def thinkStoreOp (st : ThinkStore) (sid : String) (aid : ℕ) (t : ThinkingProcess) :
    ThinkStore :=
  thinkWritePhase (thinkEvictPhase (thinkAccessPhase st sid) sid) sid aid t

/-- getHistory: a non-positive limit yields nothing; otherwise the last
`limit` entries of the agent history, newest first (`slice(-limit).reverse()`). -/
def thinkGetHistory (st : ThinkStore) (sid : String) (aid : ℕ) (limit : ℕ) :
    List ThinkingProcess :=
  if limit = 0 then []
  else
    match jget st.storage sid with
    | none => []
    | some ss =>
      match jget ss aid with
      | none => []
      | some h => if h.length = 0 then [] else (h.drop (h.length - limit)).reverse

/-- clearSession removes the session from both maps. -/
def thinkClearSession (st : ThinkStore) (sid : String) : ThinkStore :=
  { st with storage := jdel st.storage sid, accessTimes := jdel st.accessTimes sid }

inductive ThinkOp
  | store (sid : String) (aid : ℕ) (t : ThinkingProcess)
  | clear (sid : String)

def thinkStep (st : ThinkStore) : ThinkOp → ThinkStore
  | ThinkOp.store sid aid t => thinkStoreOp st sid aid t
  | ThinkOp.clear sid => thinkClearSession st sid

/-- Run a sequence of store / clearSession calls from the empty store
(getHistory and getCount are pure reads). -/
def thinkRun (ops : List ThinkOp) : ThinkStore :=
  ops.foldl thinkStep ⟨[], [], 0⟩

/-- State invariant of the in-memory store: at most 10 sessions, both maps
keyed identically without duplicates, access times strictly below the clock
and pairwise distinct, and every per-agent history bounded by 50. -/
def ThinkInv (st : ThinkStore) : Prop :=
  st.storage.length ≤ 10 ∧
  st.storage.map Prod.fst = st.accessTimes.map Prod.fst ∧
  (st.storage.map Prod.fst).Nodup ∧
  (∀ p ∈ st.accessTimes, p.2 < st.clock) ∧
  (st.accessTimes.map Prod.snd).Nodup ∧
  (∀ p ∈ st.storage, ∀ q ∈ p.2, q.2.length ≤ 50)

def tpW : ThinkingProcess := ⟨"explore", "scouting", none, none, 0⟩

/-! ### A* pathfinder (server/src/pathfinding/AStarPathfinder.ts)

JS numbers used as scores can be Infinity (`?? Infinity`), so scores live in
an extended-naturals type Cost.  Positions are integer pairs (neighbor
coordinates may be negative before the bounds check).  The JS `Set`/`Map`
(insertion-ordered) become an ordered list for the open set — its order
drives the lowest-f scan — and plain functions for the score maps, and the
unbounded `while` becomes a fuel-indexed loop with fuel `w*h + 1`, which the
accompanying theorems show is never exhausted. -/

inductive Cost where
  | fin : ℕ → Cost
  | inf : Cost
deriving DecidableEq

/-- JS addition with Infinity absorbing. -/
def Cost.add : Cost → Cost → Cost
  | Cost.fin a, Cost.fin b => Cost.fin (a + b)
  | _, _ => Cost.inf

/-- JS `<` on possibly-infinite scores (Infinity < Infinity is false). -/
def Cost.blt : Cost → Cost → Bool
  | Cost.fin a, Cost.fin b => a < b
  | Cost.fin _, Cost.inf => true
  | Cost.inf, _ => false

/-- JS `<=` on possibly-infinite scores (Infinity <= Infinity is true). -/
def Cost.ble : Cost → Cost → Bool
  | Cost.fin a, Cost.fin b => a ≤ b
  | Cost.fin _, Cost.inf => true
  | Cost.inf, Cost.fin _ => false
  | Cost.inf, Cost.inf => true

/-- Bounds check of AStarPathfinder.isValid. -/
def isValidPos (m : TileMap) (p : ℤ × ℤ) : Bool :=
  0 ≤ p.1 && p.1 < (m.width : ℤ) && 0 ≤ p.2 && p.2 < (m.height : ℤ)

/-- map.tiles[y][x] for an in-bounds position. -/
def tileAt (m : TileMap) (p : ℤ × ℤ) : Tile :=
  tileOr m p.1.toNat p.2.toNat

/-- Manhattan heuristic. -/
def heuristic (a b : ℤ × ℤ) : ℕ :=
  (a.1 - b.1).natAbs + (a.2 - b.2).natAbs

/-- Neighbors in order up, right, down, left, kept when in bounds and not
Blocked. -/
def getNeighbors (m : TileMap) (pos : ℤ × ℤ) : List (ℤ × ℤ) :=
  [(pos.1, pos.2 - 1), (pos.1 + 1, pos.2), (pos.1, pos.2 + 1), (pos.1 - 1, pos.2)].filter
    (fun q => isValidPos m q && ((tileAt m q).type != 1))

/-- Pointwise update of a score map. -/
def fupd {β : Type} (f : ℤ × ℤ → β) (k : ℤ × ℤ) (v : β) : ℤ × ℤ → β :=
  fun q => if q = k then v else f q

/-- Score read with the JS `?? Infinity` default. -/
def fval (f : ℤ × ℤ → Option Cost) (p : ℤ × ℤ) : Cost :=
  (f p).getD Cost.inf

structure AState where
  openSet : List (ℤ × ℤ)
  closedSet : Finset (ℤ × ℤ)
  gScore : ℤ × ℤ → Option Cost
  fScore : ℤ × ℤ → Option Cost
  cameFrom : ℤ × ℤ → Option (ℤ × ℤ)

/-- One step of the lowest-fScore scan; only a strictly lower f replaces the
candidate, so ties keep the earliest-inserted key. -/
def selectStep (f : ℤ × ℤ → Option Cost) (acc : Option (ℤ × ℤ) × Cost)
    (key : ℤ × ℤ) : Option (ℤ × ℤ) × Cost :=
  if (fval f key).blt acc.2 then (some key, fval f key) else acc

/-- The `for (const key of openSet)` scan for the node with lowest fScore
(starting from currentKey = "" and lowestF = Infinity). -/
def selectMin (f : ℤ × ℤ → Option Cost) (l : List (ℤ × ℤ)) : Option (ℤ × ℤ) :=
  (l.foldl (selectStep f) (none, Cost.inf)).1

/-- Record the improved route to a neighbor: cameFrom, gScore and
fScore = tentative + heuristic. -/
def updateNb (goal current : ℤ × ℤ) (st : AState) (nb : ℤ × ℤ) (tent : Cost) : AState :=
  { st with cameFrom := fupd st.cameFrom nb (some current),
            gScore := fupd st.gScore nb (some tent),
            fScore := fupd st.fScore nb (some (Cost.add tent (Cost.fin (heuristic nb goal)))) }

/-- Relaxation of one neighbor: skip closed nodes; a node not yet open is
added to the open list and updated unconditionally; an open node is updated
only when the tentative gScore strictly improves. -/
def relaxOne (m : TileMap) (goal current : ℤ × ℤ) (st : AState) (nb : ℤ × ℤ) : AState :=
  if nb ∈ st.closedSet then st
  else
    let w : ℕ := ((tileAt m nb).weight).getD 1
    let tent : Cost := Cost.add (fval st.gScore current) (Cost.fin w)
    if nb ∉ st.openSet then
      updateNb goal current { st with openSet := st.openSet ++ [nb] } nb tent
    else if Cost.ble (fval st.gScore nb) tent then st
    else updateNb goal current st nb tent

/-- Relax all neighbors of the expanded node. -/
def relax (m : TileMap) (goal current : ℤ × ℤ) (st : AState) : AState :=
  (getNeighbors m current).foldl (relaxOne m goal current) st

/-- Follow cameFrom links back to the start, prepending; fuel bounds the
chain length (the theorems show w*h + 1 suffices). -/
def reconstructPath : ℕ → (ℤ × ℤ → Option (ℤ × ℤ)) → ℤ × ℤ → List (ℤ × ℤ)
  | 0, _, cur => [cur]
  | n + 1, cf, cur =>
    match cf cur with
    | none => [cur]
    | some prev => reconstructPath n cf prev ++ [cur]

structure PathR where
  waypoints : List (ℤ × ℤ)
  cost : Cost
deriving DecidableEq

/-- The A* main loop: pick the open node with lowest fScore (empty open set
or an all-Infinity scan ends with null), return the reconstructed path when
the goal is reached, otherwise move the node to the closed set and relax its
neighbors. -/
def astarLoop (m : TileMap) (goal : ℤ × ℤ) : ℕ → AState → Option PathR
  | 0, _ => none
  | fuel + 1, st =>
    if st.openSet.length = 0 then none
    else
      match selectMin st.fScore st.openSet with
      | none => none
      | some current =>
        if current = goal then
          some ⟨reconstructPath (m.width * m.height + 1) st.cameFrom current,
                (st.gScore current).getD (Cost.fin 0)⟩
        else
          astarLoop m goal fuel
            (relax m goal current
              { st with openSet := st.openSet.erase current,
                        closedSet := insert current st.closedSet })

/-- The initial search state: open = {start}, g(start) = 0,
f(start) = heuristic(start, goal). -/
def initState (m : TileMap) (start goal : ℤ × ℤ) : AState :=
  { openSet := [start], closedSet := ∅,
    gScore := fupd (fun _ => none) start (some (Cost.fin 0)),
    fScore := fupd (fun _ => none) start (some (Cost.fin (heuristic start goal))),
    cameFrom := fun _ => none }

/-- findPath: null on an out-of-bounds endpoint; the trivial zero-cost path
when start equals goal (no passability check); null when either endpoint is
Blocked; otherwise the A* loop. -/
def findPath (m : TileMap) (start goal : ℤ × ℤ) : Option PathR :=
  if !(isValidPos m start && isValidPos m goal) then none
  else if start = goal then some ⟨[start], Cost.fin 0⟩
  else if (tileAt m start).type = 1 ∨ (tileAt m goal).type = 1 then none
  else astarLoop m goal (m.width * m.height + 1) (initState m start goal)

/-! ### Agents and the world (server/src/engine/Agent.ts, World.ts)

Only the fields the verified operations touch are modelled; memory streams,
display names/colors and free-text currentAction/message strings are elided
(they never feed back into the modelled state).  JS numbers are ℚ where
division or fractional averages occur (hp, stats, zone geometry) and ℤ for
grid coordinates.  Math.random() draws are explicit parameters: the damage
roll Math.floor(Math.random()*5) becomes r < 5, the alliance roll
Math.random() < 0.6 becomes a Bool, moveRandom's eight draws become a list
of offsets.  The winner (an Agent reference or null) is modelled by its id. -/

inductive AgentActionState where
  | Idle | Exploring | Fighting | Fleeing | Looting | Allying | Betraying | Dead
deriving DecidableEq

structure AgentR where
  id : ℕ
  x : ℤ
  y : ℤ
  hp : ℚ
  maxHp : ℚ
  attack : ℚ
  defense : ℚ
  alive : Bool
  killCount : ℕ
  actionState : AgentActionState
  alliances : Finset ℕ
  enemies : Finset ℕ
  waypoints : List (ℤ × ℤ)
  currentWaypointIndex : ℕ
deriving DecidableEq

structure ItemR where
  id : ℕ
  x : ℤ
  y : ℤ
  type : String
  bonus : ℚ
deriving DecidableEq

inductive GamePhase where
  | WaitingToStart | Running | Finished
deriving DecidableEq

inductive GameEventType where
  | Kill | Alliance | Betrayal | Combat | Loot | ZoneShrink | Vote | GameOver | AgentSpawn
deriving DecidableEq

/-- Game event; the message text, tick and timestamp are elided. -/
structure EventR where
  type : GameEventType
  agentIds : List ℕ
deriving DecidableEq

structure WorldR where
  agents : List AgentR
  items : List ItemR
  tick : ℕ
  aliveCount : ℤ
  shrinkBorder : ℤ
  phase : GamePhase
  winner : Option ℕ
  pendingEvents : List EventR
  tileMap : TileMap
  gridSize : ℕ
  shrinkIntervalTicks : ℕ
  agentPaths : List (ℕ × List (ℤ × ℤ))
deriving DecidableEq

/-- Math.sign on an integer. -/
def zsign (z : ℤ) : ℤ :=
  if 0 < z then 1 else if z < 0 then -1 else 0

/-- Math.sign on a rational (executeFlee averages positions). -/
def qsign (q : ℚ) : ℤ :=
  if 0 < q then 1 else if q < 0 then -1 else 0

/-- Math.max(0, Math.min(gridSize - 1, v)). -/
def clampCoord (gridSize : ℕ) (v : ℤ) : ℤ :=
  max 0 (min ((gridSize : ℤ) - 1) v)

/-- MapGenerator.isPassable: in bounds and of type Passable. -/
def isPassable (m : TileMap) (x y : ℤ) : Bool :=
  if x < 0 || (m.width : ℤ) ≤ x || y < 0 || (m.height : ℤ) ≤ y then false
  else (tileAt m (x, y)).type == 0

structure PerceptionR where
  nearbyAgents : List (AgentR × ℕ)
  nearbyItems : List ItemR

/-- Agent.perceive: other living agents within visionRange (paired with their
Manhattan distance) and items within the fixed radius 2. -/
def perceive (self : AgentR) (allAgents : List AgentR) (allItems : List ItemR)
    (visionRange : ℕ := 4) : PerceptionR :=
  { nearbyAgents := allAgents.filterMap (fun other =>
      if other.id = self.id ∨ other.alive = false then none
      else if (other.x - self.x).natAbs + (other.y - self.y).natAbs ≤ visionRange then
        some (other, (other.x - self.x).natAbs + (other.y - self.y).natAbs)
      else none),
    nearbyItems := allItems.filter (fun item =>
      (item.x - self.x).natAbs + (item.y - self.y).natAbs ≤ 2) }

/-- Agent.takeDamage: clamp hp at 0; at 0 the agent dies (memory append
elided). -/
def takeDamage (a : AgentR) (amount : ℚ) : AgentR :=
  { a with hp := max 0 (a.hp - amount),
           alive := if max 0 (a.hp - amount) ≤ 0 then false else a.alive,
           actionState := if max 0 (a.hp - amount) ≤ 0 then AgentActionState.Dead
                          else a.actionState }

/-- Agent.moveToward: one clamped step per axis, applied only onto a passable
tile. -/
def moveToward (a : AgentR) (tx ty : ℤ) (gridSize : ℕ) (m : TileMap) : AgentR :=
  let newX := clampCoord gridSize (a.x + zsign (tx - a.x))
  let newY := clampCoord gridSize (a.y + zsign (ty - a.y))
  if isPassable m newX newY then { a with x := newX, y := newY } else a

/-- Agent.moveAwayFrom: opposite signs, with `|| 1` turning a zero sign into
+1. -/
def moveAwayFrom (a : AgentR) (fx fy : ℚ) (gridSize : ℕ) (m : TileMap) : AgentR :=
  let dx := if qsign ((a.x : ℚ) - fx) = 0 then 1 else qsign ((a.x : ℚ) - fx)
  let dy := if qsign ((a.y : ℚ) - fy) = 0 then 1 else qsign ((a.y : ℚ) - fy)
  let newX := clampCoord gridSize (a.x + dx)
  let newY := clampCoord gridSize (a.y + dy)
  if isPassable m newX newY then { a with x := newX, y := newY } else a

/-- Agent.moveRandom with the up-to-eight sampled offsets passed in: the
first passable destination is taken, otherwise the agent stays. -/
def moveRandom (a : AgentR) (gridSize : ℕ) (m : TileMap) (rands : List (ℤ × ℤ)) :
    AgentR :=
  match rands.find? (fun d =>
      isPassable m (clampCoord gridSize (a.x + d.1)) (clampCoord gridSize (a.y + d.2))) with
  | none => a
  | some d => { a with x := clampCoord gridSize (a.x + d.1),
                       y := clampCoord gridSize (a.y + d.2) }

def setPath (a : AgentR) (wps : List (ℤ × ℤ)) : AgentR :=
  { a with waypoints := wps, currentWaypointIndex := 0 }

def clearPath (a : AgentR) : AgentR :=
  { a with waypoints := [], currentWaypointIndex := 0 }

/-- Agent.followPath: step one axis toward the current waypoint with x-axis
priority, advancing the index (and recursing) on arrival; a blocked step
clears the path.  The recursion advances currentWaypointIndex, so fuel
waypoints.length + 1 covers it. -/
def followPathAux (m : TileMap) : ℕ → AgentR → AgentR
  | 0, a => a
  | n + 1, a =>
    if a.waypoints.length = 0 ∨ a.waypoints.length ≤ a.currentWaypointIndex then a
    else
      let target := a.waypoints.getD a.currentWaypointIndex (0, 0)
      if a.x = target.1 ∧ a.y = target.2 then
        followPathAux m n { a with currentWaypointIndex := a.currentWaypointIndex + 1 }
      else
        let dx := zsign (target.1 - a.x)
        let newX := if dx ≠ 0 then a.x + dx else a.x
        let newY := if dx ≠ 0 then a.y
                    else if zsign (target.2 - a.y) ≠ 0 then a.y + zsign (target.2 - a.y)
                    else a.y
        if isPassable m newX newY then { a with x := newX, y := newY }
        else clearPath a

def followPath (a : AgentR) (m : TileMap) : AgentR :=
  followPathAux m (a.waypoints.length + 1) a

/-- Find an agent by id (`this.agents.find((a) => a.id === id)`). -/
def findAgent (agents : List AgentR) (aid : ℕ) : Option AgentR :=
  agents.find? (fun a => a.id = aid)

/-- Apply an update to the (unique) agent with the given id, as JS mutation
through an object reference does. -/
def updAgent (agents : List AgentR) (aid : ℕ) (f : AgentR → AgentR) : List AgentR :=
  agents.map (fun a => if a.id = aid then f a else a)

/-- World.moveAgentToward: pathfind and follow, publishing the path; fall
back to moveToward and drop the stored path when pathfinding fails. -/
def moveAgentToward (w : WorldR) (aid : ℕ) (targetX targetY : ℤ) : WorldR :=
  match findAgent w.agents aid with
  | none => w
  | some agent =>
    match findPath w.tileMap (agent.x, agent.y) (targetX, targetY) with
    | some path =>
      if 0 < path.waypoints.length then
        { w with agents := updAgent w.agents aid (fun a => followPath (setPath a path.waypoints) w.tileMap), agentPaths := jset w.agentPaths aid path.waypoints }
      else
        { w with agents := updAgent w.agents aid (fun a => moveToward a targetX targetY w.gridSize w.tileMap), agentPaths := jdel w.agentPaths aid }
    | none =>
      { w with agents := updAgent w.agents aid (fun a => moveToward a targetX targetY w.gridSize w.tileMap), agentPaths := jdel w.agentPaths aid }

/-- World.executeAttack, adjacent branch effects composed per agent in source
order: target takes damage, both mark each other enemies, the attacker enters
Fighting; on a kill the attacker's killCount rises, the victim is purged from
every agent's alliance set and its stored path is dropped.  Beyond Manhattan
distance 1 the attacker pursues via pathfinding.  r is the damage roll
Math.floor(Math.random()*5). -/
def attackAgentUpd (aid tid : ℕ) (dmg : ℚ) (killed : Bool) (a0 : AgentR) : AgentR :=
  let a1 := if a0.id = tid then takeDamage a0 dmg else a0
  let a2 := if a1.id = aid then { a1 with enemies := insert tid a1.enemies, actionState := AgentActionState.Fighting } else a1
  let a3 := if a2.id = tid then { a2 with enemies := insert aid a2.enemies } else a2
  let a4 := if killed ∧ a3.id = aid then { a3 with killCount := a3.killCount + 1 } else a3
  if killed then { a4 with alliances := a4.alliances.erase tid } else a4

def executeAttack (w : WorldR) (aid tid : ℕ) (r : ℕ) : WorldR :=
  match findAgent w.agents tid with
  | none => w
  | some target =>
    if target.alive = false then w
    else
      match findAgent w.agents aid with
      | none => w
      | some attacker =>
        if (target.x - attacker.x).natAbs + (target.y - attacker.y).natAbs ≤ 1 then
          let dmg : ℚ := max 1 (attacker.attack - target.defense / 2 + (r : ℚ))
          let killed : Bool := !(takeDamage target dmg).alive
          { w with agents := w.agents.map (attackAgentUpd aid tid dmg killed),
                   aliveCount := w.aliveCount - (if killed then 1 else 0),
                   pendingEvents := w.pendingEvents ++ [⟨GameEventType.Combat, [aid, tid]⟩] ++ (if killed then [⟨GameEventType.Kill, [aid, tid]⟩] else []),
                   agentPaths := if killed then jdel w.agentPaths tid else w.agentPaths }
        else
          let w2 := moveAgentToward w aid target.x target.y
          { w2 with agents := updAgent w2.agents aid (fun a => { a with actionState := AgentActionState.Fighting }) }

def allyAgentUpd (aid tid : ℕ) (accepted : Bool) (a0 : AgentR) : AgentR :=
  let a1 := if accepted ∧ a0.id = aid then { a0 with alliances := insert tid a0.alliances } else a0
  let a2 := if accepted ∧ a1.id = tid then { a1 with alliances := insert aid a1.alliances } else a1
  if a2.id = aid then { a2 with actionState := AgentActionState.Allying } else a2

/-- World.executeAlly: within Manhattan distance 2 the proposal is accepted
when the target does not hold the proposer as an enemy and the 60% roll
(rollOk) succeeds, adding each to the other's alliances; otherwise approach.
Both branches leave the proposer in the Allying state. -/
def executeAlly (w : WorldR) (aid tid : ℕ) (rollOk : Bool) : WorldR :=
  match findAgent w.agents tid with
  | none => w
  | some target =>
    if target.alive = false then w
    else
      match findAgent w.agents aid with
      | none => w
      | some attacker =>
        if (target.x - attacker.x).natAbs + (target.y - attacker.y).natAbs ≤ 2 then
          let accepted : Bool := !(decide (aid ∈ target.enemies)) && rollOk
          { w with agents := w.agents.map (allyAgentUpd aid tid accepted),
                   pendingEvents := w.pendingEvents ++ (if accepted then [⟨GameEventType.Alliance, [aid, tid]⟩] else []) }
        else
          let w2 := moveAgentToward w aid target.x target.y
          { w2 with agents := updAgent w2.agents aid (fun a => { a with actionState := AgentActionState.Allying }) }

def betrayAgentUpd (aid tid : ℕ) (dmg : ℚ) (killed : Bool) (a0 : AgentR) : AgentR :=
  let a1 := if a0.id = aid then { a0 with alliances := a0.alliances.erase tid, enemies := insert tid a0.enemies, actionState := AgentActionState.Betraying } else a0
  let a2 := if a1.id = tid then { a1 with alliances := a1.alliances.erase aid, enemies := insert aid a1.enemies } else a1
  let a3 := if a2.id = tid then takeDamage a2 dmg else a2
  if killed ∧ a3.id = aid then { a3 with killCount := a3.killCount + 1 } else a3

/-- World.executeBetray: drop the mutual alliance, mark mutual enemies, deal
max(1, attack + 5 - defense/2) damage; a kill raises killCount and clears
the victim's stored path, but no alliance purge over other agents runs. -/
def executeBetray (w : WorldR) (aid tid : ℕ) : WorldR :=
  match findAgent w.agents tid with
  | none => w
  | some target =>
    if target.alive = false then w
    else
      match findAgent w.agents aid with
      | none => w
      | some attacker =>
        let dmg : ℚ := max 1 (attacker.attack + 5 - target.defense / 2)
        let killed : Bool := !(takeDamage target dmg).alive
        { w with agents := w.agents.map (betrayAgentUpd aid tid dmg killed),
                 aliveCount := w.aliveCount - (if killed then 1 else 0),
                 pendingEvents := w.pendingEvents ++ [⟨GameEventType.Betrayal, [aid, tid]⟩] ++ (if killed then [⟨GameEventType.Kill, [aid, tid]⟩] else []),
                 agentPaths := if killed then jdel w.agentPaths tid else w.agentPaths }

/-- Zone damage applied to one agent: 10 damage when alive and outside the
safe square. -/
def zoneAgent (cx cy half : ℚ) (a : AgentR) : AgentR :=
  if a.alive = true ∧ (half < |(a.x : ℚ) - cx| ∨ half < |(a.y : ℚ) - cy|) then
    takeDamage a 10
  else a

/-- The aliveCount decrements and Kill events the zone pass produces, in
agent order. -/
def zoneDelta (cx cy half : ℚ) (acc : ℤ × List EventR) (a : AgentR) : ℤ × List EventR :=
  if a.alive = true ∧ (half < |(a.x : ℚ) - cx| ∨ half < |(a.y : ℚ) - cy|) then
    if (takeDamage a 10).alive = false then
      (acc.1 - 1, acc.2 ++ [⟨GameEventType.Kill, [a.id]⟩])
    else acc
  else acc

/-- World.handleZoneShrink: on the shrink cadence while the border exceeds 6,
shrink by one and apply 10 zone damage to every live agent outside the safe
square centered at gridSize/2 with half-side shrinkBorder/2 (JS real
division).  Kills decrement aliveCount and emit Kill events; alliances are
not touched. -/
def handleZoneShrink (w : WorldR) : WorldR :=
  if w.tick % w.shrinkIntervalTicks ≠ 0 then w
  else if w.shrinkBorder ≤ 6 then w
  else
    let border2 := w.shrinkBorder - 1
    let cx : ℚ := (w.gridSize : ℚ) / 2
    let cy : ℚ := (w.gridSize : ℚ) / 2
    let half : ℚ := (border2 : ℚ) / 2
    let delta := w.agents.foldl (zoneDelta cx cy half) (w.aliveCount, [])
    { w with shrinkBorder := border2,
             agents := w.agents.map (zoneAgent cx cy half),
             aliveCount := delta.1,
             pendingEvents := w.pendingEvents ++ [⟨GameEventType.ZoneShrink, []⟩] ++ delta.2 }

/-- The win-check step at the end of World.update: with at most one live
agent the phase becomes Finished and the winner the unique survivor (null
otherwise); a GameOver event is emitted only when a winner exists. -/
def winCheck (w : WorldR) : WorldR :=
  if (w.agents.filter (fun a => a.alive)).length ≤ 1 then
    { w with winner := ((w.agents.filter (fun a => a.alive)).head?).map AgentR.id,
             phase := GamePhase.Finished,
             pendingEvents := w.pendingEvents ++ (match (w.agents.filter (fun a => a.alive)).head? with
               | some a => [⟨GameEventType.GameOver, [a.id]⟩]
               | none => []) }
  else w

/-- The claimed damage formula of C4: max(1, attack - floor(defense/2) + r)
over the integers. -/
def claimedDmg (attack : ℤ) (defense : ℕ) (r : ℕ) : ℤ :=
  max 1 (attack - (defense / 2 : ℕ) + r)

/-- Witness for C10 at a two-agent, one-item configuration. -/
def agentW1 : AgentR :=
  ⟨0, 0, 0, 30, 30, 5, 0, true, 0, AgentActionState.Idle, ∅, ∅, [], 0⟩

def agentW2 : AgentR :=
  ⟨1, 2, 1, 30, 30, 5, 0, true, 0, AgentActionState.Idle, ∅, ∅, [], 0⟩

def itemW : ItemR := ⟨0, 1, 0, "sword", 4⟩

def mapTrivial : TileMap := ⟨1, 1, [[⟨0, none⟩]]⟩

def deadA : AgentR :=
  ⟨0, 0, 0, 0, 30, 5, 0, false, 0, AgentActionState.Dead, ∅, ∅, [], 0⟩

def deadB : AgentR :=
  ⟨1, 1, 0, 0, 30, 5, 0, false, 0, AgentActionState.Dead, ∅, ∅, [], 0⟩

def worldC5 : WorldR :=
  ⟨[deadA, deadB], [], 5, 0, 20, GamePhase.Running, none, [], mapTrivial, 20, 30, []⟩

def aliveSolo : AgentR :=
  ⟨2, 1, 1, 12, 30, 5, 0, true, 3, AgentActionState.Idle, ∅, ∅, [], 0⟩

def worldC5w : WorldR :=
  ⟨[deadA, aliveSolo], [], 5, 1, 20, GamePhase.Running, none, [], mapTrivial, 20, 30, []⟩

def agentC4a : AgentR :=
  ⟨0, 0, 0, 30, 30, 5, 0, true, 0, AgentActionState.Idle, ∅, ∅, [], 0⟩

def agentC4t : AgentR :=
  ⟨1, 1, 0, 10, 30, 0, 3, true, 0, AgentActionState.Idle, ∅, ∅, [], 0⟩

def worldC4 : WorldR :=
  ⟨[agentC4a, agentC4t], [], 0, 2, 20, GamePhase.Running, none, [], mapTrivial, 20, 30, []⟩

/-- The social fields of an agent: id, alliances, enemies. -/
def social (a : AgentR) : ℕ × Finset ℕ × Finset ℕ := (a.id, a.alliances, a.enemies)

/-- No agent lists itself among its alliances or enemies. -/
abbrev noSelf (agents : List AgentR) : Prop :=
  ∀ a ∈ agents, a.id ∉ a.alliances ∧ a.id ∉ a.enemies

def agentC1A0 : AgentR :=
  ⟨0, 0, 0, 30, 30, 5, 0, true, 0, AgentActionState.Idle, {1}, ∅, [], 0⟩

def agentC1A1 : AgentR :=
  ⟨1, 1, 0, 30, 30, 5, 0, true, 0, AgentActionState.Idle, {0}, ∅, [], 0⟩

def worldC1a : WorldR :=
  ⟨[agentC1A0, agentC1A1], [], 0, 2, 20, GamePhase.Running, none, [], mapTrivial, 20, 30, []⟩

def agentC1B0 : AgentR :=
  ⟨0, 0, 0, 30, 30, 5, 0, true, 0, AgentActionState.Idle, {1}, ∅, [], 0⟩

def agentC1B1 : AgentR :=
  ⟨1, 1, 0, 1, 30, 5, 0, true, 0, AgentActionState.Idle, {0, 2}, ∅, [], 0⟩

def agentC1B2 : AgentR :=
  ⟨2, 5, 5, 30, 30, 5, 0, true, 0, AgentActionState.Idle, {1}, ∅, [], 0⟩

def worldC1b : WorldR :=
  ⟨[agentC1B0, agentC1B1, agentC1B2], [], 0, 3, 20, GamePhase.Running, none, [], mapTrivial, 20, 30, []⟩

def agentC1Z1 : AgentR :=
  ⟨1, 0, 0, 5, 30, 5, 0, true, 0, AgentActionState.Idle, ∅, ∅, [], 0⟩

def agentC1Z2 : AgentR :=
  ⟨2, 10, 10, 30, 30, 5, 0, true, 0, AgentActionState.Idle, {1}, ∅, [], 0⟩

def worldC1c : WorldR :=
  ⟨[agentC1Z1, agentC1Z2], [], 0, 2, 8, GamePhase.Running, none, [], mapTrivial, 20, 30, []⟩

def agentC1W0 : AgentR :=
  ⟨0, 0, 0, 30, 30, 10, 0, true, 0, AgentActionState.Idle, ∅, ∅, [], 0⟩

def agentC1W1 : AgentR :=
  ⟨1, 1, 0, 1, 30, 5, 0, true, 0, AgentActionState.Idle, ∅, ∅, [], 0⟩

def worldC1w : WorldR :=
  ⟨[agentC1W0, agentC1W1], [], 0, 2, 20, GamePhase.Running, none, [], mapTrivial, 20, 30, []⟩

def mapC6 : TileMap := ⟨2, 1, [[⟨1, none⟩, ⟨0, none⟩]]⟩

/-! ### A* correctness development (C2)

The graph searched by the pathfinder: vertices are in-bounds non-Blocked
positions, edges join 4-adjacent vertices, and a step into q costs the
weight of q's tile (default 1).  Optimality of the returned cost holds when
every stored weight is positive, which makes the Manhattan heuristic
consistent; a stored weight of 0 breaks it (see the counterexample). -/

/-- Destination-tile step weight, `tile.weight ?? 1`. -/
def W (m : TileMap) (p : ℤ × ℤ) : ℕ :=
  ((tileAt m p).weight).getD 1

/-- A traversable position: in bounds and not Blocked. -/
abbrev okP (m : TileMap) (p : ℤ × ℤ) : Prop :=
  isValidPos m p = true ∧ (tileAt m p).type ≠ 1

/-- 4-adjacency. -/
abbrev adjP (p q : ℤ × ℤ) : Prop :=
  (p.1 - q.1).natAbs + (p.2 - q.2).natAbs = 1

/-- A list of traversable, consecutively 4-adjacent positions. -/
abbrev SegOk (m : TileMap) (L : List (ℤ × ℤ)) : Prop :=
  (∀ p ∈ L, okP m p) ∧ List.Chain' adjP L

/-- A valid path from s to g, as the claim states it: all waypoints
passable, pairwise 4-adjacent, beginning at s and ending at g. -/
abbrev validPath (m : TileMap) (s g : ℤ × ℤ) (l : List (ℤ × ℤ)) : Prop :=
  l.head? = some s ∧ l.getLast? = some g ∧ SegOk m l

/-- Sum of destination-tile weights along a path. -/
def pathCost (m : TileMap) : List (ℤ × ℤ) → ℕ
  | [] => 0
  | [_] => 0
  | _ :: q :: tl => W m q + pathCost m (q :: tl)

/-- The in-bounds grid cells as a finite set. -/
def cells (m : TileMap) : Finset (ℤ × ℤ) :=
  (Finset.range m.width ×ˢ Finset.range m.height).image
    (fun ab => ((ab.1 : ℤ), (ab.2 : ℤ)))

/-- The edge (p, v) is relaxed: g(v) is at most g(p) plus the step weight. -/
def relaxedE (m : TileMap) (st : AState) (p v : ℤ × ℤ) : Prop :=
  Cost.ble (fval st.gScore v) (Cost.add (fval st.gScore p) (Cost.fin (W m v))) = true

/-- Core A* loop invariant, without the all-edges-out-of-closed-relaxed
condition (which is restored incrementally while the neighbor fold runs). -/
structure AInvC (m : TileMap) (start goal : ℤ × ℤ) (st : AState) : Prop where
  openNodup : st.openSet.Nodup
  openClosed : ∀ p ∈ st.openSet, p ∉ st.closedSet
  dom : ∀ p, st.gScore p ≠ none ↔ (p ∈ st.openSet ∨ p ∈ st.closedSet)
  okDom : ∀ p, st.gScore p ≠ none → okP m p
  gFin : ∀ p, st.gScore p ≠ none → ∃ n, st.gScore p = some (Cost.fin n)
  fRel : ∀ p, st.fScore p =
    (st.gScore p).map (fun c => Cost.add c (Cost.fin (heuristic p goal)))
  attained : ∀ p n, st.gScore p = some (Cost.fin n) →
    ∃ l, validPath m start p l ∧ pathCost m l = n
  closedExact : ∀ p ∈ st.closedSet, ∀ n, st.gScore p = some (Cost.fin n) →
    ∀ l, validPath m start p l → n ≤ pathCost m l
  gStart : st.gScore start = some (Cost.fin 0)
  cfStart : st.cameFrom start = none
  cfTotal : ∀ p, p ≠ start → st.gScore p ≠ none → st.cameFrom p ≠ none
  cf : ∀ p q, st.cameFrom p = some q → ∃ gp gq, st.gScore p = some (Cost.fin gp) ∧
    st.gScore q = some (Cost.fin gq) ∧ gq + W m p ≤ gp ∧ adjP q p ∧ okP m p
  closedCells : ∀ p ∈ st.closedSet, p ∈ cells m

/-- Full invariant: core plus every edge out of the closed set relaxed. -/
def AInv (m : TileMap) (start goal : ℤ × ℤ) (st : AState) : Prop :=
  AInvC m start goal st ∧
  ∀ p ∈ st.closedSet, ∀ v ∈ getNeighbors m p, relaxedE m st p v

def mapC2 : TileMap :=
  ⟨3, 2, [[⟨0, none⟩, ⟨0, none⟩, ⟨0, none⟩], [⟨0, some 0⟩, ⟨0, some 0⟩, ⟨0, some 0⟩]]⟩

def mapC2w : TileMap :=
  ⟨2, 2, [[⟨0, none⟩, ⟨0, none⟩], [⟨0, none⟩, ⟨0, none⟩]]⟩

theorem readU32_u32le (n : ℕ) (h : n < 4294967296) :
    readU32 (n % 256) (n / 256 % 256) (n / 65536 % 256) (n / 16777216 % 256) = n := by
  unfold readU32
  omega

theorem decodeTile_encodeTile (t : Tile) (hv : t.validCodec) :
    decodeTile (encodeTile t) = t.norm := by
  cases t with
  | mk ty w =>
    simp only [Tile.validCodec] at hv
    obtain ⟨hty, hw⟩ := hv
    cases w with
    | none =>
      simp only [encodeTile, decodeTile, Tile.norm]
      have h4 : ty % 4 = ty := Nat.mod_eq_of_lt (by omega)
      have hd : ty / 4 % 64 = 0 := by omega
      simp [hd, h4]
    | some wv =>
      have hw63 : wv ≤ 63 := hw wv rfl
      simp only [encodeTile, decodeTile, Tile.norm]
      have hmin : min 63 wv = wv := by omega
      rw [hmin]
      have h4 : (ty % 4 + 4 * wv) % 4 = ty := by omega
      have hdiv : (ty % 4 + 4 * wv) / 4 % 64 = wv := by omega
      rw [h4, hdiv]
      by_cases h0 : wv = 0
      · subst h0; simp
      · have hpos : 0 < wv := Nat.pos_of_ne_zero h0
        simp [hpos, h0]

/-- Mapping an index-based read over the index range of a list recovers the
list. -/
theorem range_map_getD {α β : Type} (l : List α) (d : α) (g : α → β) :
    (List.range l.length).map (fun i => g (l.getD i d)) = l.map g := by
  apply List.ext_getElem
  · simp
  · intro i h1 h2
    have hl : i < l.length := by simpa using h2
    simp [List.getD_eq_getElem l d hl, List.getElem?_eq_getElem hl]

/-- Reading w bytes at offset y*w from a flattening of rows of length w
recovers row y. -/
theorem flatten_extract (rows : List (List ℕ)) (w : ℕ)
    (hr : ∀ r ∈ rows, r.length = w) :
    ∀ y < rows.length, ((rows.flatten).drop (y * w)).take w = rows.getD y [] := by
  induction rows with
  | nil => intro y hy; simp at hy
  | cons r tl ih =>
    intro y hy
    have hrlen : r.length = w := hr r (by simp)
    cases y with
    | zero =>
      simp only [Nat.zero_mul, List.drop_zero, List.flatten_cons, List.getD_cons_zero]
      rw [List.take_append_of_le_length (by omega)]
      rw [← hrlen, List.take_length]
    | succ y =>
      have hmem : ∀ q ∈ tl, q.length = w := fun q hq => hr q (by simp [hq])
      have hdrop : ((r :: tl).flatten).drop ((y + 1) * w) = (tl.flatten).drop (y * w) := by
        have hda := @List.drop_append _ r tl.flatten (y * w)
        rw [hrlen] at hda
        rw [List.flatten_cons, Nat.succ_mul, Nat.add_comm]
        exact hda
      rw [hdrop, List.getD_cons_succ]
      exact ih hmem y (by simpa using hy)

/-- Under well-formedness, the index-scanned byte body of serialize is the
flattening of the per-row encodings. -/
theorem serialize_body (m : TileMap) (hwf : m.WF) :
    (List.range m.height).flatMap
        (fun y => (List.range m.width).map (fun x => encodeTile (tileOr m x y))) =
      (m.tiles.map (fun row => row.map encodeTile)).flatten := by
  obtain ⟨hlen, hrows⟩ := hwf
  rw [List.flatMap_def]
  rw [show (m.tiles.map (fun row => row.map encodeTile)) =
    (List.range m.height).map (fun y => (m.tiles.getD y []).map encodeTile) from by
      rw [← hlen, range_map_getD m.tiles [] (fun row => row.map encodeTile)]]
  congr 1
  apply List.map_congr_left
  intro y hy
  have hylt : y < m.tiles.length := by rw [hlen]; exact List.mem_range.mp hy
  have hrow : (m.tiles.getD y []).length = m.width := by
    rw [List.getD_eq_getElem m.tiles [] hylt]
    exact hrows _ (List.getElem_mem hylt)
  rw [show (List.range m.width).map (fun x => encodeTile (tileOr m x y)) =
    (List.range (m.tiles.getD y []).length).map
      (fun x => encodeTile ((m.tiles.getD y []).getD x ⟨TileType.Blocked, none⟩)) from by
      rw [hrow]; rfl]
  exact range_map_getD _ _ _

/-- Byte length of the serialized form: 8-byte header plus one byte per tile. -/
theorem serialize_length (m : TileMap) (hwf : m.WF) :
    (serialize m).length = 8 + m.width * m.height := by
  unfold serialize
  rw [serialize_body m hwf]
  obtain ⟨hlen, hrows⟩ := hwf
  simp only [List.length_append, u32le, List.length_cons, List.length_nil, List.length_flatten]
  rw [List.map_map]
  rw [List.map_congr_left (fun row hrow => by
    simp only [Function.comp_apply, List.length_map]
    exact hrows row hrow)]
  have hsum : ∀ l : List (List Tile), (l.map (fun _ => m.width)).sum = l.length * m.width := by
    intro l
    induction l with
    | nil => simp
    | cons a tl ih => simp [ih, Nat.succ_mul]; ring
  rw [hsum, hlen]
  ring

theorem deserialize_serialize (m : TileMap) (hwf : m.WF)
    (hw : 1 ≤ m.width) (hh : 1 ≤ m.height)
    (hw32 : m.width < 4294967296) (hh32 : m.height < 4294967296)
    (hv : ∀ row ∈ m.tiles, ∀ t ∈ row, t.validCodec) :
    deserialize (serialize m) =
      some ⟨m.width, m.height, m.tiles.map (fun row => row.map Tile.norm)⟩ := by
  obtain ⟨hlen, hrows⟩ := hwf
  have hL := serialize_length m ⟨hlen, hrows⟩
  have hW : headerWidth (serialize m) = m.width := by
    have : headerWidth (serialize m) =
        readU32 (m.width % 256) (m.width / 256 % 256) (m.width / 65536 % 256)
          (m.width / 16777216 % 256) := rfl
    rw [this, readU32_u32le m.width hw32]
  have hH : headerHeight (serialize m) = m.height := by
    have : headerHeight (serialize m) =
        readU32 (m.height % 256) (m.height / 256 % 256) (m.height / 65536 % 256)
          (m.height / 16777216 % 256) := rfl
    rw [this, readU32_u32le m.height hh32]
  unfold deserialize
  rw [hW, hH]
  rw [if_neg (by omega), if_neg (by omega), if_neg (by omega)]
  have hbodyof : serialize m =
      (u32le m.width ++ u32le m.height) ++
        (m.tiles.map (fun row => row.map encodeTile)).flatten := by
    unfold serialize
    rw [serialize_body m ⟨hlen, hrows⟩, List.append_assoc]
  have hdrop : ∀ k, (serialize m).drop (8 + k) =
      ((m.tiles.map (fun row => row.map encodeTile)).flatten).drop k := by
    intro k
    rw [hbodyof]
    have h8 : (u32le m.width ++ u32le m.height).length = 8 := by
      simp [u32le]
    rw [show 8 + k = (u32le m.width ++ u32le m.height).length + k from by rw [h8]]
    exact List.drop_append k
  have hrowsE : ∀ r ∈ m.tiles.map (fun row => row.map encodeTile), r.length = m.width := by
    intro r hr
    obtain ⟨row, hrow, rfl⟩ := List.mem_map.mp hr
    simp [hrows row hrow]
  refine congrArg some (congrArg (TileMap.mk m.width m.height) ?_)
  have hstep : (List.range m.height).map
      (fun y => (((serialize m).drop (8 + y * m.width)).take m.width).map decodeTile) =
      (List.range m.height).map (fun y => (m.tiles.getD y []).map Tile.norm) := by
    apply List.map_congr_left
    intro y hy
    have hylt : y < m.tiles.length := by rw [hlen]; exact List.mem_range.mp hy
    have hyltE : y < (m.tiles.map (fun row => row.map encodeTile)).length := by
      simpa using hylt
    rw [hdrop (y * m.width)]
    rw [flatten_extract _ m.width hrowsE y (by simpa using hylt)]
    rw [List.getD_eq_getElem _ [] hyltE, List.getElem_map,
      List.getD_eq_getElem _ [] hylt]
    rw [List.map_map]
    apply List.map_congr_left
    intro t ht
    exact decodeTile_encodeTile t (hv _ (List.getElem_mem hylt) t ht)
  rw [hstep, ← hlen]
  exact range_map_getD m.tiles [] (fun row => row.map Tile.norm)

/-- C3: for every TileMap with positive width and height (representable in the
u32 header) whose tiles have weights in [0,63] or no weight,
deserialize(serialize(m)) returns a TileMap with the same width, height, and
per-tile type and weight, identifying weight 0 with an absent weight;
serialize of a w-by-h map produces exactly 8 + w*h bytes. -/
theorem C3_binary_map_roundtrip (m : TileMap) (hwf : m.WF)
    (hw : 1 ≤ m.width) (hh : 1 ≤ m.height)
    (hw32 : m.width < 4294967296) (hh32 : m.height < 4294967296)
    (hv : ∀ row ∈ m.tiles, ∀ t ∈ row, t.validCodec) :
    (serialize m).length = 8 + m.width * m.height ∧
    deserialize (serialize m) =
      some ⟨m.width, m.height, m.tiles.map (fun row => row.map Tile.norm)⟩ :=
  ⟨serialize_length m hwf, deserialize_serialize m hwf hw hh hw32 hh32 hv⟩

/-- Witness for C3 at the S6 map: 17 bytes and a structurally identical
round trip. -/
theorem C3_binary_map_roundtrip_witness :
    (serialize mapS6).length = 8 + 3 * 3 ∧
    deserialize (serialize mapS6) =
      some ⟨3, 3, mapS6.tiles.map (fun row => row.map Tile.norm)⟩ := by
  have h := C3_binary_map_roundtrip mapS6
    (by constructor
        · rfl
        · intro row hrow
          fin_cases hrow <;> rfl)
    (by decide) (by decide) (by decide) (by decide)
    (by intro row hrow t ht
        refine ⟨?_, ?_⟩
        · fin_cases hrow <;> fin_cases ht <;> decide
        · intro w hsome
          fin_cases hrow <;> fin_cases ht <;> simp_all <;> omega)
  exact h

theorem insertDesc_perm (e : MemEntry) (l : List MemEntry) :
    (insertDesc e l).Perm (e :: l) := by
  induction l with
  | nil => exact List.Perm.refl _
  | cons x xs ih =>
    by_cases h : x.importance ≤ e.importance
    · simp [insertDesc, h]
    · simp only [insertDesc, if_neg h]
      exact (List.Perm.cons x ih).trans (List.Perm.swap e x xs)

theorem sortImportanceDesc_perm (l : List MemEntry) :
    (sortImportanceDesc l).Perm l := by
  induction l with
  | nil => exact List.Perm.refl _
  | cons x xs ih =>
    exact (insertDesc_perm x (sortImportanceDesc xs)).trans (List.Perm.cons x ih)

/-- Clamped importance is in [1, 10]. -/
theorem clamp_importance_bounds (i : ℚ) :
    1 ≤ min 10 (max 1 i) ∧ min 10 (max 1 i) ≤ 10 := by
  constructor
  · exact le_min (by norm_num) (le_max_left 1 i)
  · exact min_le_left 10 _

theorem memAdd_bounds (ms : List MemEntry) (t : String) (i : ℚ) (ty : MemoryType)
    (ts : ℕ) (hlen : ms.length ≤ 100)
    (hmem : ∀ e ∈ ms, 1 ≤ e.importance ∧ e.importance ≤ 10) :
    (memAdd ms t i ty ts).length ≤ 100 ∧
    ∀ e ∈ memAdd ms t i ty ts, 1 ≤ e.importance ∧ e.importance ≤ 10 := by
  unfold memAdd
  have hmem2 : ∀ e ∈ ms ++ [(⟨t, min 10 (max 1 i), ty, ts⟩ : MemEntry)],
      1 ≤ e.importance ∧ e.importance ≤ 10 := by
    intro e he
    rcases List.mem_append.mp he with h | h
    · exact hmem e h
    · simp only [List.mem_singleton] at h
      subst h
      exact clamp_importance_bounds i
  by_cases h : 100 < (ms ++ [(⟨t, min 10 (max 1 i), ty, ts⟩ : MemEntry)]).length
  · rw [if_pos h]
    refine ⟨?_, ?_⟩
    · calc ((sortImportanceDesc _).take 80).length ≤ 80 := by
            simpa using List.length_take_le 80 _
        _ ≤ 100 := by norm_num
    · intro e he
      exact hmem2 e ((sortImportanceDesc_perm _).mem_iff.mp (List.mem_of_mem_take he))
  · rw [if_neg h]
    exact ⟨by omega, hmem2⟩

theorem memRun_bounds (ops : List (String × ℚ × MemoryType × ℕ)) :
    (memRun ops).length ≤ 100 ∧
    ∀ e ∈ memRun ops, 1 ≤ e.importance ∧ e.importance ≤ 10 := by
  unfold memRun
  suffices h : ∀ ms, ms.length ≤ 100 →
      (∀ e ∈ ms, 1 ≤ e.importance ∧ e.importance ≤ 10) →
      (ops.foldl (fun ms a => memAdd ms a.1 a.2.1 a.2.2.1 a.2.2.2) ms).length ≤ 100 ∧
      ∀ e ∈ ops.foldl (fun ms a => memAdd ms a.1 a.2.1 a.2.2.1 a.2.2.2) ms,
        1 ≤ e.importance ∧ e.importance ≤ 10 by
    exact h [] (by simp) (by simp)
  induction ops with
  | nil => intro ms h1 h2; exact ⟨h1, h2⟩
  | cons a tl ih =>
    intro ms h1 h2
    have := memAdd_bounds ms a.1 a.2.1 a.2.2.1 a.2.2.2 h1 h2
    exact ih _ this.1 this.2

/-- C8 (amended): add clamps importance into [1,10] and appends; a buffer that
would exceed 100 entries is stably sorted by importance descending and
truncated to 80 (which reorders the buffer); getRecent(n) for n >= 1 returns
the last n entries of the retained buffer (at most n, and exactly the final
segment of the buffer), which after a prune need not be the n most recently
inserted entries; getRecent(0) returns the entire buffer (JS slice(-0)). -/
theorem C8_memory_stream_amended (ops : List (String × ℚ × MemoryType × ℕ)) (n : ℕ) :
    (memRun ops).length ≤ 100 ∧
    (∀ e ∈ memRun ops, 1 ≤ e.importance ∧ e.importance ≤ 10) ∧
    memGetRecent (memRun ops) 0 = memRun ops ∧
    (1 ≤ n →
      memGetRecent (memRun ops) n = (memRun ops).drop ((memRun ops).length - n) ∧
      (memGetRecent (memRun ops) n).length = min n (memRun ops).length) ∧
    (∀ (ms : List MemEntry) (t : String) (i : ℚ) (ty : MemoryType) (ts : ℕ),
      ms.length < 100 →
      memAdd ms t i ty ts = ms ++ [⟨t, min 10 (max 1 i), ty, ts⟩]) ∧
    (∀ (ms : List MemEntry) (t : String) (i : ℚ) (ty : MemoryType) (ts : ℕ),
      100 ≤ ms.length →
      memAdd ms t i ty ts =
        (sortImportanceDesc (ms ++ [⟨t, min 10 (max 1 i), ty, ts⟩])).take 80) := by
  refine ⟨(memRun_bounds ops).1, (memRun_bounds ops).2, by simp [memGetRecent], ?_, ?_, ?_⟩
  · intro hn
    have hne : n ≠ 0 := by omega
    refine ⟨by simp [memGetRecent, hne], ?_⟩
    simp only [memGetRecent, if_neg hne, List.length_drop]
    omega
  · intro ms t i ty ts hlt
    unfold memAdd
    rw [if_neg (by simp; omega)]
  · intro ms t i ty ts hge
    unfold memAdd
    rw [if_pos (by simp; omega)]

/-- Witness for C8 at a concrete one-add stream and n = 1. -/
theorem C8_memory_stream_amended_witness :
    memGetRecent (memRun [("hello", 5, MemoryType.Observation, 3)]) 1 =
      [⟨"hello", 5, MemoryType.Observation, 3⟩] := by
  have h := C8_memory_stream_amended [("hello", 5, MemoryType.Observation, 3)] 1
  rw [(h.2.2.2.1 (by norm_num)).1]
  rfl

set_option maxRecDepth 40000 in
/-- Counterexample to C8 as stated: after the prune triggered by the 101st
add, getRecent(1) returns the entry inserted at time 78, even though the
retained buffer also holds the entry inserted later at time 100; so
getRecent does not return the most recently inserted retained entries. -/
theorem C8_counterexample :
    memGetRecent (memRun memOpsCE) 1 = [⟨"", 1, MemoryType.Observation, 78⟩] ∧
    (⟨"", 10, MemoryType.Observation, 100⟩ : MemEntry) ∈ memRun memOpsCE ∧
    (78 : ℕ) < 100 := by
  refine ⟨by decide, by decide, by norm_num⟩

theorem jset_jset_same {α β : Type} [DecidableEq α] (m : List (α × β)) (k : α) (v w : β) :
    jset (jset m k v) k w = jset m k w := by
  induction m with
  | nil => simp [jset]
  | cons p rest ih =>
    by_cases h : p.1 = k
    · simp [jset, h]
    · simp [jset, h, ih]

theorem jget_jset_self {α β : Type} [DecidableEq α] (m : List (α × β)) (k : α) (v : β) :
    jget (jset m k v) k = some v := by
  induction m with
  | nil => simp [jget, jset]
  | cons p rest ih =>
    by_cases h : p.1 = k
    · simp [jget, jset, h]
    · simp [jget, jset, h, ih]

theorem jset_of_fresh {α β : Type} [DecidableEq α] (m : List (α × β)) (k : α) (v : β)
    (h : k ∉ m.map Prod.fst) : jset m k v = m ++ [(k, v)] := by
  induction m with
  | nil => simp [jset]
  | cons p rest ih =>
    simp only [List.map_cons, List.mem_cons] at h
    push_neg at h
    simp [jset, Ne.symm h.1, ih h.2]

theorem mem_jset {α β : Type} [DecidableEq α] (m : List (α × β)) (k : α) (v : β)
    (q : α × β) (hq : q ∈ jset m k v) : q ∈ m ∨ q = (k, v) := by
  induction m with
  | nil => simpa [jset] using hq
  | cons p rest ih =>
    by_cases h : p.1 = k
    · simp only [jset, if_pos h, List.mem_cons] at hq
      rcases hq with h1 | h1
      · exact Or.inr h1
      · exact Or.inl (by simp [h1])
    · simp only [jset, if_neg h, List.mem_cons] at hq
      rcases hq with h1 | h1
      · exact Or.inl (by simp [h1])
      · rcases ih h1 with h2 | h2
        · exact Or.inl (by simp [h2])
        · exact Or.inr h2

theorem length_le_jset {α β : Type} [DecidableEq α] (m : List (α × β)) (k : α) (v : β) :
    m.length ≤ (jset m k v).length := by
  induction m with
  | nil => simp [jset]
  | cons p rest ih =>
    by_cases h : p.1 = k
    · simp [jset, h]
    · simpa [jset, h] using ih

/-- Characterization of the winning-action fold: either nothing beats the
accumulator, or the result is the first entry attaining the maximum. -/
theorem winFold_spec (cs : List (String × ℕ)) :
    ∀ (mv : ℕ) (wa : String),
    (cs.foldl winStep (mv, wa) = (mv, wa) ∧ ∀ q ∈ cs, q.2 ≤ mv) ∨
    (∃ pre w c suf, cs = pre ++ (w, c) :: suf ∧ mv < c ∧
      cs.foldl winStep (mv, wa) = (c, w) ∧
      (∀ q ∈ pre, q.2 < c) ∧ (∀ q ∈ suf, q.2 ≤ c)) := by
  induction cs with
  | nil => intro mv wa; exact Or.inl ⟨rfl, by simp⟩
  | cons q rest ih =>
    intro mv wa
    by_cases h : mv < q.2
    · have hstep : winStep (mv, wa) q = (q.2, q.1) := by simp [winStep, h]
      rcases ih q.2 q.1 with ⟨heq, hall⟩ | ⟨pre, w, c, suf, hsplit, hlt, heq, hpre, hsuf⟩
      · refine Or.inr ⟨[], q.1, q.2, rest, by simp, h, ?_, by simp, hall⟩
        simpa [hstep] using heq
      · refine Or.inr ⟨q :: pre, w, c, suf, by simp [hsplit], by omega, ?_, ?_, hsuf⟩
        · simpa [hstep] using heq
        · intro p hp
          rcases List.mem_cons.mp hp with h1 | h1
          · subst h1; omega
          · exact hpre p h1
    · have hstep : winStep (mv, wa) q = (mv, wa) := by simp [winStep, h]
      rcases ih mv wa with ⟨heq, hall⟩ | ⟨pre, w, c, suf, hsplit, hlt, heq, hpre, hsuf⟩
      · refine Or.inl ⟨by simpa [hstep] using heq, ?_⟩
        intro p hp
        rcases List.mem_cons.mp hp with h1 | h1
        · subst h1; omega
        · exact hall p h1
      · refine Or.inr ⟨q :: pre, w, c, suf, by simp [hsplit], hlt, ?_, ?_, hsuf⟩
        · simpa [hstep] using heq
        · intro p hp
          rcases List.mem_cons.mp hp with h1 | h1
          · subst h1; omega
          · exact hpre p h1

/-- Every count produced by countActions is at least 1. -/
theorem countActions_pos (pv : List (String × String)) :
    ∀ q ∈ countActions pv, 1 ≤ q.2 := by
  unfold countActions
  suffices h : ∀ (acc : List (String × ℕ)), (∀ q ∈ acc, 1 ≤ q.2) →
      ∀ q ∈ pv.foldl (fun acc p => jset acc p.2 ((jget acc p.2).getD 0 + 1)) acc, 1 ≤ q.2 by
    exact h [] (by simp)
  induction pv with
  | nil => intro acc hacc; exact hacc
  | cons p rest ih =>
    intro acc hacc
    apply ih
    intro q hq
    rcases mem_jset _ _ _ q hq with h1 | h1
    · exact hacc q h1
    · subst h1; omega

/-- Folding counts from a nonempty accumulator stays nonempty. -/
theorem countFold_ne_nil (l : List (String × String)) :
    ∀ acc : List (String × ℕ), acc ≠ [] →
      l.foldl (fun acc p => jset acc p.2 ((jget acc p.2).getD 0 + 1)) acc ≠ [] := by
  induction l with
  | nil => intro acc hacc; exact hacc
  | cons r tl ih =>
    intro acc hacc
    apply ih
    have hlen := length_le_jset acc r.2 ((jget acc r.2).getD 0 + 1)
    intro hcon
    have hcon2 : jset acc r.2 ((jget acc r.2).getD 0 + 1) = [] := hcon
    rw [hcon2] at hlen
    simp at hlen
    exact hacc hlen

/-- countActions of a nonempty vote map is nonempty. -/
theorem countActions_ne_nil (pv : List (String × String)) (hne : pv ≠ []) :
    countActions pv ≠ [] := by
  unfold countActions
  cases pv with
  | nil => exact absurd rfl hne
  | cons p rest =>
    rw [List.foldl_cons]
    apply countFold_ne_nil
    simp [jset, jget]

/-- resolveWindow is the in-order filter of agents with a truthy winning
action, provided the ballot keys are distinct (which reachable ballots are). -/
theorem resolveWindow_eq_filterMap (cv : Ballot) (hnd : (cv.map Prod.fst).Nodup) :
    resolveWindow cv = cv.filterMap resolveEntry := by
  unfold resolveWindow
  suffices h : ∀ (cv2 : Ballot) (res : List (ℕ × String)),
      (cv2.map Prod.fst).Nodup →
      (∀ k ∈ res.map Prod.fst, k ∉ cv2.map Prod.fst) →
      cv2.foldl resolveStep res = res ++ cv2.filterMap resolveEntry by
    simpa using h cv [] hnd (by simp)
  intro cv2
  induction cv2 with
  | nil => intro res h1 h2; simp
  | cons p rest ih =>
    intro res h1 h2
    simp only [List.map_cons, List.nodup_cons] at h1
    by_cases hw : winningAction (countActions p.2) = ""
    · rw [List.foldl_cons, List.filterMap_cons]
      rw [show resolveStep res p = res from by simp [resolveStep, hw]]
      rw [show resolveEntry p = none from by simp [resolveEntry, hw]]
      exact ih res h1.2 (fun k hk => fun hmem => h2 k hk (by simp [hmem]))
    · rw [List.foldl_cons, List.filterMap_cons]
      have hfresh : p.1 ∉ res.map Prod.fst := fun hmem => h2 p.1 hmem (by simp)
      rw [show resolveStep res p = res ++ [(p.1, winningAction (countActions p.2))] from by
        simp only [resolveStep, if_neg hw]
        exact jset_of_fresh res p.1 _ hfresh]
      rw [show resolveEntry p = some (p.1, winningAction (countActions p.2)) from by
        simp [resolveEntry, hw]]
      rw [ih (res ++ [(p.1, winningAction (countActions p.2))]) h1.2 ?_]
      · simp
      · intro k hk
        simp only [List.map_append, List.mem_append, List.map_cons] at hk
        rcases hk with hk | hk
        · exact fun hmem => h2 k hk (by simp [hmem])
        · simp at hk
          subst hk
          exact h1.1

/-- With distinct keys, an association list is function-like. -/
theorem nodup_keys_eq {α β : Type} [DecidableEq α] (l : List (α × β))
    (hnd : (l.map Prod.fst).Nodup) {k : α} {b1 b2 : β}
    (h1 : (k, b1) ∈ l) (h2 : (k, b2) ∈ l) : b1 = b2 := by
  induction l with
  | nil => simp at h1
  | cons q rest ih =>
    simp only [List.map_cons, List.nodup_cons] at hnd
    rcases List.mem_cons.mp h1 with e1 | e1 <;> rcases List.mem_cons.mp h2 with e2 | e2
    · rw [← e1] at e2
      exact congrArg Prod.snd e2.symm
    · exfalso
      apply hnd.1
      rw [← e1]
      exact List.mem_map.mpr ⟨(k, b2), e2, rfl⟩
    · exfalso
      apply hnd.1
      rw [← e2]
      exact List.mem_map.mpr ⟨(k, b1), e1, rfl⟩
    · exact ih hnd.2 e1 e2

/-- C7 (amended): submitVote overwrites per (agentId, playerId) — a later vote
from the same player for the same agent replaces the earlier one, so repeating
a vote leaves the ballot and the resolved result unchanged; at resolution each
agent with votes whose winning action (the first action attaining the maximum
count, in action insertion order) is a nonempty string is assigned it, while
an agent whose winning action is the empty string receives no assignment. -/
theorem C7_vote_idempotence (cv : Ballot) (v : Vote) :
    (∀ (aid : ℕ) (pid a1 a2 : String),
      submitVote (submitVote cv ⟨aid, a1, pid⟩) ⟨aid, a2, pid⟩ =
        submitVote cv ⟨aid, a2, pid⟩) ∧
    (submitVote (submitVote cv v) v = submitVote cv v ∧
      resolveWindow (submitVote (submitVote cv v) v) = resolveWindow (submitVote cv v)) ∧
    ((cv.map Prod.fst).Nodup →
      ∀ aid inner, (aid, inner) ∈ cv → inner ≠ [] →
      ∃ pre w c suf, countActions inner = pre ++ (w, c) :: suf ∧ 1 ≤ c ∧
        (∀ q ∈ pre, q.2 < c) ∧ (∀ q ∈ suf, q.2 ≤ c) ∧
        winningAction (countActions inner) = w ∧
        (w ≠ "" → (aid, w) ∈ resolveWindow cv) ∧
        (w = "" → ∀ x, (aid, x) ∉ resolveWindow cv)) := by
  have hover : ∀ (cv2 : Ballot) (aid : ℕ) (pid a1 a2 : String),
      submitVote (submitVote cv2 ⟨aid, a1, pid⟩) ⟨aid, a2, pid⟩ =
        submitVote cv2 ⟨aid, a2, pid⟩ := by
    intro cv2 aid pid a1 a2
    unfold submitVote
    dsimp only
    cases hg : jget cv2 aid with
    | none =>
      rw [jget_jset_self]
      show jset (jset cv2 aid (jset ([] : List (String × String)) pid a1)) aid
          (jset (jset ([] : List (String × String)) pid a1) pid a2) =
        jset cv2 aid (jset ([] : List (String × String)) pid a2)
      rw [jset_jset_same, jset_jset_same]
    | some inner =>
      rw [jget_jset_self]
      show jset (jset cv2 aid (jset inner pid a1)) aid
          (jset (jset inner pid a1) pid a2) =
        jset cv2 aid (jset inner pid a2)
      rw [jset_jset_same, jset_jset_same]
  refine ⟨hover cv, ⟨?_, ?_⟩, ?_⟩
  · have := hover cv v.agentId v.playerId v.action v.action
    simpa using this
  · have := hover cv v.agentId v.playerId v.action v.action
    have h2 : submitVote (submitVote cv v) v = submitVote cv v := by simpa using this
    rw [h2]
  · intro hnd aid inner hmem hne
    have hpos := countActions_pos inner
    have hnonnil := countActions_ne_nil inner hne
    rcases winFold_spec (countActions inner) 0 "" with ⟨heq, hall⟩ |
      ⟨pre, w, c, suf, hsplit, hlt, heq, hpre, hsuf⟩
    · exfalso
      cases hcs : countActions inner with
      | nil => exact hnonnil hcs
      | cons q rest =>
        have h1 : 1 ≤ q.2 := hpos q (by rw [hcs]; simp)
        have h0 : q.2 ≤ 0 := hall q (by rw [hcs]; simp)
        omega
    · have hwin : winningAction (countActions inner) = w := by
        unfold winningAction
        rw [heq]
      refine ⟨pre, w, c, suf, hsplit, by omega, hpre, hsuf, hwin, ?_, ?_⟩
      · intro hwne
        rw [resolveWindow_eq_filterMap cv hnd]
        refine List.mem_filterMap.mpr ⟨(aid, inner), hmem, ?_⟩
        simp [resolveEntry, hwin, hwne]
      · intro hweq x hx
        rw [resolveWindow_eq_filterMap cv hnd] at hx
        obtain ⟨p, hp, hpe⟩ := List.mem_filterMap.mp hx
        unfold resolveEntry at hpe
        by_cases hz : winningAction (countActions p.2) = ""
        · rw [if_pos hz] at hpe; exact Option.noConfusion hpe
        · rw [if_neg hz] at hpe
          have hfst : p.1 = aid := congrArg Prod.fst (Option.some.inj hpe)
          have hsnd : p.2 = inner := by
            apply nodup_keys_eq cv hnd ?_ hmem
            rw [← hfst]
            exact hp
          rw [hsnd] at hz
          rw [hwin] at hz
          exact hz hweq

/-- Witness for C7: a single vote for agent 7 resolves to that action. -/
theorem C7_vote_idempotence_witness :
    (7, "attack") ∈ resolveWindow (submitVote [] ⟨7, "attack", "p1"⟩) ∧
    submitVote (submitVote [] ⟨7, "attack", "p1"⟩) ⟨7, "attack", "p1"⟩ =
      submitVote [] ⟨7, "attack", "p1"⟩ := by
  have hcv : submitVote [] ⟨7, "attack", "p1"⟩ = [(7, [("p1", "attack")])] := rfl
  have h := C7_vote_idempotence (submitVote [] ⟨7, "attack", "p1"⟩) ⟨7, "attack", "p1"⟩
  refine ⟨?_, (C7_vote_idempotence [] ⟨7, "attack", "p1"⟩).2.1.1⟩
  obtain ⟨pre, w, c, suf, hsplit, hc, hpre, hsuf, hwin, hne, hempty⟩ :=
    h.2.2 (by rw [hcv]; simp) 7 [("p1", "attack")] (by rw [hcv]; simp) (by simp)
  have hw : w = "attack" := by
    rw [← hwin]
    rfl
  subst hw
  exact hne (by simp)

/-- Counterexample to C7 as stated: a player votes the empty-string action for
agent 0; the agent has votes and the empty action has the most votes, yet
resolveWindow assigns nothing to the agent (JS string truthiness drops it). -/
theorem C7_counterexample :
    submitVote [] ⟨0, "", "p1"⟩ = [(0, [("p1", "")])] ∧
    resolveWindow (submitVote [] ⟨0, "", "p1"⟩) = [] := by
  exact ⟨rfl, rfl⟩

/-! ### Additional JS Map lemmas for the thinking-history store -/

theorem jget_eq_none_iff {α β : Type} [DecidableEq α] (m : List (α × β)) (k : α) :
    jget m k = none ↔ k ∉ m.map Prod.fst := by
  induction m with
  | nil => simp [jget]
  | cons p rest ih =>
    by_cases h : p.1 = k
    · simp [jget, h]
    · simp [jget, h, ih, Ne.symm h]

theorem jget_mem {α β : Type} [DecidableEq α] (m : List (α × β)) (k : α) (v : β)
    (h : jget m k = some v) : (k, v) ∈ m := by
  induction m with
  | nil => simp [jget] at h
  | cons p rest ih =>
    by_cases hk : p.1 = k
    · simp only [jget, if_pos hk] at h
      have hp : p = (k, v) := by
        obtain ⟨p1, p2⟩ := p
        simp only at hk
        simp only [Option.some.injEq] at h
        rw [hk, h]
      rw [hp]
      exact List.mem_cons_self _ _
    · simp only [jget, if_neg hk] at h
      exact List.mem_cons_of_mem p (ih h)

theorem jset_map_fst_mem {α β : Type} [DecidableEq α] (m : List (α × β)) (k : α) (v : β)
    (h : k ∈ m.map Prod.fst) : (jset m k v).map Prod.fst = m.map Prod.fst := by
  induction m with
  | nil => simp at h
  | cons p rest ih =>
    by_cases hk : p.1 = k
    · simp [jset, hk]
    · simp only [List.map_cons, List.mem_cons] at h
      rcases h with h | h
    -- dummy
      · exact absurd h.symm hk
      · simp [jset, hk, ih h]

theorem jset_map_fst_fresh {α β : Type} [DecidableEq α] (m : List (α × β)) (k : α) (v : β)
    (h : k ∉ m.map Prod.fst) : (jset m k v).map Prod.fst = m.map Prod.fst ++ [k] := by
  rw [jset_of_fresh m k v h]
  simp

theorem jdel_map_fst {α β : Type} [DecidableEq α] (m : List (α × β)) (k : α) :
    (jdel m k).map Prod.fst = (m.map Prod.fst).erase k := by
  induction m with
  | nil => simp [jdel]
  | cons p rest ih =>
    by_cases hk : p.1 = k
    · simp [jdel, hk, List.erase_cons_head]
    · simp only [jdel, if_neg hk, List.map_cons]
      rw [List.erase_cons_tail]
      · rw [ih]
      · simp [hk]

theorem jdel_sublist {α β : Type} [DecidableEq α] (m : List (α × β)) (k : α) :
    (jdel m k).Sublist m := by
  induction m with
  | nil => simp [jdel]
  | cons p rest ih =>
    by_cases hk : p.1 = k
    · simp only [jdel, if_pos hk]
      exact (List.sublist_cons_self p rest)
    · simp only [jdel, if_neg hk]
      exact List.Sublist.cons₂ p ih

theorem jdel_length {α β : Type} [DecidableEq α] (m : List (α × β)) (k : α)
    (h : k ∈ m.map Prod.fst) : (jdel m k).length + 1 = m.length := by
  induction m with
  | nil => simp at h
  | cons p rest ih =>
    by_cases hk : p.1 = k
    · simp [jdel, hk]
    · simp only [List.map_cons, List.mem_cons] at h
      rcases h with h | h
      · exact absurd h.symm hk
      · simp only [jdel, if_neg hk, List.length_cons]
        rw [← ih h]

theorem mem_map_snd_jset {α β : Type} [DecidableEq α] (m : List (α × β)) (k : α) (v : β)
    (x : β) (hx : x ∈ (jset m k v).map Prod.snd) : x ∈ m.map Prod.snd ∨ x = v := by
  simp only [List.mem_map] at hx
  obtain ⟨q, hq, rfl⟩ := hx
  rcases mem_jset m k v q hq with h | h
  · exact Or.inl (List.mem_map.mpr ⟨q, h, rfl⟩)
  · exact Or.inr (by rw [h])

theorem jset_map_snd_nodup {α β : Type} [DecidableEq α] (m : List (α × β)) (k : α) (v : β)
    (hnd : (m.map Prod.snd).Nodup) (hv : v ∉ m.map Prod.snd) :
    ((jset m k v).map Prod.snd).Nodup := by
  induction m with
  | nil => simp [jset]
  | cons p rest ih =>
    simp only [List.map_cons, List.nodup_cons] at hnd
    simp only [List.map_cons, List.mem_cons] at hv
    push_neg at hv
    by_cases hk : p.1 = k
    · simp only [jset, if_pos hk, List.map_cons, List.nodup_cons]
      refine ⟨?_, hnd.2⟩
      intro hmem
      exact hv.2 hmem
    · simp only [jset, if_neg hk, List.map_cons, List.nodup_cons]
      refine ⟨?_, ih hnd.2 hv.2⟩
      intro hmem
      rcases mem_map_snd_jset rest k v p.2 hmem with h | h
      · exact hnd.1 h
      · exact hv.1 h.symm

/-- Distinct values make an association list injective on entries. -/
theorem snd_inj_of_nodup {α β : Type} (l : List (α × β))
    (hnd : (l.map Prod.snd).Nodup) {p q : α × β}
    (hp : p ∈ l) (hq : q ∈ l) (heq : p.2 = q.2) : p = q := by
  induction l with
  | nil => simp at hp
  | cons r rest ih =>
    simp only [List.map_cons, List.nodup_cons] at hnd
    rcases List.mem_cons.mp hp with e1 | e1 <;> rcases List.mem_cons.mp hq with e2 | e2
    · rw [e1, e2]
    · exfalso
      apply hnd.1
      rw [← e1, heq]
      exact List.mem_map.mpr ⟨q, e2, rfl⟩
    · exfalso
      apply hnd.1
      rw [← e2, ← heq]
      exact List.mem_map.mpr ⟨p, e1, rfl⟩
    · exact ih hnd.2 e1 e2

theorem oldestFold_go (l : List (String × ℕ)) :
    ∀ (k0 : String) (t0 : ℕ),
    ∃ k1 t1, l.foldl oldestStep (some k0, some t0) = (some k1, some t1) ∧
      ((k1, t1) ∈ l ∨ (k1 = k0 ∧ t1 = t0)) ∧ t1 ≤ t0 ∧ ∀ p ∈ l, t1 ≤ p.2 := by
  induction l with
  | nil => intro k0 t0; exact ⟨k0, t0, rfl, Or.inr ⟨rfl, rfl⟩, le_refl _, by simp⟩
  | cons p rest ih =>
    intro k0 t0
    by_cases h : p.2 < t0
    · have hstep : oldestStep (some k0, some t0) p = (some p.1, some p.2) := by
        simp [oldestStep, h]
      obtain ⟨k1, t1, heq, hmem, hle, hall⟩ := ih p.1 p.2
      refine ⟨k1, t1, by rw [List.foldl_cons, hstep]; exact heq, ?_, by omega, ?_⟩
      · rcases hmem with hm | ⟨hk, ht⟩
        · exact Or.inl (List.mem_cons_of_mem p hm)
        · exact Or.inl (by rw [hk, ht]; exact List.mem_cons_self p rest)
      · intro q hq
        rcases List.mem_cons.mp hq with hq1 | hq1
        · rw [hq1]; exact hle
        · exact hall q hq1
    · have hstep : oldestStep (some k0, some t0) p = (some k0, some t0) := by
        simp [oldestStep, h]
      obtain ⟨k1, t1, heq, hmem, hle, hall⟩ := ih k0 t0
      refine ⟨k1, t1, by rw [List.foldl_cons, hstep]; exact heq, ?_, hle, ?_⟩
      · rcases hmem with hm | hm
        · exact Or.inl (List.mem_cons_of_mem p hm)
        · exact Or.inr hm
      · intro q hq
        rcases List.mem_cons.mp hq with hq1 | hq1
        · rw [hq1]; omega
        · exact hall q hq1

/-- The evictOldestSession scan over a nonempty map finds an entry of minimal
access time. -/
theorem oldestFold_spec (l : List (String × ℕ)) (hne : l ≠ []) :
    ∃ k t, l.foldl oldestStep (none, none) = (some k, some t) ∧
      (k, t) ∈ l ∧ ∀ p ∈ l, t ≤ p.2 := by
  cases l with
  | nil => exact absurd rfl hne
  | cons p rest =>
    have hstep : oldestStep (none, none) p = (some p.1, some p.2) := by
      simp [oldestStep]
    obtain ⟨k1, t1, heq, hmem, hle, hall⟩ := oldestFold_go rest p.1 p.2
    refine ⟨k1, t1, by rw [List.foldl_cons, hstep]; exact heq, ?_, ?_⟩
    · rcases hmem with hm | ⟨hk, ht⟩
      · exact List.mem_cons_of_mem p hm
      · rw [hk, ht]; exact List.mem_cons_self p rest
    · intro q hq
      rcases List.mem_cons.mp hq with hq1 | hq1
      · rw [hq1]; exact hle
      · exact hall q hq1

/-- Keyed length: an association list is as long as its key list. -/
theorem jset_length_mem {α β : Type} [DecidableEq α] (m : List (α × β)) (k : α) (v : β)
    (h : k ∈ m.map Prod.fst) : (jset m k v).length = m.length := by
  have := jset_map_fst_mem m k v h
  have h1 : ((jset m k v).map Prod.fst).length = (m.map Prod.fst).length := by rw [this]
  simpa using h1

theorem thinkStoreOp_eq_existing (st : ThinkStore) (sid : String) (aid : ℕ)
    (t : ThinkingProcess) (ss0 : List (ℕ × List ThinkingProcess))
    (hsome : jget st.storage sid = some ss0) :
    thinkStoreOp st sid aid t =
      ⟨jset st.storage sid (jset ss0 aid (newAgentHistory ss0 aid t)),
       jset st.accessTimes sid st.clock, st.clock + 1⟩ := by
  unfold thinkStoreOp thinkAccessPhase thinkEvictPhase thinkWritePhase
  simp [hsome]

theorem thinkStoreOp_eq_fresh_small (st : ThinkStore) (sid : String) (aid : ℕ)
    (t : ThinkingProcess) (hfresh : jget st.storage sid = none)
    (hsmall : st.storage.length < 10) :
    thinkStoreOp st sid aid t =
      ⟨jset st.storage sid (jset [] aid (newAgentHistory [] aid t)),
       jset st.accessTimes sid st.clock, st.clock + 1⟩ := by
  unfold thinkStoreOp thinkAccessPhase thinkEvictPhase thinkWritePhase
  rw [if_neg (show ¬(10 ≤ st.storage.length ∧ jget st.storage sid = none) from by
    intro hcon; omega)]
  simp [hfresh]

theorem thinkStoreOp_eq_fresh_full (st : ThinkStore) (sid : String) (aid : ℕ)
    (t : ThinkingProcess) (hfresh : jget st.storage sid = none)
    (hfull : 10 ≤ st.storage.length)
    (hkeys : st.storage.map Prod.fst = st.accessTimes.map Prod.fst)
    (hATne : st.accessTimes ≠ []) :
    ∃ k tk, (k, tk) ∈ st.accessTimes ++ [(sid, st.clock)] ∧
      (∀ p ∈ st.accessTimes ++ [(sid, st.clock)], tk ≤ p.2) ∧
      thinkStoreOp st sid aid t =
        ⟨jset (jdel st.storage k) sid (jset [] aid (newAgentHistory [] aid t)),
         jdel (st.accessTimes ++ [(sid, st.clock)]) k, st.clock + 1⟩ := by
  have hsidST : sid ∉ st.storage.map Prod.fst := (jget_eq_none_iff _ _).mp hfresh
  have hsidAT : sid ∉ st.accessTimes.map Prod.fst := by rw [← hkeys]; exact hsidST
  have hAT1 : jset st.accessTimes sid st.clock = st.accessTimes ++ [(sid, st.clock)] :=
    jset_of_fresh _ _ _ hsidAT
  have hne1 : st.accessTimes ++ [(sid, st.clock)] ≠ [] := by simp
  obtain ⟨k, tk, hfold, hmem, hmin⟩ := oldestFold_spec _ hne1
  refine ⟨k, tk, hmem, hmin, ?_⟩
  unfold thinkStoreOp thinkAccessPhase thinkEvictPhase
  dsimp only
  rw [if_pos (show 10 ≤ st.storage.length ∧ jget st.storage sid = none from
    ⟨hfull, hfresh⟩)]
  unfold evictOldest
  dsimp only
  rw [hAT1, hfold]
  dsimp only
  unfold thinkWritePhase
  have hgd : jget (jdel st.storage k) sid = none := by
    rw [jget_eq_none_iff, jdel_map_fst]
    intro hcon
    exact hsidST (List.mem_of_mem_erase hcon)
  simp [hgd]

theorem jset_length_fresh {α β : Type} [DecidableEq α] (m : List (α × β)) (k : α) (v : β)
    (h : k ∉ m.map Prod.fst) : (jset m k v).length = m.length + 1 := by
  rw [jset_of_fresh m k v h]
  simp

theorem newAgentHistory_le (ss : List (ℕ × List ThinkingProcess)) (aid : ℕ)
    (t : ThinkingProcess) (hbound : ∀ q ∈ ss, q.2.length ≤ 50) :
    (newAgentHistory ss aid t).length ≤ 50 := by
  have h0 : ((jget ss aid).getD []).length ≤ 50 := by
    cases hg : jget ss aid with
    | none => simp
    | some h => simpa using hbound (aid, h) (jget_mem ss aid h hg)
  unfold newAgentHistory
  by_cases hc : 50 < ((jget ss aid).getD [] ++ [t]).length
  · rw [if_pos hc]
    simp only [List.length_drop, List.length_append]
    simp at hc ⊢
    omega
  · rw [if_neg hc]
    simp at hc ⊢
    omega

theorem thinkStoreOp_inv (st : ThinkStore) (sid : String) (aid : ℕ)
    (t : ThinkingProcess) (h : ThinkInv st) : ThinkInv (thinkStoreOp st sid aid t) := by
  obtain ⟨hlen, hkeys, hnd, hclock, hvals, hhist⟩ := h
  have hndAT : (st.accessTimes.map Prod.fst).Nodup := by rw [← hkeys]; exact hnd
  have hcnotin : st.clock ∉ st.accessTimes.map Prod.snd := by
    intro hcon
    obtain ⟨p, hp, hp2⟩ := List.mem_map.mp hcon
    have := hclock p hp
    omega
  cases hg : jget st.storage sid with
  | some ss0 =>
    have hsidST : sid ∈ st.storage.map Prod.fst :=
      List.mem_map.mpr ⟨(sid, ss0), jget_mem _ _ _ hg, rfl⟩
    have hsidAT : sid ∈ st.accessTimes.map Prod.fst := by rw [← hkeys]; exact hsidST
    rw [thinkStoreOp_eq_existing st sid aid t ss0 hg]
    refine ⟨?_, ?_, ?_, ?_, ?_, ?_⟩
    · simpa [jset_length_mem st.storage sid _ hsidST] using hlen
    · simp only []
      rw [jset_map_fst_mem _ _ _ hsidST, jset_map_fst_mem _ _ _ hsidAT]
      exact hkeys
    · simpa [jset_map_fst_mem _ _ _ hsidST] using hnd
    · intro p hp
      rcases mem_jset _ _ _ p hp with h1 | h1
      · have := hclock p h1; simp only []; omega
      · rw [h1]; simp only []; omega
    · exact jset_map_snd_nodup _ _ _ hvals hcnotin
    · intro p hp
      rcases mem_jset _ _ _ p hp with h1 | h1
      · exact hhist p h1
      · intro q hq
        rw [h1] at hq
        dsimp only at hq
        rcases mem_jset _ _ _ q hq with h2 | h2
        · exact hhist (sid, ss0) (jget_mem _ _ _ hg) q h2
        · rw [h2]
          exact newAgentHistory_le ss0 aid t
            (hhist (sid, ss0) (jget_mem _ _ _ hg))
  | none =>
    have hsidST : sid ∉ st.storage.map Prod.fst := (jget_eq_none_iff _ _).mp hg
    have hsidAT : sid ∉ st.accessTimes.map Prod.fst := by rw [← hkeys]; exact hsidST
    by_cases hfull : 10 ≤ st.storage.length
    · -- eviction path
      have hATlen : st.accessTimes.length = st.storage.length := by
        have := congrArg List.length hkeys
        simpa using this.symm
      have hATne : st.accessTimes ≠ [] := by
        intro hcon
        rw [hcon] at hATlen
        simp at hATlen
        omega
      obtain ⟨k, tk, hmem, hmin, heq⟩ :=
        thinkStoreOp_eq_fresh_full st sid aid t hg hfull hkeys hATne
      -- the key facts about the evicted entry
      have hAT1nd : ((st.accessTimes ++ [(sid, st.clock)]).map Prod.fst).Nodup := by
        simp only [List.map_append, List.map_cons, List.map_nil]
        rw [List.nodup_append]
        exact ⟨hndAT, List.nodup_singleton sid, by simpa using hsidAT⟩
      have hknes : k ≠ sid := by
        intro hks
        subst hks
        have htk : tk = st.clock :=
          nodup_keys_eq _ hAT1nd hmem (by simp)
        obtain ⟨p0, hp0⟩ := List.exists_mem_of_ne_nil st.accessTimes hATne
        have h1 : tk ≤ p0.2 := hmin p0 (by simp [hp0])
        have h2 := hclock p0 hp0
        omega
      have hmemAT : (k, tk) ∈ st.accessTimes := by
        rcases List.mem_append.mp hmem with h1 | h1
        · exact h1
        · simp at h1
          exact absurd h1.1 hknes
      have hkST : k ∈ st.storage.map Prod.fst := by
        rw [hkeys]
        exact List.mem_map.mpr ⟨(k, tk), hmemAT, rfl⟩
      have hsiddel : sid ∉ (jdel st.storage k).map Prod.fst := by
        rw [jdel_map_fst]
        intro hcon
        exact hsidST (List.mem_of_mem_erase hcon)
      rw [heq]
      refine ⟨?_, ?_, ?_, ?_, ?_, ?_⟩
      · simp only []
        rw [jset_length_fresh _ _ _ hsiddel]
        have := jdel_length st.storage k hkST
        omega
      · simp only []
        rw [jset_map_fst_fresh _ _ _ hsiddel, jdel_map_fst, jdel_map_fst]
        rw [hkeys]
        simp only [List.map_append, List.map_cons, List.map_nil]
        rw [List.erase_append_left _ (show k ∈ List.map Prod.fst st.accessTimes from by
          rw [← hkeys]; exact hkST)]
      · simp only []
        rw [jset_map_fst_fresh _ _ _ hsiddel, jdel_map_fst]
        rw [List.nodup_append]
        refine ⟨hnd.erase k, List.nodup_singleton sid, ?_⟩
        intro a ha hb
        simp only [List.mem_singleton] at hb
        subst hb
        exact hsidST (List.mem_of_mem_erase ha)
      · intro p hp
        have hp1 : p ∈ st.accessTimes ++ [(sid, st.clock)] :=
          (jdel_sublist _ k).subset hp
        simp only []
        rcases List.mem_append.mp hp1 with h1 | h1
        · have := hclock p h1; omega
        · rw [List.mem_singleton] at h1
          subst h1
          exact Nat.lt_succ_self st.clock
      · simp only []
        have hsub : ((jdel (st.accessTimes ++ [(sid, st.clock)]) k).map Prod.snd).Sublist
            ((st.accessTimes ++ [(sid, st.clock)]).map Prod.snd) :=
          (jdel_sublist _ k).map Prod.snd
        refine List.Nodup.sublist hsub ?_
        simp only [List.map_append, List.map_cons, List.map_nil]
        rw [List.nodup_append]
        exact ⟨hvals, List.nodup_singleton _, by simpa using hcnotin⟩
      · intro p hp
        simp only [] at hp
        rcases mem_jset _ _ _ p hp with h1 | h1
        · exact hhist p ((jdel_sublist _ k).subset h1)
        · intro q hq
          rw [h1] at hq
          simp only [] at hq
          rcases mem_jset _ _ _ q hq with h2 | h2
          · simp at h2
          · rw [h2]
            exact newAgentHistory_le [] aid t (by simp)
    · -- small path: plain append
      rw [thinkStoreOp_eq_fresh_small st sid aid t hg (by omega)]
      refine ⟨?_, ?_, ?_, ?_, ?_, ?_⟩
      · simp only []
        rw [jset_length_fresh _ _ _ hsidST]
        omega
      · simp only []
        rw [jset_map_fst_fresh _ _ _ hsidST, jset_map_fst_fresh _ _ _ hsidAT, hkeys]
      · simp only []
        rw [jset_map_fst_fresh _ _ _ hsidST]
        rw [List.nodup_append]
        exact ⟨hnd, List.nodup_singleton sid, by simpa using hsidST⟩
      · intro p hp
        simp only []
        rcases mem_jset _ _ _ p hp with h1 | h1
        · have := hclock p h1; omega
        · rw [h1]; omega
      · exact jset_map_snd_nodup _ _ _ hvals hcnotin
      · intro p hp
        simp only [] at hp
        rcases mem_jset _ _ _ p hp with h1 | h1
        · exact hhist p h1
        · intro q hq
          rw [h1] at hq
          simp only [] at hq
          rcases mem_jset _ _ _ q hq with h2 | h2
          · simp at h2
          · rw [h2]
            exact newAgentHistory_le [] aid t (by simp)

theorem thinkClearSession_inv (st : ThinkStore) (sid : String) (h : ThinkInv st) :
    ThinkInv (thinkClearSession st sid) := by
  obtain ⟨hlen, hkeys, hnd, hclock, hvals, hhist⟩ := h
  refine ⟨?_, ?_, ?_, ?_, ?_, ?_⟩
  · have := (jdel_sublist st.storage sid).length_le
    simp only [thinkClearSession]
    omega
  · simp only [thinkClearSession]
    rw [jdel_map_fst, jdel_map_fst, hkeys]
  · simp only [thinkClearSession]
    rw [jdel_map_fst]
    exact hnd.erase sid
  · intro p hp
    exact hclock p ((jdel_sublist _ _).subset hp)
  · exact List.Nodup.sublist ((jdel_sublist _ _).map Prod.snd) hvals
  · intro p hp
    exact hhist p ((jdel_sublist _ _).subset hp)

theorem thinkRun_inv (ops : List ThinkOp) : ThinkInv (thinkRun ops) := by
  unfold thinkRun
  suffices h : ∀ st, ThinkInv st → ThinkInv (ops.foldl thinkStep st) by
    exact h ⟨[], [], 0⟩ ⟨by simp, by simp, by simp, by simp, by simp, by simp⟩
  induction ops with
  | nil => intro st h; exact h
  | cons op rest ih =>
    intro st h
    apply ih
    cases op with
    | store sid aid t => exact thinkStoreOp_inv st sid aid t h
    | clear sid => exact thinkClearSession_inv st sid h

/-- getHistory returns at most `limit` entries and, when the history exists,
exactly the reversed final segment of length min limit len. -/
theorem thinkGetHistory_spec (st : ThinkStore) (sid : String) (aid : ℕ) (limit : ℕ) :
    (thinkGetHistory st sid aid limit).length ≤ limit ∧
    (∀ ss h, jget st.storage sid = some ss → jget ss aid = some h → 1 ≤ limit →
      thinkGetHistory st sid aid limit = (h.drop (h.length - limit)).reverse ∧
      (thinkGetHistory st sid aid limit).length = min limit h.length) := by
  constructor
  · unfold thinkGetHistory
    by_cases h0 : limit = 0
    · simp [h0]
    · rw [if_neg h0]
      split
      · simp
      · split
        · simp
        · split
          · simp
          · simp only [List.length_reverse, List.length_drop]
            omega
  · intro ss h hss hh hlim
    have h0 : limit ≠ 0 := by omega
    unfold thinkGetHistory
    rw [if_neg h0]
    split
    next heq =>
      rw [hss] at heq
      exact absurd heq (by simp)
    next ss2 heq =>
      rw [hss] at heq
      obtain rfl : ss2 = ss := (Option.some.inj heq).symm
      split
      next heq2 =>
        rw [hh] at heq2
        exact absurd heq2 (by simp)
      next h2 heq2 =>
        rw [hh] at heq2
        obtain rfl : h = h2 := Option.some.inj heq2
        by_cases hl : h.length = 0
        · have hnil : h = [] := List.length_eq_zero.mp hl
          subst hnil
          simp
        · rw [if_neg hl]
          refine ⟨rfl, ?_⟩
          simp only [List.length_reverse, List.length_drop]
          omega

/-- FIFO at the per-agent bound: storing into a full (50-entry) history drops
the oldest entry and appends the new one. -/
theorem thinkStoreOp_fifo (st : ThinkStore) (sid : String) (aid : ℕ)
    (t : ThinkingProcess) (ss : List (ℕ × List ThinkingProcess))
    (h : List ThinkingProcess) (hss : jget st.storage sid = some ss)
    (hh : jget ss aid = some h) (hlen : h.length = 50) :
    ∃ ss2, jget (thinkStoreOp st sid aid t).storage sid = some ss2 ∧
      jget ss2 aid = some (h.drop 1 ++ [t]) := by
  rw [thinkStoreOp_eq_existing st sid aid t ss hss]
  refine ⟨jset ss aid (newAgentHistory ss aid t), jget_jset_self _ _ _, ?_⟩
  have hnh : newAgentHistory ss aid t = h.drop 1 ++ [t] := by
    unfold newAgentHistory
    rw [hh]
    simp only [Option.getD_some]
    rw [if_pos (by simp [hlen])]
    rw [List.drop_append_of_le_length (by omega)]
  rw [hnh]
  exact jget_jset_self _ _ _

/-- LRU at the session bound: storing a new session into a full store evicts
exactly the session with the strictly smallest (least recent) access time. -/
theorem thinkStoreOp_lru (st : ThinkStore) (sid : String) (aid : ℕ)
    (t : ThinkingProcess) (hinv : ThinkInv st)
    (hfresh : jget st.storage sid = none) (hfull : st.storage.length = 10) :
    ∃ k tk, (k, tk) ∈ st.accessTimes ∧ k ≠ sid ∧
      (∀ p ∈ st.accessTimes, p ≠ (k, tk) → tk < p.2) ∧
      (thinkStoreOp st sid aid t).storage.map Prod.fst =
        ((st.storage.map Prod.fst).erase k) ++ [sid] ∧
      (thinkStoreOp st sid aid t).storage.length = 10 := by
  obtain ⟨hlen, hkeys, hnd, hclock, hvals, hhist⟩ := hinv
  have hndAT : (st.accessTimes.map Prod.fst).Nodup := by rw [← hkeys]; exact hnd
  have hcnotin : st.clock ∉ st.accessTimes.map Prod.snd := by
    intro hcon
    obtain ⟨p, hp, hp2⟩ := List.mem_map.mp hcon
    have := hclock p hp
    omega
  have hsidST : sid ∉ st.storage.map Prod.fst := (jget_eq_none_iff _ _).mp hfresh
  have hATlen : st.accessTimes.length = st.storage.length := by
    have := congrArg List.length hkeys
    simpa using this.symm
  have hATne : st.accessTimes ≠ [] := by
    intro hcon
    rw [hcon] at hATlen
    simp at hATlen
    omega
  obtain ⟨k, tk, hmem, hmin, heq⟩ :=
    thinkStoreOp_eq_fresh_full st sid aid t hfresh (by omega) hkeys hATne
  have hAT1nd : ((st.accessTimes ++ [(sid, st.clock)]).map Prod.fst).Nodup := by
    simp only [List.map_append, List.map_cons, List.map_nil]
    rw [List.nodup_append]
    refine ⟨hndAT, List.nodup_singleton sid, ?_⟩
    intro a ha hb
    simp only [List.mem_singleton] at hb
    subst hb
    rw [← hkeys] at ha
    exact hsidST ha
  have hAT1vals : ((st.accessTimes ++ [(sid, st.clock)]).map Prod.snd).Nodup := by
    simp only [List.map_append, List.map_cons, List.map_nil]
    rw [List.nodup_append]
    exact ⟨hvals, List.nodup_singleton _, by simpa using hcnotin⟩
  have hknes : k ≠ sid := by
    intro hks
    subst hks
    have htk : tk = st.clock := nodup_keys_eq _ hAT1nd hmem (by simp)
    obtain ⟨p0, hp0⟩ := List.exists_mem_of_ne_nil st.accessTimes hATne
    have h1 : tk ≤ p0.2 := hmin p0 (by simp [hp0])
    have h2 := hclock p0 hp0
    omega
  have hmemAT : (k, tk) ∈ st.accessTimes := by
    rcases List.mem_append.mp hmem with h1 | h1
    · exact h1
    · simp only [List.mem_singleton] at h1
      exact absurd (congrArg Prod.fst h1) hknes
  have hkST : k ∈ st.storage.map Prod.fst := by
    rw [hkeys]
    exact List.mem_map.mpr ⟨(k, tk), hmemAT, rfl⟩
  have hsiddel : sid ∉ (jdel st.storage k).map Prod.fst := by
    rw [jdel_map_fst]
    intro hcon
    exact hsidST (List.mem_of_mem_erase hcon)
  refine ⟨k, tk, hmemAT, hknes, ?_, ?_, ?_⟩
  · intro p hp hne
    have hle : tk ≤ p.2 := hmin p (by simp [hp])
    rcases Nat.lt_or_ge tk p.2 with h1 | h1
    · exact h1
    · exfalso
      have heq2 : p.2 = tk := by omega
      have : p = (k, tk) :=
        snd_inj_of_nodup _ hAT1vals (by simp [hp]) (by simp [hmem]) heq2
      exact hne this
  · rw [heq]
    simp only []
    rw [jset_map_fst_fresh _ _ _ hsiddel, jdel_map_fst]
  · rw [heq]
    simp only []
    rw [jset_length_fresh _ _ _ hsiddel]
    have := jdel_length st.storage k hkST
    omega

/-- C9: after any sequence of store and clearSession calls, at most 10
sessions are retained and every (session, agent) history holds at most 50
entries; getHistory(s, a, limit) returns at most limit entries, newest first
(the reversed final segment of the stored history); a store into a 50-entry
history drops the oldest entry first; and a store that would create an 11th
session first evicts exactly the least-recently-stored session. -/
theorem C9_thinking_history (ops : List ThinkOp) (sid : String) (aid : ℕ) (limit : ℕ) :
    (thinkRun ops).storage.length ≤ 10 ∧
    (∀ p ∈ (thinkRun ops).storage, ∀ q ∈ p.2, q.2.length ≤ 50) ∧
    (thinkGetHistory (thinkRun ops) sid aid limit).length ≤ limit ∧
    (∀ ss h, jget (thinkRun ops).storage sid = some ss → jget ss aid = some h →
      1 ≤ limit →
      thinkGetHistory (thinkRun ops) sid aid limit =
        (h.drop (h.length - limit)).reverse) ∧
    (∀ (st : ThinkStore) ss h (t : ThinkingProcess),
      jget st.storage sid = some ss → jget ss aid = some h → h.length = 50 →
      ∃ ss2, jget (thinkStoreOp st sid aid t).storage sid = some ss2 ∧
        jget ss2 aid = some (h.drop 1 ++ [t])) ∧
    (∀ (st : ThinkStore) (t : ThinkingProcess),
      ThinkInv st → jget st.storage sid = none → st.storage.length = 10 →
      ∃ k tk, (k, tk) ∈ st.accessTimes ∧ k ≠ sid ∧
        (∀ p ∈ st.accessTimes, p ≠ (k, tk) → tk < p.2) ∧
        (thinkStoreOp st sid aid t).storage.map Prod.fst =
          ((st.storage.map Prod.fst).erase k) ++ [sid] ∧
        (thinkStoreOp st sid aid t).storage.length = 10) := by
  obtain ⟨hlen, hkeys, hnd, hclock, hvals, hhist⟩ := thinkRun_inv ops
  exact ⟨hlen, hhist, (thinkGetHistory_spec _ sid aid limit).1,
    fun ss h hss hh hlim => ((thinkGetHistory_spec _ sid aid limit).2 ss h hss hh hlim).1,
    fun st ss h t => thinkStoreOp_fifo st sid aid t ss h,
    fun st t hinv => thinkStoreOp_lru st sid aid t hinv⟩

/-- Witness for C9: one stored thinking process is returned, newest first. -/
theorem C9_thinking_history_witness :
    thinkGetHistory (thinkRun [ThinkOp.store "s" 1 tpW]) "s" 1 10 = [tpW] := by
  have h := (C9_thinking_history [ThinkOp.store "s" 1 tpW] "s" 1 10).2.2.2.1
  rw [h [(1, [tpW])] [tpW] rfl rfl (by norm_num)]
  rfl

/-- C10: perceive returns as nearbyAgents exactly the other alive agents at
Manhattan distance at most visionRange, each paired with that distance, and
as nearbyItems exactly the items within the fixed radius 2, independent of
the visionRange argument. -/
theorem C10_perceive (self : AgentR) (allAgents : List AgentR) (allItems : List ItemR)
    (visionRange : ℕ) :
    (∀ o d, (o, d) ∈ (perceive self allAgents allItems visionRange).nearbyAgents ↔
      (o ∈ allAgents ∧ o.id ≠ self.id ∧ o.alive = true ∧
        d = (o.x - self.x).natAbs + (o.y - self.y).natAbs ∧ d ≤ visionRange)) ∧
    (∀ it, it ∈ (perceive self allAgents allItems visionRange).nearbyItems ↔
      (it ∈ allItems ∧ (it.x - self.x).natAbs + (it.y - self.y).natAbs ≤ 2)) ∧
    (∀ vr2 : ℕ, (perceive self allAgents allItems vr2).nearbyItems =
      (perceive self allAgents allItems visionRange).nearbyItems) := by
  refine ⟨?_, ?_, ?_⟩
  · intro o d
    simp only [perceive, List.mem_filterMap]
    constructor
    · rintro ⟨a, ha, hf⟩
      by_cases h1 : a.id = self.id ∨ a.alive = false
      · rw [if_pos h1] at hf
        exact Option.noConfusion hf
      · rw [if_neg h1] at hf
        push_neg at h1
        by_cases h2 : (a.x - self.x).natAbs + (a.y - self.y).natAbs ≤ visionRange
        · rw [if_pos h2] at hf
          have hinj := Option.some.inj hf
          have hao : a = o := congrArg Prod.fst hinj
          have hd : (a.x - self.x).natAbs + (a.y - self.y).natAbs = d :=
            congrArg Prod.snd hinj
          subst hao
          refine ⟨ha, h1.1, ?_, hd.symm, by omega⟩
          cases halive : a.alive with
          | true => rfl
          | false => exact absurd halive h1.2
        · rw [if_neg h2] at hf
          exact Option.noConfusion hf
    · rintro ⟨ho, hid, halive, rfl, hle⟩
      refine ⟨o, ho, ?_⟩
      rw [if_neg (by simp [hid, halive])]
      rw [if_pos hle]
  · intro it
    simp [perceive, List.mem_filter]
  · intro vr2
    rfl

theorem C10_perceive_witness :
    (agentW2, 3) ∈ (perceive agentW1 [agentW1, agentW2] [itemW] 4).nearbyAgents ∧
    itemW ∈ (perceive agentW1 [agentW1, agentW2] [itemW] 4).nearbyItems := by
  have h := C10_perceive agentW1 [agentW1, agentW2] [itemW] 4
  refine ⟨(h.1 agentW2 3).mpr ⟨by simp, by decide, by decide, by decide, by decide⟩,
    (h.2.1 itemW).mpr ⟨by simp, by decide⟩⟩

/-- C5 (amended): at the win-check step, when at most one agent is alive the
phase becomes Finished and the winner is the unique survivor or null; a
GameOver event is emitted only in the one-survivor case — with zero
survivors the pending events are unchanged. -/
theorem C5_win_check_amended (w : WorldR) :
    ((w.agents.filter (fun a => a.alive)).length ≤ 1 →
      (winCheck w).phase = GamePhase.Finished ∧
      (winCheck w).winner = ((w.agents.filter (fun a => a.alive)).head?).map AgentR.id) ∧
    (∀ a, (w.agents.filter (fun a => a.alive)).head? = some a →
      (w.agents.filter (fun a => a.alive)).length ≤ 1 →
      (winCheck w).pendingEvents =
        w.pendingEvents ++ [⟨GameEventType.GameOver, [a.id]⟩]) ∧
    ((w.agents.filter (fun a => a.alive)).length = 0 →
      (winCheck w).winner = none ∧ (winCheck w).pendingEvents = w.pendingEvents) ∧
    (1 < (w.agents.filter (fun a => a.alive)).length → winCheck w = w) := by
  refine ⟨?_, ?_, ?_, ?_⟩
  · intro hle
    unfold winCheck
    rw [if_pos hle]
    exact ⟨rfl, rfl⟩
  · intro a ha hle
    unfold winCheck
    rw [if_pos hle]
    simp [ha]
  · intro h0
    have hnil : w.agents.filter (fun a => a.alive) = [] := List.length_eq_zero.mp h0
    unfold winCheck
    rw [if_pos (by omega)]
    simp [hnil]
  · intro hgt
    unfold winCheck
    rw [if_neg (by omega)]

/-- Counterexample to C5 as stated: with zero survivors the phase is set and
the winner is null, but no GameOver event is emitted. -/
theorem C5_counterexample :
    (winCheck worldC5).phase = GamePhase.Finished ∧
    (winCheck worldC5).winner = none ∧
    (winCheck worldC5).pendingEvents = [] := by
  refine ⟨by decide, by decide, by decide⟩

/-- Witness for C5: one survivor yields Finished phase, that winner and a
GameOver event. -/
theorem C5_win_check_amended_witness :
    (winCheck worldC5w).phase = GamePhase.Finished ∧
    (winCheck worldC5w).winner = some 2 ∧
    (winCheck worldC5w).pendingEvents = [⟨GameEventType.GameOver, [2]⟩] := by
  have h := C5_win_check_amended worldC5w
  refine ⟨(h.1 (by decide)).1, ?_, ?_⟩
  · rw [(h.1 (by decide)).2]
    decide
  · rw [h.2.1 aliveSolo (by decide) (by decide)]
    decide

theorem findAgent_eq_some_id (agents : List AgentR) (aid : ℕ) (a : AgentR)
    (h : findAgent agents aid = some a) : a.id = aid := by
  have := List.find?_some h
  simpa using this

theorem findAgent_map (agents : List AgentR) (aid : ℕ) (f : AgentR → AgentR)
    (hid : ∀ a, (f a).id = a.id) :
    findAgent (agents.map f) aid = (findAgent agents aid).map f := by
  induction agents with
  | nil => rfl
  | cons a tl ih =>
    unfold findAgent at *
    by_cases h : a.id = aid
    · simp [List.find?_cons, h, hid a]
    · simp only [List.map_cons, List.find?_cons]
      rw [show (decide ((f a).id = aid)) = false by simp [hid a, h]]
      rw [show (decide (a.id = aid)) = false by simp [h]]
      exact ih

theorem attackAgentUpd_id (aid tid : ℕ) (dmg : ℚ) (killed : Bool) (a : AgentR) :
    (attackAgentUpd aid tid dmg killed a).id = a.id := by
  simp only [attackAgentUpd]
  split_ifs <;> rfl

theorem attackAgentUpd_hp (aid tid : ℕ) (dmg : ℚ) (killed : Bool) (a : AgentR)
    (h : a.id = tid) :
    (attackAgentUpd aid tid dmg killed a).hp = (takeDamage a dmg).hp := by
  simp only [attackAgentUpd, if_pos h]
  split_ifs <;> rfl

/-- C4 (amended): an Attack on an alive, Manhattan-adjacent target applies
damage max(1, attacker.attack - target.defense/2 + r), r in {0..4}, computed
with exact (real) division: the damage is a half-integer, equal to the
claimed floored-integer formula when defense is even, and either that value
or that value minus 1/2 when defense is odd — so not an integer in general. -/
theorem C4_attack_damage_amended (w : WorldR) (aid tid : ℕ) (r : ℕ) (hr : r < 5)
    (target attacker : AgentR)
    (ht : findAgent w.agents tid = some target)
    (halive : target.alive = true)
    (ha : findAgent w.agents aid = some attacker)
    (hadj : (target.x - attacker.x).natAbs + (target.y - attacker.y).natAbs ≤ 1)
    (atk : ℤ) (d : ℕ)
    (hatk : attacker.attack = (atk : ℚ)) (hd : target.defense = (d : ℚ)) :
    (findAgent (executeAttack w aid tid r).agents tid).map AgentR.hp =
      some (max 0 (target.hp - max 1 (attacker.attack - target.defense / 2 + (r : ℚ)))) ∧
    (∃ k : ℤ, max 1 (attacker.attack - target.defense / 2 + (r : ℚ)) = (k : ℚ) ∨
      max 1 (attacker.attack - target.defense / 2 + (r : ℚ)) = (k : ℚ) + 1 / 2) ∧
    (d % 2 = 0 → max 1 (attacker.attack - target.defense / 2 + (r : ℚ)) =
      ((claimedDmg atk d r : ℤ) : ℚ)) ∧
    (d % 2 = 1 → max 1 (attacker.attack - target.defense / 2 + (r : ℚ)) =
      ((claimedDmg atk d r : ℤ) : ℚ) ∨
      max 1 (attacker.attack - target.defense / 2 + (r : ℚ)) =
      ((claimedDmg atk d r : ℤ) : ℚ) - 1 / 2) := by
  have htid : target.id = tid := findAgent_eq_some_id _ _ _ ht
  refine ⟨?_, ?_, ?_, ?_⟩
  · simp only [executeAttack, ht, ha, halive]
    rw [if_neg (by simp), if_pos hadj]
    rw [findAgent_map w.agents tid _ (attackAgentUpd_id aid tid _ _), ht]
    simp only [Option.map_some']
    rw [attackAgentUpd_hp aid tid _ _ target htid]
    rfl
  · rw [hatk, hd]
    rcases Nat.even_or_odd d with ⟨m, hm⟩ | ⟨m, hm⟩
    · refine ⟨max 1 (atk - m + r), Or.inl ?_⟩
      subst hm
      push_cast
      rw [show ((m : ℚ) + m) / 2 = (m : ℚ) from by ring]
    · rcases le_total ((atk : ℚ) - (d : ℚ) / 2 + (r : ℚ)) 1 with hle | hle
      · exact ⟨1, Or.inl (by rw [max_eq_left hle]; norm_num)⟩
      · refine ⟨atk - m + r - 1, Or.inr ?_⟩
        rw [max_eq_right hle]
        subst hm
        push_cast
        ring
  · intro heven
    obtain ⟨m, hm⟩ : ∃ m, d = 2 * m := ⟨d / 2, by omega⟩
    have hd2 : d / 2 = m := by omega
    rw [hatk, hd, claimedDmg, hd2]
    subst hm
    have harg : (atk : ℚ) - ((2 * m : ℕ) : ℚ) / 2 + (r : ℚ) =
        ((atk - m + r : ℤ) : ℚ) := by
      push_cast
      ring
    rw [harg]
    rw [show ((max 1 (atk - (m : ℤ) + r) : ℤ) : ℚ) =
      max 1 ((atk - (m : ℤ) + r : ℤ) : ℚ) from by push_cast; rfl]
  · intro hodd
    obtain ⟨m, hm⟩ : ∃ m, d = 2 * m + 1 := ⟨d / 2, by omega⟩
    have hd2 : d / 2 = m := by omega
    rw [hatk, hd, claimedDmg, hd2]
    subst hm
    have harg : (atk : ℚ) - ((2 * m + 1 : ℕ) : ℚ) / 2 + (r : ℚ) =
        ((atk - m + r : ℤ) : ℚ) - 1 / 2 := by
      push_cast
      ring
    rw [harg]
    have hmaxcast : ((max 1 (atk - (m : ℤ) + r) : ℤ) : ℚ) =
        max 1 ((atk - (m : ℤ) + r : ℤ) : ℚ) := by push_cast; rfl
    rw [hmaxcast]
    rcases le_or_lt (atk - (m : ℤ) + r) 1 with hq1 | hq1
    · left
      rw [max_eq_left (show ((atk - (m : ℤ) + r : ℤ) : ℚ) - 1 / 2 ≤ 1 from by
        have h1 : ((atk - (m : ℤ) + r : ℤ) : ℚ) ≤ 1 := by exact_mod_cast hq1
        linarith)]
      rw [max_eq_left (show ((atk - (m : ℤ) + r : ℤ) : ℚ) ≤ 1 from by exact_mod_cast hq1)]
    · right
      have h2 : (2 : ℤ) ≤ atk - (m : ℤ) + r := hq1
      rw [max_eq_right (show (1 : ℚ) ≤ ((atk - (m : ℤ) + r : ℤ) : ℚ) - 1 / 2 from by
        have h1 : (2 : ℚ) ≤ ((atk - (m : ℤ) + r : ℤ) : ℚ) := by exact_mod_cast h2
        linarith)]
      rw [max_eq_right (show (1 : ℚ) ≤ ((atk - (m : ℤ) + r : ℤ) : ℚ) from by
        have h1 : (2 : ℚ) ≤ ((atk - (m : ℤ) + r : ℤ) : ℚ) := by exact_mod_cast h2
        linarith)]

/-- Counterexample to C4 as stated: attacker with attack 5 hits an adjacent
target with hp 10 and defense 3 under roll 0; the target ends at hp 13/2,
a non-integer, while the claimed floored formula 10 - max(1, 5 - floor(3/2) + r)
is an integer for every roll r in \x7b0..4\x7d, so no roll matches. -/
theorem C4_counterexample :
    (findAgent (executeAttack worldC4 0 1 0).agents 1).map AgentR.hp = some (13 / 2) ∧
    ((13 : ℚ) / 2).den = 2 ∧
    (∀ r2, r2 < 5 → ((10 : ℚ) - ((claimedDmg 5 3 r2 : ℤ) : ℚ)) ≠ 13 / 2) := by
  refine ⟨?_, by norm_num, ?_⟩
  · norm_num [executeAttack, worldC4, agentC4a, agentC4t, findAgent, List.find?, attackAgentUpd, takeDamage]
  · intro r2 hr2
    interval_cases r2 <;> norm_num [claimedDmg]

/-- Witness for C4 at the concrete world: all four conjuncts at roll 0. -/
theorem C4_attack_damage_amended_witness :
    (findAgent (executeAttack worldC4 0 1 0).agents 1).map AgentR.hp =
      some (max 0 (agentC4t.hp - max 1 (agentC4a.attack - agentC4t.defense / 2 + ((0 : ℕ) : ℚ)))) ∧
    (∃ k : ℤ, max 1 (agentC4a.attack - agentC4t.defense / 2 + ((0 : ℕ) : ℚ)) = (k : ℚ) ∨
      max 1 (agentC4a.attack - agentC4t.defense / 2 + ((0 : ℕ) : ℚ)) = (k : ℚ) + 1 / 2) ∧
    ((3 : ℕ) % 2 = 0 → max 1 (agentC4a.attack - agentC4t.defense / 2 + ((0 : ℕ) : ℚ)) =
      ((claimedDmg 5 3 0 : ℤ) : ℚ)) ∧
    ((3 : ℕ) % 2 = 1 → max 1 (agentC4a.attack - agentC4t.defense / 2 + ((0 : ℕ) : ℚ)) =
      ((claimedDmg 5 3 0 : ℤ) : ℚ) ∨
      max 1 (agentC4a.attack - agentC4t.defense / 2 + ((0 : ℕ) : ℚ)) =
      ((claimedDmg 5 3 0 : ℤ) : ℚ) - 1 / 2) :=
  C4_attack_damage_amended worldC4 0 1 0 (by decide) agentC4t agentC4a (by decide)
    (by decide) (by decide) (by decide) 5 3 (by norm_num [agentC4a]) (by norm_num [agentC4t])

theorem takeDamage_social (a : AgentR) (d : ℚ) : social (takeDamage a d) = social a := rfl

theorem moveToward_social (a : AgentR) (tx ty : ℤ) (g : ℕ) (m : TileMap) :
    social (moveToward a tx ty g m) = social a := by
  unfold moveToward
  dsimp only
  split <;> rfl

theorem followPathAux_social (m : TileMap) : ∀ (n : ℕ) (a : AgentR),
    social (followPathAux m n a) = social a
  | 0, a => rfl
  | n + 1, a => by
    unfold followPathAux
    dsimp only
    split
    · rfl
    · split
      · exact followPathAux_social m n _
      · split_ifs <;> rfl

theorem updAgent_social_mem (agents : List AgentR) (aid : ℕ) (f : AgentR → AgentR)
    (hf : ∀ a, social (f a) = social a) :
    ∀ b ∈ updAgent agents aid f, ∃ a, a ∈ agents ∧ social b = social a := by
  intro b hb
  obtain ⟨a, ha, hba⟩ := List.mem_map.mp hb
  refine ⟨a, ha, ?_⟩
  rw [← hba]
  by_cases h : a.id = aid
  · rw [if_pos h]
    exact hf a
  · rw [if_neg h]

theorem moveAgentToward_social (w : WorldR) (aid : ℕ) (tx ty : ℤ) :
    ∀ b ∈ (moveAgentToward w aid tx ty).agents, ∃ a, a ∈ w.agents ∧ social b = social a := by
  intro b hb
  unfold moveAgentToward at hb
  cases hfa : findAgent w.agents aid with
  | none =>
    rw [hfa] at hb
    exact ⟨b, hb, rfl⟩
  | some agent =>
    rw [hfa] at hb
    dsimp only at hb
    cases hp : findPath w.tileMap (agent.x, agent.y) (tx, ty) with
    | none =>
      rw [hp] at hb
      dsimp only at hb
      exact updAgent_social_mem w.agents aid _ (fun a => moveToward_social a tx ty w.gridSize w.tileMap) b hb
    | some path =>
      rw [hp] at hb
      dsimp only at hb
      by_cases hl : 0 < path.waypoints.length
      · rw [if_pos hl] at hb
        dsimp only at hb
        exact updAgent_social_mem w.agents aid
          (fun a => followPath (setPath a path.waypoints) w.tileMap)
          (fun a => followPathAux_social w.tileMap ((setPath a path.waypoints).waypoints.length + 1) (setPath a path.waypoints)) b hb
      · rw [if_neg hl] at hb
        dsimp only at hb
        exact updAgent_social_mem w.agents aid _ (fun a => moveToward_social a tx ty w.gridSize w.tileMap) b hb

theorem noSelf_of_social (agents agents' : List AgentR)
    (h : ∀ b ∈ agents', ∃ a, a ∈ agents ∧ social b = social a)
    (hs : noSelf agents) : noSelf agents' := by
  intro b hb
  obtain ⟨a, ha, hba⟩ := h b hb
  obtain ⟨h1, h2⟩ := hs a ha
  unfold social at hba
  rw [Prod.ext_iff] at hba
  rw [Prod.ext_iff] at hba
  obtain ⟨e1, e2, e3⟩ := hba
  dsimp only at e1 e2 e3
  rw [e1, e2, e3]
  exact ⟨h1, h2⟩

theorem noSelf_map (agents : List AgentR) (f : AgentR → AgentR)
    (hf : ∀ a : AgentR, a.id ∉ a.alliances → a.id ∉ a.enemies →
      (f a).id ∉ (f a).alliances ∧ (f a).id ∉ (f a).enemies)
    (hs : noSelf agents) : noSelf (agents.map f) := by
  intro b hb
  obtain ⟨a, ha, hba⟩ := List.mem_map.mp hb
  rw [← hba]
  exact hf a (hs a ha).1 (hs a ha).2

theorem attackAgentUpd_noSelf (aid tid : ℕ) (dmg : ℚ) (killed : Bool) (a : AgentR)
    (hne : aid ≠ tid) (h1 : a.id ∉ a.alliances) (h2 : a.id ∉ a.enemies) :
    (attackAgentUpd aid tid dmg killed a).id ∉ (attackAgentUpd aid tid dmg killed a).alliances ∧
    (attackAgentUpd aid tid dmg killed a).id ∉ (attackAgentUpd aid tid dmg killed a).enemies := by
  unfold attackAgentUpd
  dsimp only
  split_ifs with c1 c2 c3 c4 c5 c6 c7 c8
  all_goals (try dsimp only [takeDamage] at *)
  all_goals (
    first
    | exact ⟨h1, h2⟩
    | (refine ⟨?_, ?_⟩ <;> simp_all [Finset.mem_insert, Finset.mem_erase]))

theorem allyAgentUpd_noSelf (aid tid : ℕ) (accepted : Bool) (a : AgentR)
    (hne : aid ≠ tid) (h1 : a.id ∉ a.alliances) (h2 : a.id ∉ a.enemies) :
    (allyAgentUpd aid tid accepted a).id ∉ (allyAgentUpd aid tid accepted a).alliances ∧
    (allyAgentUpd aid tid accepted a).id ∉ (allyAgentUpd aid tid accepted a).enemies := by
  unfold allyAgentUpd
  dsimp only
  split_ifs with c1 c2 c3 c4 c5 c6 c7
  all_goals (try dsimp only at *)
  all_goals (
    first
    | exact ⟨h1, h2⟩
    | (refine ⟨?_, ?_⟩ <;> simp_all [Finset.mem_insert, Finset.mem_erase]))

theorem betrayAgentUpd_noSelf (aid tid : ℕ) (dmg : ℚ) (killed : Bool) (a : AgentR)
    (hne : aid ≠ tid) (h1 : a.id ∉ a.alliances) (h2 : a.id ∉ a.enemies) :
    (betrayAgentUpd aid tid dmg killed a).id ∉ (betrayAgentUpd aid tid dmg killed a).alliances ∧
    (betrayAgentUpd aid tid dmg killed a).id ∉ (betrayAgentUpd aid tid dmg killed a).enemies := by
  unfold betrayAgentUpd
  dsimp only
  split_ifs with c1 c2 c3 c4 c5 c6 c7
  all_goals (try dsimp only [takeDamage] at *)
  all_goals (
    first
    | exact ⟨h1, h2⟩
    | (refine ⟨?_, ?_⟩ <;> simp_all [Finset.mem_insert, Finset.mem_erase]))

theorem betrayAgentUpd_id (aid tid : ℕ) (dmg : ℚ) (killed : Bool) (a : AgentR) :
    (betrayAgentUpd aid tid dmg killed a).id = a.id := by
  unfold betrayAgentUpd
  dsimp only
  split_ifs <;> rfl

theorem betrayAgentUpd_other (aid tid : ℕ) (dmg : ℚ) (killed : Bool) (a : AgentR)
    (hna : a.id ≠ aid) (hnt : a.id ≠ tid) :
    betrayAgentUpd aid tid dmg killed a = a := by
  unfold betrayAgentUpd
  dsimp only
  rw [if_neg hna, if_neg hnt, if_neg hnt, if_neg (fun hc => hna hc.2)]

theorem attackAgentUpd_alliances_killed (aid tid : ℕ) (dmg : ℚ) (a : AgentR) :
    (attackAgentUpd aid tid dmg true a).alliances = a.alliances.erase tid := by
  unfold attackAgentUpd
  dsimp only
  split_ifs <;> first | rfl | (exact absurd rfl (by assumption))

theorem zoneAgent_social (cx cy half : ℚ) (a : AgentR) :
    social (zoneAgent cx cy half a) = social a := by
  unfold zoneAgent
  split <;> rfl

theorem zoneAgent_id_alliances (cx cy half : ℚ) (a : AgentR) :
    ((zoneAgent cx cy half a).id, (zoneAgent cx cy half a).alliances) = (a.id, a.alliances) := by
  unfold zoneAgent
  split <;> rfl

theorem handleZoneShrink_social (w : WorldR) :
    ∀ b ∈ (handleZoneShrink w).agents, ∃ a, a ∈ w.agents ∧ social b = social a := by
  intro b hb
  unfold handleZoneShrink at hb
  split_ifs at hb
  · exact ⟨b, hb, rfl⟩
  · exact ⟨b, hb, rfl⟩
  · dsimp only at hb
    obtain ⟨a, ha, hba⟩ := List.mem_map.mp hb
    exact ⟨a, ha, by rw [← hba]; exact zoneAgent_social _ _ _ a⟩

theorem handleZoneShrink_alliances (w : WorldR) :
    (handleZoneShrink w).agents.map (fun a => (a.id, a.alliances)) =
      w.agents.map (fun a => (a.id, a.alliances)) := by
  unfold handleZoneShrink
  split_ifs
  · rfl
  · rfl
  · dsimp only
    rw [List.map_map]
    exact List.map_congr_left (fun a _ => zoneAgent_id_alliances _ _ _ a)

/-- C1 (amended): no agent ever lists itself among alliances or enemies — all
four world operations preserve that, provided an action never targets its own
executor; a death by adjacent attack purges the victim from every agent's
alliance set; but a betrayal only touches the two parties' social sets and a
zone shrink touches no alliance set at all, so deaths by betrayal or zone
damage leave the victim inside third parties' alliance sets, and attacking a
current ally adds it to enemies without removing the alliance, so alliances
and enemies need not be disjoint. -/
theorem C1_alliance_invariants_amended (w : WorldR) (aid tid : ℕ) (r : ℕ)
    (hs : noSelf w.agents)
    (target attacker : AgentR)
    (ht : findAgent w.agents tid = some target)
    (halive : target.alive = true)
    (ha : findAgent w.agents aid = some attacker)
    (hadj : (target.x - attacker.x).natAbs + (target.y - attacker.y).natAbs ≤ 1)
    (hkill : (takeDamage target (max 1 (attacker.attack - target.defense / 2 + (r : ℚ)))).alive = false) :
    (∀ aid2 tid2 r2 rollOk2, aid2 ≠ tid2 →
      noSelf (executeAttack w aid2 tid2 r2).agents ∧
      noSelf (executeAlly w aid2 tid2 rollOk2).agents ∧
      noSelf (executeBetray w aid2 tid2).agents) ∧
    noSelf (handleZoneShrink w).agents ∧
    (∀ a ∈ (executeAttack w aid tid r).agents, tid ∉ a.alliances) ∧
    ((handleZoneShrink w).agents.map (fun a => (a.id, a.alliances)) =
      w.agents.map (fun a => (a.id, a.alliances))) ∧
    (∀ a ∈ (executeBetray w aid tid).agents, a.id ≠ aid → a.id ≠ tid →
      ∃ a0, a0 ∈ w.agents ∧ a0.id = a.id ∧ a.alliances = a0.alliances) := by
  refine ⟨?_, ?_, ?_, ?_, ?_⟩
  · intro aid2 tid2 r2 rollOk2 hne
    refine ⟨?_, ?_, ?_⟩
    · unfold executeAttack
      cases ht2 : findAgent w.agents tid2 with
      | none => exact hs
      | some t2 =>
        dsimp only
        by_cases hal : t2.alive = false
        · rw [if_pos hal]
          exact hs
        · rw [if_neg hal]
          cases ha2 : findAgent w.agents aid2 with
          | none => exact hs
          | some at2 =>
            dsimp only
            by_cases hd : (t2.x - at2.x).natAbs + (t2.y - at2.y).natAbs ≤ 1
            · rw [if_pos hd]
              dsimp only
              exact noSelf_map w.agents _
                (fun a h1 h2 => attackAgentUpd_noSelf aid2 tid2 _ _ a hne h1 h2) hs
            · rw [if_neg hd]
              dsimp only
              exact noSelf_of_social _ _
                (updAgent_social_mem _ aid2 _ (fun a => rfl))
                (noSelf_of_social _ _ (moveAgentToward_social w aid2 t2.x t2.y) hs)
    · unfold executeAlly
      cases ht2 : findAgent w.agents tid2 with
      | none => exact hs
      | some t2 =>
        dsimp only
        by_cases hal : t2.alive = false
        · rw [if_pos hal]
          exact hs
        · rw [if_neg hal]
          cases ha2 : findAgent w.agents aid2 with
          | none => exact hs
          | some at2 =>
            dsimp only
            by_cases hd : (t2.x - at2.x).natAbs + (t2.y - at2.y).natAbs ≤ 2
            · rw [if_pos hd]
              dsimp only
              exact noSelf_map w.agents _
                (fun a h1 h2 => allyAgentUpd_noSelf aid2 tid2 _ a hne h1 h2) hs
            · rw [if_neg hd]
              dsimp only
              exact noSelf_of_social _ _
                (updAgent_social_mem _ aid2 _ (fun a => rfl))
                (noSelf_of_social _ _ (moveAgentToward_social w aid2 t2.x t2.y) hs)
    · unfold executeBetray
      cases ht2 : findAgent w.agents tid2 with
      | none => exact hs
      | some t2 =>
        dsimp only
        by_cases hal : t2.alive = false
        · rw [if_pos hal]
          exact hs
        · rw [if_neg hal]
          cases ha2 : findAgent w.agents aid2 with
          | none => exact hs
          | some at2 =>
            dsimp only
            exact noSelf_map w.agents _
              (fun a h1 h2 => betrayAgentUpd_noSelf aid2 tid2 _ _ a hne h1 h2) hs
  · exact noSelf_of_social _ _ (handleZoneShrink_social w) hs
  · simp only [executeAttack, ht, ha, halive]
    rw [if_neg (by simp), if_pos hadj]
    dsimp only
    rw [hkill]
    simp only [Bool.not_false]
    intro b hb
    obtain ⟨a, ha2, rfl⟩ := List.mem_map.mp hb
    rw [attackAgentUpd_alliances_killed]
    exact Finset.not_mem_erase tid a.alliances
  · exact handleZoneShrink_alliances w
  · simp only [executeBetray, ht, ha, halive]
    rw [if_neg (by simp)]
    dsimp only
    intro b hb hba hbt
    obtain ⟨a0, ha0, rfl⟩ := List.mem_map.mp hb
    rw [betrayAgentUpd_id] at hba hbt
    rw [betrayAgentUpd_other aid tid _ _ a0 hba hbt]
    exact ⟨a0, ha0, rfl, rfl⟩

/-- Counterexample to C1 as stated: (a) attacking a current ally yields an
agent whose alliances and enemies both contain the target, breaking
disjointness; (b) a betrayal kill leaves the victim inside a third agent's
alliance set; (c) a zone-shrink kill also leaves the victim inside a
surviving agent's alliance set. -/
theorem C1_counterexample :
    ((findAgent (executeAttack worldC1a 0 1 0).agents 0).map
      (fun a => (decide (1 ∈ a.alliances), decide (1 ∈ a.enemies))) = some (true, true)) ∧
    ((findAgent (executeBetray worldC1b 0 1).agents 1).map AgentR.alive = some false) ∧
    ((findAgent (executeBetray worldC1b 0 1).agents 2).map
      (fun a => decide (1 ∈ a.alliances)) = some true) ∧
    ((findAgent (handleZoneShrink worldC1c).agents 1).map AgentR.alive = some false) ∧
    ((findAgent (handleZoneShrink worldC1c).agents 2).map
      (fun a => decide (1 ∈ a.alliances)) = some true) := by
  refine ⟨?_, ?_, ?_, ?_, ?_⟩
  · norm_num [executeAttack, worldC1a, agentC1A0, agentC1A1, findAgent, List.find?,
      attackAgentUpd, takeDamage]
  · norm_num [executeBetray, worldC1b, agentC1B0, agentC1B1, agentC1B2, findAgent,
      List.find?, betrayAgentUpd, takeDamage]
  · norm_num [executeBetray, worldC1b, agentC1B0, agentC1B1, agentC1B2, findAgent,
      List.find?, betrayAgentUpd, takeDamage]
  · norm_num [handleZoneShrink, worldC1c, agentC1Z1, agentC1Z2, findAgent, List.find?,
      zoneAgent, zoneDelta, takeDamage]
  · norm_num [handleZoneShrink, worldC1c, agentC1Z1, agentC1Z2, findAgent, List.find?,
      zoneAgent, zoneDelta, takeDamage]

/-- Witness for C1 at a concrete killing attack. -/
theorem C1_alliance_invariants_amended_witness :
    (∀ aid2 tid2 r2 rollOk2, aid2 ≠ tid2 →
      noSelf (executeAttack worldC1w aid2 tid2 r2).agents ∧
      noSelf (executeAlly worldC1w aid2 tid2 rollOk2).agents ∧
      noSelf (executeBetray worldC1w aid2 tid2).agents) ∧
    noSelf (handleZoneShrink worldC1w).agents ∧
    (∀ a ∈ (executeAttack worldC1w 0 1 0).agents, 1 ∉ a.alliances) ∧
    ((handleZoneShrink worldC1w).agents.map (fun a => (a.id, a.alliances)) =
      worldC1w.agents.map (fun a => (a.id, a.alliances))) ∧
    (∀ a ∈ (executeBetray worldC1w 0 1).agents, a.id ≠ 0 → a.id ≠ 1 →
      ∃ a0, a0 ∈ worldC1w.agents ∧ a0.id = a.id ∧ a.alliances = a0.alliances) :=
  C1_alliance_invariants_amended worldC1w 0 1 0 (by decide) agentC1W1 agentC1W0
    (by decide) (by decide) (by decide) (by decide)
    (by norm_num [takeDamage, agentC1W0, agentC1W1])

/-- C6: findPath on equal in-bounds endpoints returns the trivial zero-cost
single-waypoint path with no passability check on that tile; with distinct
endpoints it returns null when either endpoint is out of bounds, and also
when both are in bounds but either endpoint tile is Blocked. -/
theorem C6_findpath_edge_cases (m : TileMap) (p start goal : ℤ × ℤ)
    (hp : isValidPos m p = true)
    (hne : start ≠ goal) :
    findPath m p p = some ⟨[p], Cost.fin 0⟩ ∧
    ((isValidPos m start = false ∨ isValidPos m goal = false) → findPath m start goal = none) ∧
    (isValidPos m start = true → isValidPos m goal = true →
      ((tileAt m start).type = 1 ∨ (tileAt m goal).type = 1) →
      findPath m start goal = none) := by
  refine ⟨?_, ?_, ?_⟩
  · simp [findPath, hp]
  · intro h
    rcases h with h | h <;> simp [findPath, h]
  · intro h1 h2 hb
    simp [findPath, h1, h2, hne, hb]

/-- Witness for C6 on a 2-by-1 map whose position (0,0) is Blocked: the
trivial path is still returned for start = goal = (0,0). -/
theorem C6_findpath_edge_cases_witness :
    findPath mapC6 (0, 0) (0, 0) = some ⟨[(0, 0)], Cost.fin 0⟩ ∧
    ((isValidPos mapC6 (0, 0) = false ∨ isValidPos mapC6 (1, 0) = false) →
      findPath mapC6 (0, 0) (1, 0) = none) ∧
    (isValidPos mapC6 (0, 0) = true → isValidPos mapC6 (1, 0) = true →
      ((tileAt mapC6 (0, 0)).type = 1 ∨ (tileAt mapC6 (1, 0)).type = 1) →
      findPath mapC6 (0, 0) (1, 0) = none) :=
  C6_findpath_edge_cases mapC6 (0, 0) (0, 0) (1, 0) (by decide) (by decide)

theorem mem_cells_of_valid (m : TileMap) (p : ℤ × ℤ) (h : isValidPos m p = true) :
    p ∈ cells m := by
  simp only [isValidPos, Bool.and_eq_true, decide_eq_true_eq] at h
  obtain ⟨⟨⟨h1, h2⟩, h3⟩, h4⟩ := h
  refine Finset.mem_image.mpr ⟨(p.1.toNat, p.2.toNat), ?_, ?_⟩
  · rw [Finset.mem_product]
    constructor <;> rw [Finset.mem_range] <;> omega
  · rw [Prod.ext_iff]
    constructor <;> dsimp only <;> omega

theorem card_cells (m : TileMap) : (cells m).card ≤ m.width * m.height := by
  refine le_trans Finset.card_image_le ?_
  rw [Finset.card_product, Finset.card_range, Finset.card_range]

theorem mem_getNeighbors_iff (m : TileMap) (p v : ℤ × ℤ) :
    v ∈ getNeighbors m p ↔
      (v = (p.1, p.2 - 1) ∨ v = (p.1 + 1, p.2) ∨ v = (p.1, p.2 + 1) ∨ v = (p.1 - 1, p.2)) ∧
      okP m v := by
  simp [getNeighbors, List.mem_filter, okP, and_assoc]

theorem adjP_of_cand (p v : ℤ × ℤ)
    (h : v = (p.1, p.2 - 1) ∨ v = (p.1 + 1, p.2) ∨ v = (p.1, p.2 + 1) ∨ v = (p.1 - 1, p.2)) :
    adjP p v := by
  obtain ⟨a, b⟩ := p
  obtain ⟨c, d⟩ := v
  simp only [Prod.mk.injEq] at h
  unfold adjP
  dsimp only
  omega

theorem cand_of_adjP (p v : ℤ × ℤ) (h : adjP p v) :
    v = (p.1, p.2 - 1) ∨ v = (p.1 + 1, p.2) ∨ v = (p.1, p.2 + 1) ∨ v = (p.1 - 1, p.2) := by
  obtain ⟨a, b⟩ := p
  obtain ⟨c, d⟩ := v
  unfold adjP at h
  dsimp only at h
  simp only [Prod.mk.injEq]
  omega

theorem mem_getNeighbors_ok (m : TileMap) (p v : ℤ × ℤ) (h : v ∈ getNeighbors m p) :
    okP m v :=
  ((mem_getNeighbors_iff m p v).mp h).2

theorem mem_getNeighbors_adj (m : TileMap) (p v : ℤ × ℤ) (h : v ∈ getNeighbors m p) :
    adjP p v :=
  adjP_of_cand p v ((mem_getNeighbors_iff m p v).mp h).1

theorem mem_getNeighbors_ne (m : TileMap) (p v : ℤ × ℤ) (h : v ∈ getNeighbors m p) :
    v ≠ p := by
  intro he
  have := mem_getNeighbors_adj m p v h
  rw [he] at this
  unfold adjP at this
  omega

theorem mem_getNeighbors_of (m : TileMap) (p v : ℤ × ℤ) (ha : adjP p v) (ho : okP m v) :
    v ∈ getNeighbors m p :=
  (mem_getNeighbors_iff m p v).mpr ⟨cand_of_adjP p v ha, ho⟩

theorem pathCost_concat (m : TileMap) :
    ∀ (l : List (ℤ × ℤ)) (v : ℤ × ℤ), l ≠ [] →
      pathCost m (l ++ [v]) = pathCost m l + W m v
  | [], _, h => absurd rfl h
  | [_], v, _ => by simp [pathCost]
  | p :: q :: tl, v, _ => by
    have ih := pathCost_concat m (q :: tl) v (by simp)
    show W m q + pathCost m ((q :: tl) ++ [v]) = W m q + pathCost m (q :: tl) + W m v
    rw [ih]
    omega

theorem validPath_concat (m : TileMap) (s p v : ℤ × ℤ) (l : List (ℤ × ℤ))
    (h : validPath m s p l) (ho : okP m v) (ha : adjP p v) :
    validPath m s v (l ++ [v]) ∧ pathCost m (l ++ [v]) = pathCost m l + W m v := by
  obtain ⟨hh, hl, hmem, hch⟩ := h
  have hne : l ≠ [] := by
    intro he
    rw [he] at hh
    exact Option.noConfusion hh
  refine ⟨⟨?_, ?_, ?_, ?_⟩, pathCost_concat m l v hne⟩
  · cases l with
    | nil => exact absurd rfl hne
    | cons a t => exact hh
  · exact List.getLast?_concat l
  · intro q hq
    rcases List.mem_append.mp hq with hq | hq
    · exact hmem q hq
    · rw [List.mem_singleton.mp hq]
      exact ho
  · rw [List.chain'_append]
    refine ⟨hch, List.chain'_singleton v, ?_⟩
    intro x hx y hy
    rw [hl] at hx
    rw [Option.some.inj hx.symm]
    simp only [List.head?_cons, Option.some.inj hy.symm] at *
    exact ha

theorem heuristic_adj (p q goal : ℤ × ℤ) (h : adjP p q) :
    heuristic p goal ≤ heuristic q goal + 1 := by
  unfold adjP at h
  unfold heuristic
  omega

theorem seg_heuristic (m : TileMap) (goal : ℤ × ℤ) (hw : ∀ p, 1 ≤ W m p) :
    ∀ (L : List (ℤ × ℤ)) (s z : ℤ × ℤ), SegOk m L →
      L.head? = some s → L.getLast? = some z →
      heuristic s goal ≤ pathCost m L + heuristic z goal
  | [], s, z, _, hh, _ => by exact Option.noConfusion hh
  | [x], s, z, _, hh, hl => by
    have h1 : x = s := Option.some.inj hh
    have h2 : x = z := Option.some.inj hl
    rw [← h1, ← h2]
    simp [pathCost]
  | x :: v :: rest, s, z, hseg, hh, hl => by
    rw [← Option.some.inj hh]
    have hadj : adjP x v := (List.chain'_cons.mp hseg.2).1
    have ih := seg_heuristic m goal hw (v :: rest) v z
      ⟨fun p hp => hseg.1 p (List.mem_cons_of_mem x hp), (List.chain'_cons.mp hseg.2).2⟩
      rfl hl
    have hstep := heuristic_adj x v goal hadj
    have hwv := hw v
    show heuristic x goal ≤ W m v + pathCost m (v :: rest) + heuristic z goal
    omega

theorem ble_fin_fin (a b : ℕ) : Cost.ble (Cost.fin a) (Cost.fin b) = true ↔ a ≤ b := by
  simp [Cost.ble]

theorem blt_fin_fin (a b : ℕ) : Cost.blt (Cost.fin a) (Cost.fin b) = true ↔ a < b := by
  simp [Cost.blt]

theorem ble_refl (a : Cost) : Cost.ble a a = true := by
  cases a <;> simp [Cost.ble]

theorem ble_trans (a b c : Cost) (h1 : Cost.ble a b = true) (h2 : Cost.ble b c = true) :
    Cost.ble a c = true := by
  cases a <;> cases b <;> cases c <;> simp_all [Cost.ble] <;> omega

theorem ble_of_not_blt (a b : Cost) (h : ¬ Cost.blt a b = true) : Cost.ble b a = true := by
  cases a <;> cases b <;> simp_all [Cost.ble, Cost.blt] <;> omega

theorem ble_of_blt (a b : Cost) (h : Cost.blt a b = true) : Cost.ble a b = true := by
  cases a <;> cases b <;> simp_all [Cost.ble, Cost.blt] <;> omega

theorem ble_inf_iff (a : Cost) : Cost.ble Cost.inf a = true ↔ a = Cost.inf := by
  cases a <;> simp [Cost.ble]

theorem ble_fin_of_ble (a : Cost) (b : ℕ) (h : Cost.ble a (Cost.fin b) = true) :
    ∃ n, a = Cost.fin n ∧ n ≤ b := by
  cases a with
  | fin n => exact ⟨n, rfl, (ble_fin_fin n b).mp h⟩
  | inf => simp [Cost.ble] at h

theorem add_fin_fin (a b : ℕ) :
    Cost.add (Cost.fin a) (Cost.fin b) = Cost.fin (a + b) := rfl

theorem fupd_self {β : Type} (f : ℤ × ℤ → β) (k : ℤ × ℤ) (v : β) : fupd f k v k = v := by
  simp [fupd]

theorem fupd_ne {β : Type} (f : ℤ × ℤ → β) (k q : ℤ × ℤ) (v : β) (h : q ≠ k) :
    fupd f k v q = f q := by
  simp [fupd, h]

theorem fval_eq_fin (f : ℤ × ℤ → Option Cost) (p : ℤ × ℤ) (n : ℕ)
    (h : f p = some (Cost.fin n)) : fval f p = Cost.fin n := by
  simp [fval, h]

theorem fval_ne_inf (f : ℤ × ℤ → Option Cost) (p : ℤ × ℤ) (h : fval f p ≠ Cost.inf) :
    ∃ n, f p = some (Cost.fin n) := by
  unfold fval at h
  cases hf : f p with
  | none => rw [hf] at h; simp at h
  | some c =>
    cases c with
    | fin n => exact ⟨n, rfl⟩
    | inf => rw [hf] at h; simp at h

theorem selectFold_spec (f : ℤ × ℤ → Option Cost) :
    ∀ (l : List (ℤ × ℤ)) (acc : Option (ℤ × ℤ) × Cost),
      (∀ y ∈ l, Cost.ble (l.foldl (selectStep f) acc).2 (fval f y) = true) ∧
      Cost.ble (l.foldl (selectStep f) acc).2 acc.2 = true ∧
      (l.foldl (selectStep f) acc = acc ∨
        ∃ u ∈ l, (l.foldl (selectStep f) acc).1 = some u ∧
          (l.foldl (selectStep f) acc).2 = fval f u)
  | [], acc => ⟨fun y hy => absurd hy (List.not_mem_nil y), ble_refl acc.2, Or.inl rfl⟩
  | y0 :: l, acc => by
    have ih := selectFold_spec f l (selectStep f acc y0)
    have hstep : Cost.ble (selectStep f acc y0).2 acc.2 = true ∧
        Cost.ble (selectStep f acc y0).2 (fval f y0) = true := by
      unfold selectStep
      by_cases hb : Cost.blt (fval f y0) acc.2 = true
      · rw [if_pos hb]
        exact ⟨ble_of_blt _ _ hb, ble_refl _⟩
      · rw [if_neg hb]
        exact ⟨ble_refl _, ble_of_not_blt _ _ hb⟩
    have hfold : (y0 :: l).foldl (selectStep f) acc = l.foldl (selectStep f) (selectStep f acc y0) := rfl
    rw [hfold]
    refine ⟨?_, ?_, ?_⟩
    · intro y hy
      rcases List.mem_cons.mp hy with rfl | hy
      · exact ble_trans _ _ _ ih.2.1 hstep.2
      · exact ih.1 y hy
    · exact ble_trans _ _ _ ih.2.1 hstep.1
    · rcases ih.2.2 with heq | ⟨u, hu, h1, h2⟩
      · rw [heq]
        unfold selectStep
        by_cases hb : Cost.blt (fval f y0) acc.2 = true
        · rw [if_pos hb]
          exact Or.inr ⟨y0, List.mem_cons_self y0 l, rfl, rfl⟩
        · rw [if_neg hb]
          exact Or.inl rfl
      · exact Or.inr ⟨u, List.mem_cons_of_mem y0 hu, h1, h2⟩

theorem selectMin_spec (f : ℤ × ℤ → Option Cost) (l : List (ℤ × ℤ)) (u : ℤ × ℤ)
    (h : selectMin f l = some u) :
    u ∈ l ∧ ∀ y ∈ l, Cost.ble (fval f u) (fval f y) = true := by
  have hs := selectFold_spec f l (none, Cost.inf)
  unfold selectMin at h
  rcases hs.2.2 with heq | ⟨u', hu', h1, h2⟩
  · rw [heq] at h
    exact Option.noConfusion h
  · rw [h1] at h
    obtain rfl : u' = u := Option.some.inj h
    refine ⟨hu', fun y hy => ?_⟩
    have := hs.1 y hy
    rw [h2] at this
    exact this

theorem selectMin_progress (f : ℤ × ℤ → Option Cost) (l : List (ℤ × ℤ)) (y0 : ℤ × ℤ)
    (hy0 : y0 ∈ l) (hfin : fval f y0 ≠ Cost.inf) :
    ∃ u, selectMin f l = some u := by
  have hs := selectFold_spec f l (none, Cost.inf)
  rcases hs.2.2 with heq | ⟨u, hu, h1, h2⟩
  · have := hs.1 y0 hy0
    rw [heq] at this
    rw [(ble_inf_iff _).mp this] at hfin
    exact absurd rfl hfin
  · exact ⟨u, by unfold selectMin; rw [h1]⟩

/-- Exactness at a popped minimum: its gScore is a lower bound on the cost
of every valid path reaching it (main A* argument, by walking the path and
using consistency of the Manhattan heuristic for positive weights). -/
theorem exactAux (m : TileMap) (start goal : ℤ × ℤ) (st : AState)
    (hw : ∀ p, 1 ≤ W m p)
    (hI : AInv m start goal st) (cur : ℤ × ℤ) (c : ℕ)
    (hcur : cur ∈ st.openSet)
    (hmin : ∀ y ∈ st.openSet, Cost.ble (fval st.fScore cur) (fval st.fScore y) = true)
    (hc : st.gScore cur = some (Cost.fin c)) :
    ∀ (L : List (ℤ × ℤ)) (s : ℤ × ℤ) (gs : ℕ), st.gScore s = some (Cost.fin gs) →
      SegOk m L → L.head? = some s → L.getLast? = some cur →
      c ≤ gs + pathCost m L
  | [], s, gs, _, _, hh, _ => by exact Option.noConfusion hh
  | [x], s, gs, hgs, _, hh, hl => by
    obtain rfl : s = x := (Option.some.inj hh).symm
    obtain rfl : s = cur := Option.some.inj hl
    rw [hc] at hgs
    obtain rfl : c = gs := Cost.fin.inj (Option.some.inj hgs)
    simp [pathCost]
  | x :: v :: rest, s, gs, hgs, hseg, hh, hl => by
    obtain rfl : s = x := (Option.some.inj hh).symm
    rcases (hI.1.dom s).mp (by rw [hgs]; exact Option.noConfusion) with hsin | hsin
    · have hble := hmin s hsin
      unfold fval at hble
      rw [hI.1.fRel cur, hI.1.fRel s, hc, hgs] at hble
      simp only [Option.map_some', Option.getD_some] at hble
      rw [add_fin_fin, add_fin_fin] at hble
      rw [ble_fin_fin] at hble
      have hcons := seg_heuristic m goal hw (s :: v :: rest) s cur hseg rfl hl
      omega
    · have hadj : adjP s v := (List.chain'_cons.mp hseg.2).1
      have hokv : okP m v := hseg.1 v (List.mem_cons_of_mem s (List.mem_cons_self v rest))
      have hnb : v ∈ getNeighbors m s := mem_getNeighbors_of m s v hadj hokv
      have hrel := hI.2 s hsin v hnb
      unfold relaxedE at hrel
      rw [fval_eq_fin st.gScore s gs hgs, add_fin_fin] at hrel
      obtain ⟨gv, hgv, hgvle⟩ := ble_fin_of_ble _ _ hrel
      have hgv' : st.gScore v = some (Cost.fin gv) := by
        rcases fval_ne_inf st.gScore v (by rw [hgv]; exact Cost.noConfusion) with ⟨n, hn⟩
        rw [fval_eq_fin st.gScore v n hn] at hgv
        rw [hn, Cost.fin.inj hgv]
      have ih := exactAux m start goal st hw hI cur c hcur hmin hc (v :: rest) v gv hgv'
        ⟨fun p hp => hseg.1 p (List.mem_cons_of_mem s hp), (List.chain'_cons.mp hseg.2).2⟩
        rfl hl
      show c ≤ gs + (W m v + pathCost m (v :: rest))
      omega

/-- While an uncollected node reachable by a valid path remains, the open
set is nonempty. -/
theorem openNonemptyAux (m : TileMap) (start goal : ℤ × ℤ) (st : AState)
    (hI : AInv m start goal st) :
    ∀ (L : List (ℤ × ℤ)) (s z : ℤ × ℤ), st.gScore s ≠ none →
      SegOk m L → L.head? = some s → L.getLast? = some z →
      z ∉ st.closedSet → ∃ y, y ∈ st.openSet
  | [], s, z, _, _, hh, _, _ => by exact Option.noConfusion hh
  | [x], s, z, hgs, _, hh, hl, hz => by
    obtain rfl : s = x := (Option.some.inj hh).symm
    obtain rfl : s = z := Option.some.inj hl
    rcases (hI.1.dom s).mp hgs with h | h
    · exact ⟨s, h⟩
    · exact absurd h hz
  | x :: v :: rest, s, z, hgs, hseg, hh, hl, hz => by
    obtain rfl : s = x := (Option.some.inj hh).symm
    rcases (hI.1.dom s).mp hgs with hsin | hsin
    · exact ⟨s, hsin⟩
    · have hadj : adjP s v := (List.chain'_cons.mp hseg.2).1
      have hokv : okP m v := hseg.1 v (List.mem_cons_of_mem s (List.mem_cons_self v rest))
      have hnb : v ∈ getNeighbors m s := mem_getNeighbors_of m s v hadj hokv
      have hrel := hI.2 s hsin v hnb
      unfold relaxedE at hrel
      obtain ⟨gs', hgs'⟩ := hI.1.gFin s hgs
      rw [fval_eq_fin st.gScore s gs' hgs', add_fin_fin] at hrel
      obtain ⟨gv, hgv, _⟩ := ble_fin_of_ble _ _ hrel
      have hgv' : st.gScore v ≠ none := by
        rcases fval_ne_inf st.gScore v (by rw [hgv]; exact Cost.noConfusion) with ⟨n, hn⟩
        rw [hn]
        exact Option.noConfusion
      exact openNonemptyAux m start goal st hI (v :: rest) v z hgv'
        ⟨fun p hp => hseg.1 p (List.mem_cons_of_mem s hp), (List.chain'_cons.mp hseg.2).2⟩
        rfl hl hz

theorem not_ble_fin (a : Cost) (b : ℕ) (h : ¬ Cost.ble a (Cost.fin b) = true) :
    a = Cost.inf ∨ ∃ n, a = Cost.fin n ∧ b < n := by
  cases a with
  | inf => exact Or.inl rfl
  | fin n =>
    refine Or.inr ⟨n, rfl, ?_⟩
    rw [ble_fin_fin] at h
    omega

/-- One neighbor relaxation preserves the core invariant, keeps the closed
set and the expanded node's gScore, establishes the relaxed condition for
the processed edge, and preserves previously relaxed edges out of the
closed set. -/
theorem relaxOne_pres (m : TileMap) (start goal : ℤ × ℤ) (st : AState)
    (cur nb : ℤ × ℤ) (c : ℕ)
    (hC : AInvC m start goal st)
    (hcl : cur ∈ st.closedSet)
    (hc : st.gScore cur = some (Cost.fin c))
    (hnb : nb ∈ getNeighbors m cur) :
    AInvC m start goal (relaxOne m goal cur st nb) ∧
    (relaxOne m goal cur st nb).closedSet = st.closedSet ∧
    (relaxOne m goal cur st nb).gScore cur = some (Cost.fin c) ∧
    relaxedE m (relaxOne m goal cur st nb) cur nb ∧
    (∀ x ∈ st.closedSet, (relaxOne m goal cur st nb).gScore x = st.gScore x) ∧
    (∀ x, Cost.ble (fval (relaxOne m goal cur st nb).gScore x) (fval st.gScore x) = true) := by
  have hnbcur : nb ≠ cur := mem_getNeighbors_ne m cur nb hnb
  have hoknb : okP m nb := mem_getNeighbors_ok m cur nb hnb
  have hadjnb : adjP cur nb := mem_getNeighbors_adj m cur nb hnb
  have hfvcur : fval st.gScore cur = Cost.fin c := fval_eq_fin _ _ _ hc
  unfold relaxOne updateNb
  dsimp only
  by_cases hcl2 : nb ∈ st.closedSet
  · rw [if_pos hcl2]
    obtain ⟨gnb, hgnb⟩ := hC.gFin nb ((hC.dom nb).mpr (Or.inr hcl2))
    obtain ⟨l, hl, hlc⟩ := hC.attained cur c hc
    obtain ⟨hl', hlc'⟩ := validPath_concat m start cur nb l hl hoknb hadjnb
    have hle : gnb ≤ c + W m nb := by
      have := hC.closedExact nb hcl2 gnb hgnb (l ++ [nb]) hl'
      omega
    have hrel : relaxedE m st cur nb := by
      unfold relaxedE
      rw [fval_eq_fin _ _ _ hgnb, hfvcur, add_fin_fin, ble_fin_fin]
      exact hle
    exact ⟨hC, rfl, hc, hrel, fun x _ => rfl, fun x => ble_refl _⟩
  · rw [if_neg hcl2]
    have htent : Cost.add (fval st.gScore cur) (Cost.fin ((tileAt m nb).weight.getD 1)) =
        Cost.fin (c + W m nb) := by
      rw [hfvcur]
      rfl
    by_cases hop : nb ∈ st.openSet
    · rw [if_neg (by simpa using hop)]
      by_cases hble : Cost.ble (fval st.gScore nb)
          (Cost.add (fval st.gScore cur) (Cost.fin ((tileAt m nb).weight.getD 1))) = true
      · rw [if_pos hble]
        exact ⟨hC, rfl, hc, hble, fun x _ => rfl, fun x => ble_refl _⟩
      · rw [if_neg hble]
        rw [htent] at hble
        obtain ⟨gnb, hgnb⟩ := hC.gFin nb ((hC.dom nb).mpr (Or.inl hop))
        have hgt : c + W m nb < gnb := by
          rcases not_ble_fin _ _ hble with h | ⟨n, hn, h⟩
          · rw [fval_eq_fin _ _ _ hgnb] at h
            exact Cost.noConfusion h
          · rw [fval_eq_fin _ _ _ hgnb] at hn
            rw [Cost.fin.inj hn]
            exact h
        have hnbs : nb ≠ start := by
          intro he
          rw [he, hC.gStart] at hgnb
          have := Cost.fin.inj (Option.some.inj hgnb)
          omega
        obtain ⟨l, hl, hlc⟩ := hC.attained cur c hc
        obtain ⟨hl', hlc'⟩ := validPath_concat m start cur nb l hl hoknb hadjnb
        rw [htent]
        refine ⟨?_, rfl, ?_, ?_, ?_, ?_⟩
        all_goals (try dsimp only)
        · refine ⟨hC.openNodup, hC.openClosed, ?_, ?_, ?_, ?_, ?_, ?_, ?_, ?_, ?_, ?_, hC.closedCells⟩
          all_goals (try dsimp only)
          · intro p
            by_cases hp : p = nb
            · obtain rfl := hp.symm
              rw [fupd_self]
              simp only [ne_eq, reduceCtorEq, not_false_eq_true, true_iff]
              exact Or.inl hop
            · rw [fupd_ne _ _ _ _ hp]
              exact hC.dom p
          · intro p hp
            by_cases hpe : p = nb
            · obtain rfl := hpe.symm
              exact hoknb
            · rw [fupd_ne _ _ _ _ hpe] at hp
              exact hC.okDom p hp
          · intro p hp
            by_cases hpe : p = nb
            · obtain rfl := hpe.symm
              rw [fupd_self]
              exact ⟨c + W m nb, rfl⟩
            · rw [fupd_ne _ _ _ _ hpe] at hp ⊢
              exact hC.gFin p hp
          · intro p
            by_cases hpe : p = nb
            · obtain rfl := hpe.symm
              rw [fupd_self, fupd_self]
              rfl
            · rw [fupd_ne _ _ _ _ hpe, fupd_ne _ _ _ _ hpe]
              exact hC.fRel p
          · intro p n hp
            by_cases hpe : p = nb
            · obtain rfl := hpe.symm
              rw [fupd_self] at hp
              obtain rfl : c + W m nb = n := Cost.fin.inj (Option.some.inj hp)
              exact ⟨l ++ [nb], hl', by omega⟩
            · rw [fupd_ne _ _ _ _ hpe] at hp
              exact hC.attained p n hp
          · intro p hp n hn l2 hl2
            have hpe : p ≠ nb := fun he => hcl2 (by rw [← he]; exact hp)
            rw [fupd_ne _ _ _ _ hpe] at hn
            exact hC.closedExact p hp n hn l2 hl2
          · rw [fupd_ne _ _ _ _ (fun he => hnbs he.symm)]
            exact hC.gStart
          · rw [fupd_ne _ _ _ _ (fun he => hnbs he.symm)]
            exact hC.cfStart
          · intro p hps hp
            by_cases hpe : p = nb
            · obtain rfl := hpe.symm
              rw [fupd_self]
              exact Option.noConfusion
            · rw [fupd_ne _ _ _ _ hpe] at hp ⊢
              exact hC.cfTotal p hps hp
          · intro p q hpq
            by_cases hpe : p = nb
            · obtain rfl := hpe.symm
              rw [fupd_self] at hpq
              obtain rfl : cur = q := Option.some.inj hpq
              refine ⟨c + W m nb, c, by rw [fupd_self], ?_, le_refl _, hadjnb, hoknb⟩
              rw [fupd_ne _ _ _ _ hnbcur.symm]
              exact hc
            · rw [fupd_ne _ _ _ _ hpe] at hpq
              obtain ⟨gp, gq, h1, h2, h3, h4, h5⟩ := hC.cf p q hpq
              by_cases hqe : q = nb
              · obtain rfl := hqe.symm
                rw [hgnb] at h2
                obtain rfl : gnb = gq := Cost.fin.inj (Option.some.inj h2)
                refine ⟨gp, c + W m nb, ?_, by rw [fupd_self], by omega, h4, h5⟩
                rw [fupd_ne _ _ _ _ hpe]
                exact h1
              · refine ⟨gp, gq, ?_, ?_, h3, h4, h5⟩
                · rw [fupd_ne _ _ _ _ hpe]
                  exact h1
                · rw [fupd_ne _ _ _ _ hqe]
                  exact h2
        · rw [fupd_ne _ _ _ _ hnbcur.symm]
          exact hc
        · unfold relaxedE
          dsimp only
          unfold fval
          rw [fupd_self, fupd_ne _ _ _ _ hnbcur.symm, hc]
          simp only [Option.getD_some]
          rw [add_fin_fin, ble_fin_fin]
        · intro x hx
          rw [fupd_ne _ _ _ _ (fun he => hcl2 (by rw [← he]; exact hx))]
        · intro x
          by_cases hxe : x = nb
          · obtain rfl := hxe.symm
            unfold fval
            rw [fupd_self, hgnb]
            simp only [Option.getD_some]
            rw [ble_fin_fin]
            omega
          · unfold fval
            rw [fupd_ne _ _ _ _ hxe]
            exact ble_refl _
    · rw [if_pos (by simpa using hop)]
      have hgnone : st.gScore nb = none := by
        by_contra hne
        rcases (hC.dom nb).mp hne with h | h
        · exact hop h
        · exact hcl2 h
      have hnbs : nb ≠ start := by
        intro he
        rw [he, hC.gStart] at hgnone
        exact Option.noConfusion hgnone
      obtain ⟨l, hl, hlc⟩ := hC.attained cur c hc
      obtain ⟨hl', hlc'⟩ := validPath_concat m start cur nb l hl hoknb hadjnb
      rw [htent]
      refine ⟨?_, rfl, ?_, ?_, ?_, ?_⟩
      all_goals (try dsimp only)
      · refine ⟨?_, ?_, ?_, ?_, ?_, ?_, ?_, ?_, ?_, ?_, ?_, ?_, hC.closedCells⟩
        all_goals (try dsimp only)
        · rw [List.nodup_append]
          exact ⟨hC.openNodup, List.nodup_singleton nb,
            fun a ha hb => hop ((List.mem_singleton.mp hb) ▸ ha)⟩
        · intro p hp
          rcases List.mem_append.mp hp with hp | hp
          · exact hC.openClosed p hp
          · rw [List.mem_singleton.mp hp]
            exact hcl2
        · intro p
          by_cases hpe : p = nb
          · obtain rfl := hpe.symm
            rw [fupd_self]
            simp only [ne_eq, reduceCtorEq, not_false_eq_true, true_iff]
            exact Or.inl (List.mem_append.mpr (Or.inr (List.mem_singleton_self nb)))
          · rw [fupd_ne _ _ _ _ hpe]
            rw [hC.dom p]
            constructor
            · rintro (h | h)
              · exact Or.inl (List.mem_append.mpr (Or.inl h))
              · exact Or.inr h
            · rintro (h | h)
              · rcases List.mem_append.mp h with h | h
                · exact Or.inl h
                · exact absurd (List.mem_singleton.mp h) hpe
              · exact Or.inr h
        · intro p hp
          by_cases hpe : p = nb
          · obtain rfl := hpe.symm
            exact hoknb
          · rw [fupd_ne _ _ _ _ hpe] at hp
            exact hC.okDom p hp
        · intro p hp
          by_cases hpe : p = nb
          · obtain rfl := hpe.symm
            rw [fupd_self]
            exact ⟨c + W m nb, rfl⟩
          · rw [fupd_ne _ _ _ _ hpe] at hp ⊢
            exact hC.gFin p hp
        · intro p
          by_cases hpe : p = nb
          · obtain rfl := hpe.symm
            rw [fupd_self, fupd_self]
            rfl
          · rw [fupd_ne _ _ _ _ hpe, fupd_ne _ _ _ _ hpe]
            exact hC.fRel p
        · intro p n hp
          by_cases hpe : p = nb
          · obtain rfl := hpe.symm
            rw [fupd_self] at hp
            obtain rfl : c + W m nb = n := Cost.fin.inj (Option.some.inj hp)
            exact ⟨l ++ [nb], hl', by omega⟩
          · rw [fupd_ne _ _ _ _ hpe] at hp
            exact hC.attained p n hp
        · intro p hp n hn l2 hl2
          have hpe : p ≠ nb := fun he => hcl2 (by rw [← he]; exact hp)
          rw [fupd_ne _ _ _ _ hpe] at hn
          exact hC.closedExact p hp n hn l2 hl2
        · rw [fupd_ne _ _ _ _ (fun he => hnbs he.symm)]
          exact hC.gStart
        · rw [fupd_ne _ _ _ _ (fun he => hnbs he.symm)]
          exact hC.cfStart
        · intro p hps hp
          by_cases hpe : p = nb
          · obtain rfl := hpe.symm
            rw [fupd_self]
            exact Option.noConfusion
          · rw [fupd_ne _ _ _ _ hpe] at hp ⊢
            exact hC.cfTotal p hps hp
        · intro p q hpq
          by_cases hpe : p = nb
          · obtain rfl := hpe.symm
            rw [fupd_self] at hpq
            obtain rfl : cur = q := Option.some.inj hpq
            refine ⟨c + W m nb, c, by rw [fupd_self], ?_, le_refl _, hadjnb, hoknb⟩
            rw [fupd_ne _ _ _ _ hnbcur.symm]
            exact hc
          · rw [fupd_ne _ _ _ _ hpe] at hpq
            obtain ⟨gp, gq, h1, h2, h3, h4, h5⟩ := hC.cf p q hpq
            have hqe : q ≠ nb := by
              intro he
              rw [he, hgnone] at h2
              exact Option.noConfusion h2
            refine ⟨gp, gq, ?_, ?_, h3, h4, h5⟩
            · rw [fupd_ne _ _ _ _ hpe]
              exact h1
            · rw [fupd_ne _ _ _ _ hqe]
              exact h2
      · rw [fupd_ne _ _ _ _ hnbcur.symm]
        exact hc
      · unfold relaxedE
        dsimp only
        unfold fval
        rw [fupd_self, fupd_ne _ _ _ _ hnbcur.symm, hc]
        simp only [Option.getD_some]
        rw [add_fin_fin, ble_fin_fin]
      · intro x hx
        rw [fupd_ne _ _ _ _ (fun he => hcl2 (by rw [← he]; exact hx))]
      · intro x
        by_cases hxe : x = nb
        · obtain rfl := hxe.symm
          unfold fval
          rw [fupd_self, hgnone]
          simp only [Option.getD_some, Option.getD_none]
          exact rfl
        · unfold fval
          rw [fupd_ne _ _ _ _ hxe]
          exact ble_refl _

theorem relaxedE_mono (m : TileMap) (st st' : AState) (p v : ℤ × ℤ)
    (h : relaxedE m st p v) (he : st'.gScore p = st.gScore p)
    (hm : Cost.ble (fval st'.gScore v) (fval st.gScore v) = true) :
    relaxedE m st' p v := by
  unfold relaxedE at *
  have hp : fval st'.gScore p = fval st.gScore p := by
    unfold fval
    rw [he]
  rw [hp]
  exact ble_trans _ _ _ hm h

/-- Folding the neighbor relaxation over the open edges of the freshly
closed node restores the full invariant. -/
theorem relaxFold (m : TileMap) (start goal cur : ℤ × ℤ) (c : ℕ) :
    ∀ (todo : List (ℤ × ℤ)) (st : AState),
      AInvC m start goal st →
      cur ∈ st.closedSet →
      st.gScore cur = some (Cost.fin c) →
      (∀ v ∈ todo, v ∈ getNeighbors m cur) →
      (∀ p ∈ st.closedSet, ∀ v ∈ getNeighbors m p, (p = cur → v ∉ todo) → relaxedE m st p v) →
      AInvC m start goal (todo.foldl (relaxOne m goal cur) st) ∧
      (todo.foldl (relaxOne m goal cur) st).closedSet = st.closedSet ∧
      (∀ p ∈ (todo.foldl (relaxOne m goal cur) st).closedSet, ∀ v ∈ getNeighbors m p,
        relaxedE m (todo.foldl (relaxOne m goal cur) st) p v)
  | [], st, hC, hcl, hc, htodo, hpend =>
    ⟨hC, rfl, fun p hp v hv => hpend p hp v hv (fun _ => List.not_mem_nil v)⟩
  | nb :: rest, st, hC, hcl, hc, htodo, hpend => by
    have hnb : nb ∈ getNeighbors m cur := htodo nb (List.mem_cons_self nb rest)
    obtain ⟨hC1, hcs1, hgc1, hrel1, hclg1, hmono1⟩ :=
      relaxOne_pres m start goal st cur nb c hC hcl hc hnb
    have hfold : (nb :: rest).foldl (relaxOne m goal cur) st =
        rest.foldl (relaxOne m goal cur) (relaxOne m goal cur st nb) := rfl
    rw [hfold]
    have hpend1 : ∀ p ∈ (relaxOne m goal cur st nb).closedSet,
        ∀ v ∈ getNeighbors m p, (p = cur → v ∉ rest) →
        relaxedE m (relaxOne m goal cur st nb) p v := by
      intro p hp v hv hguard
      rw [hcs1] at hp
      by_cases hpc : p = cur
      · subst hpc
        by_cases hvnb : v = nb
        · subst hvnb
          exact hrel1
        · have hold := hpend p hp v hv (fun _ => by
            intro hmem
            rcases List.mem_cons.mp hmem with h | h
            · exact hvnb h
            · exact hguard rfl h)
          exact relaxedE_mono m st _ p v hold (hclg1 p hp) (hmono1 v)
      · have hold := hpend p hp v hv (fun h => absurd h hpc)
        exact relaxedE_mono m st _ p v hold (hclg1 p hp) (hmono1 v)
    obtain ⟨hA, hB, hD⟩ := relaxFold m start goal cur c rest (relaxOne m goal cur st nb)
      hC1 (by rw [hcs1]; exact hcl) hgc1
      (fun v hv => htodo v (List.mem_cons_of_mem nb hv)) hpend1
    exact ⟨hA, by rw [hB, hcs1], hD⟩

/-- Correctness of path reconstruction: for a strictly gScore-decreasing
cameFrom graph over the grid cells, following the links from any scored node
yields a valid path from the start whose cost is bounded by the node's
gScore; the fuel only needs to reach the cell count. -/
theorem reconstructAux (m : TileMap) (start goal : ℤ × ℤ) (st : AState)
    (hC : AInvC m start goal st) (hw : ∀ p, 1 ≤ W m p) :
    ∀ (fuel : ℕ) (p : ℤ × ℤ) (gp : ℕ) (F : Finset (ℤ × ℤ)),
      st.gScore p = some (Cost.fin gp) →
      (∀ q ∈ F, ∃ gq, st.gScore q = some (Cost.fin gq) ∧ gp < gq) →
      F ⊆ cells m → (cells m).card ≤ fuel + F.card →
      validPath m start p (reconstructPath fuel st.cameFrom p) ∧
      pathCost m (reconstructPath fuel st.cameFrom p) ≤ gp
  | 0, p, gp, F, hgp, hF, hsub, hcard => by
    exfalso
    have hok : okP m p := hC.okDom p (by rw [hgp]; exact Option.noConfusion)
    have hpc : p ∈ cells m := mem_cells_of_valid m p hok.1
    have hFeq : F = cells m := Finset.eq_of_subset_of_card_le hsub (by omega)
    obtain ⟨gq, hgq, hlt⟩ := hF p (by rw [hFeq]; exact hpc)
    rw [hgp] at hgq
    have := Cost.fin.inj (Option.some.inj hgq)
    omega
  | fuel + 1, p, gp, F, hgp, hF, hsub, hcard => by
    have hok : okP m p := hC.okDom p (by rw [hgp]; exact Option.noConfusion)
    cases hcf : st.cameFrom p with
    | none =>
      have hps : p = start := by
        by_contra hne
        exact hC.cfTotal p hne (by rw [hgp]; exact Option.noConfusion) hcf
      have hre : reconstructPath (fuel + 1) st.cameFrom p = [p] := by
        show (match st.cameFrom p with
          | none => [p]
          | some prev => reconstructPath fuel st.cameFrom prev ++ [p]) = [p]
        rw [hcf]
      rw [hre]
      subst hps
      exact ⟨⟨rfl, rfl, fun q hq => by rw [List.mem_singleton.mp hq]; exact hok,
        List.chain'_singleton p⟩, by simp [pathCost]⟩
    | some prev =>
      obtain ⟨gp', gq, hgp', hgq, hle, hadj, _⟩ := hC.cf p prev hcf
      rw [hgp] at hgp'
      obtain rfl : gp = gp' := Cost.fin.inj (Option.some.inj hgp')
      have hwp := hw p
      have hpF : p ∉ F := by
        intro hmem
        obtain ⟨gq', hgq', hlt⟩ := hF p hmem
        rw [hgp] at hgq'
        have := Cost.fin.inj (Option.some.inj hgq')
        omega
      have hpc : p ∈ cells m := mem_cells_of_valid m p hok.1
      have ih := reconstructAux m start goal st hC hw fuel prev gq (insert p F) hgq
        (by
          intro q hq
          rcases Finset.mem_insert.mp hq with rfl | hq
          · exact ⟨gp, hgp, by omega⟩
          · obtain ⟨gq', hgq', hlt⟩ := hF q hq
            exact ⟨gq', hgq', by omega⟩)
        (by
          intro q hq
          rcases Finset.mem_insert.mp hq with rfl | hq
          · exact hpc
          · exact hsub hq)
        (by rw [Finset.card_insert_of_not_mem hpF]; omega)
      have hre : reconstructPath (fuel + 1) st.cameFrom p =
          reconstructPath fuel st.cameFrom prev ++ [p] := by
        show (match st.cameFrom p with
          | none => [p]
          | some prev => reconstructPath fuel st.cameFrom prev ++ [p]) =
          reconstructPath fuel st.cameFrom prev ++ [p]
        rw [hcf]
      rw [hre]
      obtain ⟨hvp, hcost⟩ := validPath_concat m start prev p _ ih.1 hok hadj
      refine ⟨hvp, ?_⟩
      rw [hcost]
      have := ih.2
      omega

/-- Main loop correctness: from an invariant state with an uncollected goal
reachable by a valid path, and fuel at least the number of grid cells not
yet closed, the loop returns a valid optimal-cost path from start to goal. -/
theorem astarLoop_correct (m : TileMap) (start goal : ℤ × ℤ) (hw : ∀ p, 1 ≤ W m p) :
    ∀ (fuel : ℕ) (st : AState),
      AInv m start goal st →
      goal ∉ st.closedSet →
      (∃ l0, validPath m start goal l0) →
      m.width * m.height + 1 ≤ fuel + st.closedSet.card →
      ∃ wps c, astarLoop m goal fuel st = some ⟨wps, Cost.fin c⟩ ∧
        validPath m start goal wps ∧ pathCost m wps = c ∧
        ∀ l, validPath m start goal l → c ≤ pathCost m l
  | 0, st, hI, _, _, hfuel => by
    exfalso
    have hsub : st.closedSet ⊆ cells m := by
      intro x hx
      exact hI.1.closedCells x hx
    have h1 := Finset.card_le_card hsub
    have h2 := card_cells m
    omega
  | fuel + 1, st, hI, hgcl, hex, hfuel => by
    obtain ⟨l0, hl0⟩ := hex
    obtain ⟨y, hy⟩ := openNonemptyAux m start goal st hI l0 start goal
      (by rw [hI.1.gStart]; exact Option.noConfusion)
      ⟨hl0.2.2.1, hl0.2.2.2⟩ hl0.1 hl0.2.1 hgcl
    have hlen : ¬ st.openSet.length = 0 := by
      intro h0
      rw [List.length_eq_zero] at h0
      rw [h0] at hy
      exact List.not_mem_nil y hy
    obtain ⟨ny, hgy⟩ := hI.1.gFin y ((hI.1.dom y).mpr (Or.inl hy))
    have hfy : fval st.fScore y ≠ Cost.inf := by
      unfold fval
      rw [hI.1.fRel y, hgy]
      simp only [Option.map_some', Option.getD_some]
      rw [add_fin_fin]
      exact Cost.noConfusion
    obtain ⟨cur, hcur⟩ := selectMin_progress st.fScore st.openSet y hy hfy
    obtain ⟨hcuro, hmin⟩ := selectMin_spec st.fScore st.openSet cur hcur
    obtain ⟨c, hc⟩ := hI.1.gFin cur ((hI.1.dom cur).mpr (Or.inl hcuro))
    have hexact : ∀ L, validPath m start cur L → c ≤ pathCost m L := by
      intro L hL
      have := exactAux m start goal st hw hI cur c hcuro hmin hc L start 0
        hI.1.gStart ⟨hL.2.2.1, hL.2.2.2⟩ hL.1 hL.2.1
      omega
    have hok : okP m cur := hI.1.okDom cur (by rw [hc]; exact Option.noConfusion)
    by_cases hcg : cur = goal
    · obtain rfl := hcg
      have hred : astarLoop m cur (fuel + 1) st =
          some ⟨reconstructPath (m.width * m.height + 1) st.cameFrom cur,
            (st.gScore cur).getD (Cost.fin 0)⟩ := by
        show (if st.openSet.length = 0 then none
          else match selectMin st.fScore st.openSet with
            | none => none
            | some current =>
              if current = cur then
                some ⟨reconstructPath (m.width * m.height + 1) st.cameFrom current,
                  (st.gScore current).getD (Cost.fin 0)⟩
              else astarLoop m cur fuel
                (relax m cur current { st with openSet := st.openSet.erase current, closedSet := insert current st.closedSet })) = _
        rw [if_neg hlen, hcur]
        dsimp only
        rw [if_pos rfl]
      obtain ⟨hvp, hcost⟩ := reconstructAux m start cur st hI.1 hw
        (m.width * m.height + 1) cur c ∅ hc
        (fun q hq => absurd hq (Finset.not_mem_empty q))
        (Finset.empty_subset _)
        (by have := card_cells m; rw [Finset.card_empty]; omega)
      have heq : pathCost m (reconstructPath (m.width * m.height + 1) st.cameFrom cur) = c :=
        le_antisymm hcost (hexact _ hvp)
      refine ⟨reconstructPath (m.width * m.height + 1) st.cameFrom cur, c, ?_, hvp, heq, hexact⟩
      rw [hred, hc]
      rfl
    · have hcurcl : cur ∉ st.closedSet := hI.1.openClosed cur hcuro
      have hcells : cur ∈ cells m := mem_cells_of_valid m cur hok.1
      obtain ⟨st1, hst1⟩ : ∃ st1, st1 = { st with openSet := st.openSet.erase cur, closedSet := insert cur st.closedSet } := ⟨_, rfl⟩
      have hst1o : st1.openSet = st.openSet.erase cur := by rw [hst1]
      have hst1c : st1.closedSet = insert cur st.closedSet := by rw [hst1]
      have hst1g : st1.gScore = st.gScore := by rw [hst1]
      have hst1f : st1.fScore = st.fScore := by rw [hst1]
      have hst1cf : st1.cameFrom = st.cameFrom := by rw [hst1]
      have hC1 : AInvC m start goal st1 := by
        refine ⟨?_, ?_, ?_, ?_, ?_, ?_, ?_, ?_, ?_, ?_, ?_, ?_, ?_⟩
        · rw [hst1o]
          exact List.Nodup.erase cur hI.1.openNodup
        · intro p hp
          rw [hst1o] at hp
          rw [hst1c]
          have hp' := (List.Nodup.mem_erase_iff hI.1.openNodup).mp hp
          intro hmem
          rcases Finset.mem_insert.mp hmem with h | h
          · exact hp'.1 h
          · exact hI.1.openClosed p hp'.2 h
        · intro p
          rw [hst1o, hst1c, hst1g, hI.1.dom p]
          constructor
          · rintro (h | h)
            · by_cases hpc : p = cur
              · exact Or.inr (Finset.mem_insert.mpr (Or.inl hpc))
              · exact Or.inl ((List.Nodup.mem_erase_iff hI.1.openNodup).mpr ⟨hpc, h⟩)
            · exact Or.inr (Finset.mem_insert.mpr (Or.inr h))
          · rintro (h | h)
            · exact Or.inl ((List.Nodup.mem_erase_iff hI.1.openNodup).mp h).2
            · rcases Finset.mem_insert.mp h with h | h
              · exact Or.inl (h ▸ hcuro)
              · exact Or.inr h
        · rw [hst1g]
          exact hI.1.okDom
        · rw [hst1g]
          exact hI.1.gFin
        · rw [hst1g, hst1f]
          exact hI.1.fRel
        · rw [hst1g]
          exact hI.1.attained
        · intro p hp n hn L hL
          rw [hst1c] at hp
          rw [hst1g] at hn
          rcases Finset.mem_insert.mp hp with rfl | hp
          · rw [hc] at hn
            obtain rfl : c = n := Cost.fin.inj (Option.some.inj hn)
            exact hexact L hL
          · exact hI.1.closedExact p hp n hn L hL
        · rw [hst1g]
          exact hI.1.gStart
        · rw [hst1cf]
          exact hI.1.cfStart
        · rw [hst1cf, hst1g]
          exact hI.1.cfTotal
        · rw [hst1cf, hst1g]
          exact hI.1.cf
        · intro p hp
          rw [hst1c] at hp
          rcases Finset.mem_insert.mp hp with rfl | hp
          · exact hcells
          · exact hI.1.closedCells p hp
      have hpend : ∀ p ∈ st1.closedSet, ∀ v ∈ getNeighbors m p,
          (p = cur → v ∉ getNeighbors m cur) → relaxedE m st1 p v := by
        intro p hp v hv hguard
        rw [hst1c] at hp
        rcases Finset.mem_insert.mp hp with rfl | hp
        · exact absurd hv (hguard rfl)
        · unfold relaxedE
          rw [hst1g]
          exact hI.2 p hp v hv
      obtain ⟨hC2, hcs2, hrel2⟩ := relaxFold m start goal cur c (getNeighbors m cur) st1
        hC1 (by rw [hst1c]; exact Finset.mem_insert_self cur st.closedSet)
        (by rw [hst1g]; exact hc) (fun v hv => hv) hpend
      have hI2 : AInv m start goal (relax m goal cur st1) := ⟨hC2, hrel2⟩
      have hred : astarLoop m goal (fuel + 1) st = astarLoop m goal fuel (relax m goal cur st1) := by
        show (if st.openSet.length = 0 then none
          else match selectMin st.fScore st.openSet with
            | none => none
            | some current =>
              if current = goal then
                some ⟨reconstructPath (m.width * m.height + 1) st.cameFrom current,
                  (st.gScore current).getD (Cost.fin 0)⟩
              else astarLoop m goal fuel
                (relax m goal current { st with openSet := st.openSet.erase current, closedSet := insert current st.closedSet })) = _
        rw [if_neg hlen, hcur]
        dsimp only
        rw [if_neg hcg, ← hst1]
      have hcard : (relax m goal cur st1).closedSet.card = st.closedSet.card + 1 := by
        unfold relax
        rw [hcs2, hst1c]
        rw [Finset.card_insert_of_not_mem hcurcl]
      have hgcl2 : goal ∉ (relax m goal cur st1).closedSet := by
        unfold relax
        rw [hcs2, hst1c]
        intro hmem
        rcases Finset.mem_insert.mp hmem with h | h
        · exact hcg h.symm
        · exact hgcl h
      obtain ⟨wps, c', h1, h2, h3, h4⟩ := astarLoop_correct m start goal hw fuel
        (relax m goal cur st1) hI2 hgcl2 ⟨l0, hl0⟩ (by omega)
      exact ⟨wps, c', by rw [hred]; exact h1, h2, h3, h4⟩

theorem W_pos_of_weights (m : TileMap)
    (h : ∀ row ∈ m.tiles, ∀ t ∈ row, 1 ≤ t.weight.getD 1) :
    ∀ p, 1 ≤ W m p := by
  intro p
  unfold W tileAt tileOr
  rw [List.getD_eq_getElem?_getD, List.getD_eq_getElem?_getD]
  cases hrow : m.tiles[p.2.toNat]? with
  | none => simp
  | some row =>
    simp only [Option.getD_some]
    cases ht : row[p.1.toNat]? with
    | none => simp
    | some t =>
      simp only [Option.getD_some]
      exact h row (List.getElem?_mem hrow) t (List.getElem?_mem ht)

theorem initState_inv (m : TileMap) (start goal : ℤ × ℤ) (hs : okP m start) :
    AInv m start goal (initState m start goal) := by
  constructor
  · refine ⟨?_, ?_, ?_, ?_, ?_, ?_, ?_, ?_, ?_, ?_, ?_, ?_, ?_⟩
    all_goals (unfold initState; dsimp only)
    · exact List.nodup_singleton start
    · intro p _
      exact Finset.not_mem_empty p
    · intro p
      by_cases hp : p = start
      · obtain rfl := hp.symm
        rw [fupd_self]
        simp
      · rw [fupd_ne _ _ _ _ hp]
        simp [hp]
    · intro p hp
      by_cases hpe : p = start
      · obtain rfl := hpe.symm
        exact hs
      · rw [fupd_ne _ _ _ _ hpe] at hp
        exact absurd rfl hp
    · intro p hp
      by_cases hpe : p = start
      · obtain rfl := hpe.symm
        rw [fupd_self]
        exact ⟨0, rfl⟩
      · rw [fupd_ne _ _ _ _ hpe] at hp
        exact absurd rfl hp
    · intro p
      by_cases hpe : p = start
      · obtain rfl := hpe.symm
        rw [fupd_self, fupd_self]
        simp only [Option.map_some']
        rw [add_fin_fin]
        rw [Nat.zero_add]
      · rw [fupd_ne _ _ _ _ hpe, fupd_ne _ _ _ _ hpe]
        rfl
    · intro p n hp
      by_cases hpe : p = start
      · obtain rfl := hpe.symm
        rw [fupd_self] at hp
        obtain rfl : (0 : ℕ) = n := Cost.fin.inj (Option.some.inj hp)
        exact ⟨[start], ⟨rfl, rfl, fun q hq => by rw [List.mem_singleton.mp hq]; exact hs,
          List.chain'_singleton start⟩, rfl⟩
      · rw [fupd_ne _ _ _ _ hpe] at hp
        exact Option.noConfusion hp
    · intro p hp
      exact absurd hp (Finset.not_mem_empty p)
    · rw [fupd_self]
    · intro p hps hp
      rw [fupd_ne _ _ _ _ hps] at hp
      exact absurd rfl hp
    · intro p q hpq
      exact Option.noConfusion hpq
    · intro p hp
      exact absurd hp (Finset.not_mem_empty p)
  · intro p hp
    exact absurd hp (Finset.not_mem_empty p)

/-- C2 (amended): on a map all of whose tile weights are at least 1 (the
default weight is 1), for distinct in-bounds non-Blocked endpoints joined by
some valid 4-connected passable path, findPath returns a path of waypoints
that are all passable, pairwise 4-adjacent, starting at start and ending at
goal, whose cost equals the sum of destination-tile weights along it and is
minimal among all such paths, and is at least the Manhattan distance. -/
theorem C2_astar_amended (m : TileMap) (start goal : ℤ × ℤ)
    (hw : ∀ p, 1 ≤ W m p)
    (hne : start ≠ goal)
    (hs : okP m start) (hg : okP m goal)
    (l0 : List (ℤ × ℤ)) (hl0 : validPath m start goal l0) :
    ∃ wps c, findPath m start goal = some ⟨wps, Cost.fin c⟩ ∧
      validPath m start goal wps ∧
      pathCost m wps = c ∧
      (∀ l, validPath m start goal l → c ≤ pathCost m l) ∧
      heuristic start goal ≤ c := by
  have hred : findPath m start goal =
      astarLoop m goal (m.width * m.height + 1) (initState m start goal) := by
    unfold findPath
    rw [if_neg (by simp [hs.1, hg.1]), if_neg hne, if_neg (not_or.mpr ⟨hs.2, hg.2⟩)]
  obtain ⟨wps, c, h1, h2, h3, h4⟩ := astarLoop_correct m start goal hw
    (m.width * m.height + 1) (initState m start goal)
    (initState_inv m start goal hs)
    (by unfold initState; dsimp only; exact Finset.not_mem_empty goal)
    ⟨l0, hl0⟩
    (by unfold initState; dsimp only; rw [Finset.card_empty])
  have hman : heuristic start goal ≤ c := by
    have hseg := seg_heuristic m goal hw wps start goal ⟨h2.2.2.1, h2.2.2.2⟩ h2.1 h2.2.1
    have hgg : heuristic goal goal = 0 := by
      unfold heuristic
      omega
    omega
  exact ⟨wps, c, by rw [hred]; exact h1, h2, h3, h4, hman⟩

/-- Counterexample to C2 as stated: on a map with stored weight 0 along the
bottom row, the Manhattan heuristic is inadmissible and findPath returns the
direct top path of cost 2, although the bottom detour is a valid path of
cost 1; so the returned cost is not minimal for arbitrary tile maps. -/
theorem C2_counterexample :
    findPath mapC2 (0, 0) (2, 0) = some ⟨[(0, 0), (1, 0), (2, 0)], Cost.fin 2⟩ ∧
    validPath mapC2 (0, 0) (2, 0) [(0, 0), (0, 1), (1, 1), (2, 1), (2, 0)] ∧
    pathCost mapC2 [(0, 0), (0, 1), (1, 1), (2, 1), (2, 0)] = 1 := by
  refine ⟨by decide, ⟨rfl, rfl, by decide, ?_⟩, by decide⟩
  simp only [List.chain'_cons, List.chain'_singleton]
  decide

/-- Witness for C2 on an all-default-weight 2-by-2 map. -/
theorem C2_astar_amended_witness :
    ∃ wps c, findPath mapC2w (0, 0) (1, 1) = some ⟨wps, Cost.fin c⟩ ∧
      validPath mapC2w (0, 0) (1, 1) wps ∧
      pathCost mapC2w wps = c ∧
      (∀ l, validPath mapC2w (0, 0) (1, 1) l → c ≤ pathCost mapC2w l) ∧
      heuristic (0, 0) (1, 1) ≤ c :=
  C2_astar_amended mapC2w (0, 0) (1, 1)
    (W_pos_of_weights mapC2w (by decide))
    (by decide) (by decide) (by decide)
    [(0, 0), (1, 0), (1, 1)] ⟨rfl, rfl, by decide,
      by simp only [List.chain'_cons, List.chain'_singleton]; decide⟩
